import Mathlib

/-!
Verification development for a user-space heap allocator with two variants:
an implicit free list (`implicit.c`, namespace `Impl`) and an explicit free
list with right-coalescing and in-place resize (namespace `E`).

Model: the segment is a word-granular memory `Nat → Nat` mapping a byte
address to the 64-bit word stored there; the code only accesses memory at
8-aligned addresses inside the segment.  Addresses are absolute natural
numbers; the null pointer is address 0.  All stores truncate modulo `2^64`
(C `size_t` semantics).  Client-facing pointers are `Option Nat` (`none` is
the C `NULL`).  Loops whose termination depends on heap well-formedness are
modelled with an explicit fuel parameter that is provably sufficient on
well-formed heaps.
-/

namespace HeapModel

/-- The machine word modulus: `size_t` arithmetic is modulo `2 ^ 64`. -/
def W : Nat := 2 ^ 64

/-- Alignment requirement for all blocks (from allocator.h). -/
def ALIGNMENT : Nat := 8

/-- Maximum size of a block request (from allocator.h: `1 << 30`). -/
def MAX_REQUEST_SIZE : Nat := 2 ^ 30

/-- Store word `v` at address `a` (a C store of a `size_t`, truncating mod `2^64`). -/
def wr (m : Nat → Nat) (a v : Nat) : Nat → Nat :=
  fun x => if x = a then v % W else m x

/-- Helper from the source: the size field of the header at `p`
(`*(size_t *)ptr & ~1`, i.e. the word with its low bit cleared). -/
def get_size (m : Nat → Nat) (p : Nat) : Nat := m p &&& (W - 2)

/-- Helper from the source: the used bit of the header at `p`
(`*(size_t *)ptr & 1` as a boolean). -/
def is_used (m : Nat → Nat) (p : Nat) : Bool := m p &&& 1 != 0

/-- Helper from the source: header of the payload at `ptr` (`ptr - ALIGNMENT`). -/
def get_header (p : Nat) : Nat := p - ALIGNMENT

/-- Helper from the source: the next header
(`(char *)ptr + get_size(ptr) + ALIGNMENT`). -/
def get_next_header (m : Nat → Nat) (p : Nat) : Nat := p + (get_size m p + ALIGNMENT)

/-- Helper from the source: whether `p` is beyond the heap
(`ptr >= segment_start + segment_size`). -/
def is_past_end (start size p : Nat) : Bool := start + size ≤ p

/-- The header walk shared by `validate_heap`, `dump_heap` and the implicit
first-fit scan: step by `get_next_header` until past the end, collecting the
header addresses.  `none` means the fuel ran out before reaching the end. -/
def walkHeadersF (m : Nat → Nat) (S : Nat) : Nat → Nat → Option (List Nat)
  | 0, cur => if S ≤ cur then some [] else none
  | f + 1, cur =>
    if S ≤ cur then some []
    else (walkHeadersF m S f (get_next_header m cur)).map (fun l => cur :: l)

/-- The accumulation performed by the first pass of `validate_heap`:
`total_size += get_size(cur) + ALIGNMENT` over the header walk, in `size_t`
arithmetic.  `none` if the (amply provisioned) fuel ran out. -/
def heapTotal (m : Nat → Nat) (start size : Nat) : Option Nat :=
  (walkHeadersF m (start + size) (size + 1) start).map
    (fun hs => hs.foldl (fun acc h => (acc + (get_size m h + ALIGNMENT)) % W) 0)

/-- Word-granular model of `memcpy(dst, src, n)`: every word cell at offset a
multiple of 8 below `n` is copied.  The code only copies into a freshly
allocated payload, so the trailing partial word stays inside the payload. -/
def memcpyWords (m : Nat → Nat) (dst src n : Nat) : Nat → Nat :=
  fun x => if dst ≤ x ∧ x < dst + n ∧ 8 ∣ (x - dst) then m (src + (x - dst)) else m x

/-- Modular `size_t` subtraction `a - b` (two's complement wraparound). -/
def sub64 (a b : Nat) : Nat := (a + (W - b % W)) % W

/-- Modular `size_t` addition. -/
def add64 (a b : Nat) : Nat := (a + b) % W

/-! ### Bit-level bridging lemmas for the header codec -/

theorem and_mask_pow (k : Nat) (hk : k ≤ 64) (n : Nat) :
    n &&& (W - 2 ^ k) = (n % W) / 2 ^ k * 2 ^ k := by
  have hW : W - 2 ^ k = (2 ^ (64 - k) - 1) <<< k := by
    unfold W
    rw [Nat.shiftLeft_eq, Nat.sub_mul, one_mul, ← pow_add, Nat.sub_add_cancel hk]
  have hR : (n % W) / 2 ^ k * 2 ^ k = ((n % W) >>> k) <<< k := by
    rw [Nat.shiftLeft_eq, Nat.shiftRight_eq_div_pow]
  rw [hW, hR]
  unfold W
  apply Nat.eq_of_testBit_eq
  intro i
  rw [Nat.testBit_land, Nat.testBit_shiftLeft, Nat.testBit_shiftLeft,
    Nat.testBit_two_pow_sub_one]
  by_cases hik : k ≤ i
  · have hkk : k + (i - k) = i := by omega
    rw [Nat.testBit_shiftRight, hkk, Nat.testBit_mod_two_pow]
    have hiff : (i - k < 64 - k) ↔ (i < 64) := by omega
    simp [hik, hiff, Bool.and_comm, Bool.and_left_comm]
  · simp [hik]

theorem and_one_eq_mod (n : Nat) : n &&& 1 = n % 2 := Nat.and_one_is_mod n

theorem lor_one_of_even {n : Nat} (h : n % 2 = 0) : n ||| 1 = n + 1 := by
  apply Nat.eq_of_testBit_eq
  intro i
  cases i with
  | zero =>
    rw [Nat.testBit_lor]
    simp only [Nat.testBit_zero]
    have h1 : (n + 1) % 2 = 1 := by omega
    simp [h, h1]
  | succ i =>
    rw [Nat.testBit_lor, Nat.testBit_succ, Nat.testBit_succ, Nat.testBit_succ]
    have h1 : (1 : Nat) / 2 = 0 := by norm_num
    have h2 : (n + 1) / 2 = n / 2 := by omega
    rw [h1, h2]
    simp [Nat.zero_testBit]

theorem get_size_word_free {m : Nat → Nat} {p s : Nat} (hm : m p = s)
    (h8 : 8 ∣ s) (hlt : s < W) : get_size m p = s := by
  rw [get_size, hm]
  have : W - 2 = W - 2 ^ 1 := by norm_num
  rw [this, and_mask_pow 1 (by norm_num)]
  rw [Nat.mod_eq_of_lt hlt]
  omega

theorem get_size_word_used {m : Nat → Nat} {p s : Nat} (hm : m p = s + 1)
    (h8 : 8 ∣ s) (hlt : s < W) : get_size m p = s := by
  rw [get_size, hm]
  have h1 : W - 2 = W - 2 ^ 1 := by norm_num
  have h2 : s + 1 < W := by
    rcases h8 with ⟨c, rfl⟩
    have : 8 * c % 2 = 0 := by omega
    show 8 * c + 1 < W
    by_contra hc
    have : 8 * c = W - 1 := by omega
    rw [this] at hlt
    have hw : W % 2 = 0 := by unfold W; omega
    omega
  rw [h1, and_mask_pow 1 (by norm_num), Nat.mod_eq_of_lt h2]
  omega

theorem is_used_word_free {m : Nat → Nat} {p s : Nat} (hm : m p = s)
    (h8 : 8 ∣ s) : is_used m p = false := by
  rw [is_used, hm, and_one_eq_mod]
  have : s % 2 = 0 := by omega
  simp [this]

theorem is_used_word_used {m : Nat → Nat} {p s : Nat} (hm : m p = s + 1)
    (h8 : 8 ∣ s) : is_used m p = true := by
  rw [is_used, hm, and_one_eq_mod]
  have : (s + 1) % 2 = 1 := by omega
  simp [this]

theorem wr_same (m : Nat → Nat) (a v : Nat) : wr m a v a = v % W := by
  simp [wr]

theorem wr_other (m : Nat → Nat) {a x : Nat} (v : Nat) (h : x ≠ a) :
    wr m a v x = m x := by
  simp [wr, h]

theorem wr_same_lt (m : Nat → Nat) (a : Nat) {v : Nat} (h : v < W) :
    wr m a v a = v := by
  rw [wr_same, Nat.mod_eq_of_lt h]

theorem W_pos : 0 < W := by unfold W; positivity

theorem memcpyWords_outside {m : Nat → Nat} {dst src n x : Nat}
    (h : x < dst ∨ dst + n ≤ x) : memcpyWords m dst src n x = m x := by
  unfold memcpyWords
  rcases h with h | h
  · have : ¬ (dst ≤ x ∧ x < dst + n ∧ 8 ∣ (x - dst)) := by
      rintro ⟨h1, -, -⟩; omega
    simp [this]
  · have : ¬ (dst ≤ x ∧ x < dst + n ∧ 8 ∣ (x - dst)) := by
      rintro ⟨-, h2, -⟩; omega
    simp [this]

end HeapModel

namespace HeapModel

/-- Abstract view of one block: its header address, payload size, used bit. -/
structure Blk where
  addr : Nat
  size : Nat
  used : Bool

/-- The header word a block stores: `size | used` (sizes are multiples of 8,
so the used flag occupies bit 0 and `size ||| 1 = size + 1`). -/
def blkWord (b : Blk) : Nat := if b.used then b.size + 1 else b.size

/-- `DescribesFrom lo m cur e bs`: starting at header address `cur`, memory
`m` holds the blocks `bs` laid out back to back, ending exactly at `e`; every
size is a multiple of 8 and at least `lo`. -/
def DescribesFrom (lo : Nat) (m : Nat → Nat) : Nat → Nat → List Blk → Prop
  | cur, e, [] => cur = e
  | cur, e, b :: bs =>
    b.addr = cur ∧ m cur = blkWord b ∧ 8 ∣ b.size ∧ lo ≤ b.size ∧
      DescribesFrom lo m (cur + (b.size + 8)) e bs

theorem describes_le {lo : Nat} {m : Nat → Nat} :
    ∀ {bs : List Blk} {cur e : Nat}, DescribesFrom lo m cur e bs → cur ≤ e := by
  intro bs
  induction bs with
  | nil => intro cur e h; exact Nat.le_of_eq h
  | cons b bs ih =>
    intro cur e h
    obtain ⟨-, -, -, -, h5⟩ := h
    have := ih h5
    omega

theorem describes_mem_bounds {lo : Nat} {m : Nat → Nat} :
    ∀ {bs : List Blk} {cur e : Nat}, DescribesFrom lo m cur e bs →
      ∀ b ∈ bs, cur ≤ b.addr ∧ b.addr + (b.size + 8) ≤ e := by
  intro bs
  induction bs with
  | nil => intro cur e h b hb; cases hb
  | cons c bs ih =>
    intro cur e h b hb
    obtain ⟨h1, -, -, -, h5⟩ := h
    rcases List.mem_cons.mp hb with rfl | hb
    · have := describes_le h5
      omega
    · have := ih h5 b hb
      omega

theorem describes_word {lo : Nat} {m : Nat → Nat} :
    ∀ {bs : List Blk} {cur e : Nat}, DescribesFrom lo m cur e bs →
      ∀ b ∈ bs, m b.addr = blkWord b ∧ 8 ∣ b.size ∧ lo ≤ b.size := by
  intro bs
  induction bs with
  | nil => intro cur e h b hb; cases hb
  | cons c bs ih =>
    intro cur e h b hb
    obtain ⟨h1, h2, h3, h4, h5⟩ := h
    rcases List.mem_cons.mp hb with rfl | hb
    · rw [h1]; exact ⟨h2, h3, h4⟩
    · exact ih h5 b hb

theorem describes_frame {lo : Nat} {m m2 : Nat → Nat} :
    ∀ {bs : List Blk} {cur e : Nat}, DescribesFrom lo m cur e bs →
      (∀ b ∈ bs, m2 b.addr = m b.addr) → DescribesFrom lo m2 cur e bs := by
  intro bs
  induction bs with
  | nil => intro cur e h _; exact h
  | cons c bs ih =>
    intro cur e h hf
    obtain ⟨h1, h2, h3, h4, h5⟩ := h
    refine ⟨h1, ?_, h3, h4, ih h5 ?_⟩
    · rw [← h1, hf c (List.mem_cons_self c bs), h1, h2]
    · intro b hb; exact hf b (List.mem_cons_of_mem c hb)

theorem describes_append {lo : Nat} {m : Nat → Nat} :
    ∀ {bs1 bs2 : List Blk} {cur e : Nat},
      DescribesFrom lo m cur e (bs1 ++ bs2) ↔
        ∃ mid, DescribesFrom lo m cur mid bs1 ∧ DescribesFrom lo m mid e bs2 := by
  intro bs1
  induction bs1 with
  | nil =>
    intro bs2 cur e
    constructor
    · intro h; exact ⟨cur, rfl, h⟩
    · rintro ⟨mid, h1, h2⟩
      have : cur = mid := h1
      rwa [this]
  | cons c bs1 ih =>
    intro bs2 cur e
    constructor
    · intro h
      obtain ⟨h1, h2, h3, h4, h5⟩ := h
      obtain ⟨mid, hm1, hm2⟩ := ih.mp h5
      exact ⟨mid, ⟨h1, h2, h3, h4, hm1⟩, hm2⟩
    · rintro ⟨mid, ⟨h1, h2, h3, h4, h5⟩, hm2⟩
      exact ⟨h1, h2, h3, h4, ih.mpr ⟨mid, h5, hm2⟩⟩

theorem describes_size_lt {lo : Nat} {m : Nat → Nat} {bs : List Blk} {cur e : Nat}
    (h : DescribesFrom lo m cur e bs) (he : e ≤ W) :
    ∀ b ∈ bs, b.size < W := by
  intro b hb
  have := describes_mem_bounds h b hb
  omega

theorem describes_get_size {lo : Nat} {m : Nat → Nat} {bs : List Blk} {cur e : Nat}
    (h : DescribesFrom lo m cur e bs) (he : e ≤ W) :
    ∀ b ∈ bs, get_size m b.addr = b.size ∧ is_used m b.addr = b.used := by
  intro b hb
  obtain ⟨hw, h8, -⟩ := describes_word h b hb
  have hlt : b.size < W := describes_size_lt h he b hb
  cases hu : b.used with
  | false =>
    rw [blkWord, hu] at hw
    simp only [if_neg Bool.false_ne_true] at hw
    exact ⟨get_size_word_free hw h8 hlt, is_used_word_free hw h8⟩
  | true =>
    rw [blkWord, hu] at hw
    simp only [if_pos rfl] at hw
    exact ⟨get_size_word_used hw h8 hlt, is_used_word_used hw h8⟩

theorem describes_sep {lo : Nat} {m : Nat → Nat} :
    ∀ {bs : List Blk} {cur e : Nat}, DescribesFrom lo m cur e bs →
      ∀ b1 ∈ bs, ∀ b2 ∈ bs, b1 = b2 ∨
        b1.addr + (b1.size + 8) ≤ b2.addr ∨ b2.addr + (b2.size + 8) ≤ b1.addr := by
  intro bs
  induction bs with
  | nil => intro cur e h b1 hb1; cases hb1
  | cons c bs ih =>
    intro cur e h b1 hb1 b2 hb2
    obtain ⟨h1, -, -, -, h5⟩ := h
    rcases List.mem_cons.mp hb1 with hb1e | hb1t
    · rcases List.mem_cons.mp hb2 with hb2e | hb2t
      · exact Or.inl (hb1e.trans hb2e.symm)
      · have hb := describes_mem_bounds h5 b2 hb2t
        right; left
        rw [hb1e, h1]
        omega
    · rcases List.mem_cons.mp hb2 with hb2e | hb2t
      · have hb := describes_mem_bounds h5 b1 hb1t
        right; right
        rw [hb2e, h1]
        omega
      · exact ih h5 b1 hb1t b2 hb2t

theorem describes_addr_inj {lo : Nat} {m : Nat → Nat} {bs : List Blk} {cur e : Nat}
    (h : DescribesFrom lo m cur e bs) :
    ∀ b1 ∈ bs, ∀ b2 ∈ bs, b1.addr = b2.addr → b1 = b2 := by
  intro b1 hb1 b2 hb2 ha
  rcases describes_sep h b1 hb1 b2 hb2 with heq | hs | hs
  · exact heq
  · omega
  · omega

theorem describes_length {lo : Nat} {m : Nat → Nat} :
    ∀ {bs : List Blk} {cur e : Nat}, DescribesFrom lo m cur e bs →
      8 * bs.length ≤ e - cur := by
  intro bs
  induction bs with
  | nil => intro cur e h; simp
  | cons c bs ih =>
    intro cur e h
    obtain ⟨-, -, -, -, h5⟩ := h
    have h1 := ih h5
    have h2 := describes_le h5
    simp only [List.length_cons]
    omega

theorem describes_walk {lo : Nat} {m : Nat → Nat} :
    ∀ {bs : List Blk} {cur : Nat} {e : Nat}, DescribesFrom lo m cur e bs → e ≤ W →
      ∀ f, bs.length ≤ f → walkHeadersF m e f cur = some (bs.map Blk.addr) := by
  intro bs
  induction bs with
  | nil =>
    intro cur e h he f hf
    have : cur = e := h
    subst this
    cases f <;> simp [walkHeadersF]
  | cons c bs ih =>
    intro cur e h he f hf
    have h0 := h
    obtain ⟨h1, h2, h3, h4, h5⟩ := h
    have hlt : cur < e := by
      have := describes_le h5; omega
    have hsz : get_size m cur = c.size := by
      rw [← h1]
      exact (describes_get_size h0 he c (List.mem_cons_self c bs)).1
    match f with
    | f + 1 =>
      rw [walkHeadersF]
      rw [if_neg (by omega)]
      have hnext : get_next_header m cur = cur + (c.size + 8) := by
        rw [get_next_header, hsz]; rfl
      rw [hnext, ih h5 he f (by simpa using hf)]
      simp [h1]

theorem describes_fold {lo : Nat} {m : Nat → Nat} :
    ∀ {bs : List Blk} {cur e acc : Nat}, DescribesFrom lo m cur e bs → e ≤ W →
      acc + (e - cur) < W →
      (bs.map Blk.addr).foldl (fun a h => (a + (get_size m h + ALIGNMENT)) % W) acc =
        acc + (e - cur) := by
  intro bs
  induction bs with
  | nil =>
    intro cur e acc h he hacc
    have : cur = e := h
    subst this
    simp
  | cons c bs ih =>
    intro cur e acc h he hacc
    have h0 := h
    obtain ⟨h1, h2, h3, h4, h5⟩ := h
    have hsz : get_size m c.addr = c.size :=
      (describes_get_size h0 he c (List.mem_cons_self c bs)).1
    have hle := describes_le h5
    simp only [List.map_cons, List.foldl_cons]
    rw [h1] at hsz ⊢
    rw [hsz]
    have hstep : (acc + (c.size + ALIGNMENT)) % W = acc + (c.size + 8) := by
      have : ALIGNMENT = 8 := rfl
      rw [this, Nat.mod_eq_of_lt (by omega)]
    rw [hstep, ih h5 he (by omega)]
    omega

theorem describes_heapTotal {lo : Nat} {m : Nat → Nat} {bs : List Blk}
    {start size : Nat} (h : DescribesFrom lo m start (start + size) bs)
    (he : start + size ≤ W) (hs : 0 < start) :
    heapTotal m start size = some size := by
  have hlen : bs.length ≤ size + 1 := by
    have := describes_length h; omega
  rw [heapTotal, describes_walk h he (size + 1) hlen]
  simp only [Option.map_some']
  rw [describes_fold h he (by omega)]
  simp

end HeapModel

namespace Impl

open HeapModel

/-- Global state of implicit.c: `segment_start`, `segment_size`, `nused`,
plus the memory words of the segment. -/
structure St where
  mem : Nat → Nat
  segment_start : Nat
  segment_size : Nat
  nused : Nat

/-- implicit.c `roundup`: `(size + multiple - 1) & ~(multiple - 1)`; the
complement of `multiple - 1` in 64 bits is `2^64 - multiple`. -/
def roundup (size multiple : Nat) : Nat := (size + multiple - 1) &&& (W - multiple)

/-- implicit.c `myinit`: records the base first, rejects when
`heap_size < 2 * ALIGNMENT`, otherwise writes the initial header and zeroes
`nused`. -/
def myinit (st : St) (heap_start heap_size : Nat) : Bool × St :=
  let st1 : St := { st with segment_start := heap_start }
  if heap_size < 2 * ALIGNMENT then (false, st1)
  else
    let st2 : St := { st1 with segment_size := heap_size }
    let st3 : St := { st2 with mem := wr st2.mem heap_start (heap_size - ALIGNMENT) }
    (true, { st3 with nused := 0 })

/-- The first-fit scan loop of implicit.c `mymalloc`:
`while (is_used(cur) || get_size(cur) < needed) { cur = get_next_header(cur);
if (is_past_end(cur)) return NULL; }`, with fuel. -/
def scanF (m : Nat → Nat) (S needed : Nat) : Nat → Nat → Option Nat
  | 0, _ => none
  | f + 1, cur =>
    if is_used m cur || decide (get_size m cur < needed) then
      let nxt := get_next_header m cur
      if S ≤ nxt then none else scanF m S needed f nxt
    else some cur

/-- implicit.c `mymalloc`. -/
def mymalloc (st : St) (requested_size : Nat) : Option Nat × St :=
  if requested_size = 0 ∨ MAX_REQUEST_SIZE < requested_size then (none, st)
  else
    let needed := roundup requested_size ALIGNMENT
    match scanF st.mem (st.segment_start + st.segment_size) needed
        (st.segment_size + 1) st.segment_start with
    | none => (none, st)
    | some cur =>
      let block_size := get_size st.mem cur
      let needed := if block_size < needed + 2 * ALIGNMENT then block_size else needed
      let m1 := wr st.mem cur needed
      let m2 := wr m1 cur (m1 cur ||| 1)
      let st1 : St := { st with mem := m2, nused := (st.nused + needed) % W }
      let ptr := cur + ALIGNMENT
      if needed < block_size then
        let cur2 := get_next_header st1.mem cur
        (some ptr, { st1 with mem := wr st1.mem cur2 (block_size - needed - ALIGNMENT) })
      else (some ptr, st1)

/-- implicit.c `myfree`: clear the used bit (`*(size_t *)header &= ~1`) and
subtract the block size from `nused`; no coalescing. -/
def myfree (st : St) (ptr : Option Nat) : St :=
  match ptr with
  | none => st
  | some p =>
    let header := get_header p
    { st with
        nused := sub64 st.nused (get_size st.mem header),
        mem := wr st.mem header (st.mem header &&& (W - 2)) }

/-- implicit.c `myrealloc`: always allocate-copy-free (no in-place resize). -/
def myrealloc (st : St) (old_ptr : Option Nat) (new_size : Nat) : Option Nat × St :=
  let res := mymalloc st new_size
  let new_ptr := res.1
  let st1 := res.2
  match old_ptr with
  | none => (new_ptr, st1)
  | some op =>
    if new_size = 0 then (new_ptr, myfree st1 (some op))
    else
      let old_header := get_header op
      let old_size := get_size st1.mem old_header
      match new_ptr with
      | none => (none, st1)
      | some np =>
        let cnt := if new_size < old_size then new_size else old_size
        let st2 : St := { st1 with mem := memcpyWords st1.mem np op cnt }
        (some np, myfree st2 (some op))

/-- implicit.c `validate_heap`: walk all headers accumulating
`get_size + ALIGNMENT` and compare against `segment_size`. -/
def validate_heap (st : St) : Bool :=
  match heapTotal st.mem st.segment_start st.segment_size with
  | none => false
  | some total => total == st.segment_size

/-- The header addresses of the heap, as collected by the `validate_heap` /
`dump_heap` walk. -/
def headersOf (st : St) : List Nat :=
  (walkHeadersF st.mem (st.segment_start + st.segment_size) (st.segment_size + 1)
    st.segment_start).getD []

/-- A payload pointer is live when it sits one word past a block header that
is currently marked used. -/
def isLive (st : St) (p : Nat) : Bool :=
  decide (8 ≤ p) && (headersOf st).contains (p - 8) && is_used st.mem (p - 8)

/-- States reachable from a successful aligned `myinit` by valid entry-point
calls (`free`/`realloc` only on `NULL` or a live payload — anything else is
undefined behavior per the specification). -/
inductive Reachable : St → Prop where
  | init : ∀ (st0 : St) (base len : Nat), 0 < base → 8 ∣ base → 8 ∣ len →
      base + len ≤ W → (myinit st0 base len).1 = true →
      Reachable (myinit st0 base len).2
  | mallocStep : ∀ {st : St} (r : Nat), Reachable st → Reachable (mymalloc st r).2
  | freeStep : ∀ {st : St} (p : Option Nat), Reachable st →
      (p = none ∨ ∃ a, p = some a ∧ isLive st a = true) → Reachable (myfree st p)
  | reallocStep : ∀ {st : St} (p : Option Nat) (n : Nat), Reachable st →
      (p = none ∨ ∃ a, p = some a ∧ isLive st a = true) →
      Reachable (myrealloc st p n).2

/-- Structural invariant of the implicit heap: some block list tiles the
segment, sizes are multiples of 8 and at least `ALIGNMENT`. -/
def Inv (st : St) : Prop :=
  ∃ bs : List Blk,
    DescribesFrom 8 st.mem st.segment_start (st.segment_start + st.segment_size) bs ∧
    0 < st.segment_start ∧ st.segment_start + st.segment_size ≤ W ∧
    16 ≤ st.segment_size ∧ st.nused < W

end Impl

namespace HeapModel

theorem wr_wr_same (m : Nat → Nat) (a v1 v2 : Nat) :
    wr (wr m a v1) a v2 = wr m a v2 := by
  funext x
  by_cases h : x = a <;> simp [wr, h]

end HeapModel

namespace Impl

open HeapModel

theorem roundup_eq {r : Nat} (h : r + 7 < W) :
    roundup r ALIGNMENT = (r + 7) / 8 * 8 := by
  show (r + 8 - 1) &&& (W - 8) = _
  have h8 : W - 8 = W - 2 ^ 3 := by norm_num
  have h7 : r + 8 - 1 = r + 7 := by omega
  rw [h7, h8, and_mask_pow 3 (by norm_num), Nat.mod_eq_of_lt h]
  norm_num

theorem roundup_facts {r : Nat} (h : r + 7 < W) (h0 : 0 < r) :
    r ≤ roundup r ALIGNMENT ∧ roundup r ALIGNMENT ≤ r + 7 ∧
      8 ∣ roundup r ALIGNMENT ∧ 8 ≤ roundup r ALIGNMENT := by
  rw [roundup_eq h]
  refine ⟨?_, ?_, ⟨(r + 7) / 8, by ring⟩, ?_⟩ <;> omega

theorem myinit_fst (st0 : St) (base len : Nat) :
    (myinit st0 base len).1 = ! decide (len < 2 * ALIGNMENT) := by
  unfold myinit
  by_cases h : len < 2 * ALIGNMENT
  · simp [h]
  · simp [h]

theorem myinit_true_iff (st0 : St) (base len : Nat) :
    (myinit st0 base len).1 = true ↔ 16 ≤ len := by
  rw [myinit_fst]
  have hA : 2 * ALIGNMENT = 16 := rfl
  rw [hA]
  by_cases h : len < 16
  · simp [h]
  · simp [h]
    omega

theorem myinit_state (st0 : St) (base len : Nat) (h : ¬ len < 2 * ALIGNMENT) :
    (myinit st0 base len).2 =
      { mem := wr st0.mem base (len - ALIGNMENT), segment_start := base,
        segment_size := len, nused := 0 } := by
  simp [myinit, h]

theorem myinit_inv {st0 : St} {base len : Nat} (hb : 0 < base) (hlen8 : 8 ∣ len)
    (hW : base + len ≤ W) (hok : (myinit st0 base len).1 = true) :
    Inv (myinit st0 base len).2 := by
  have h16 : 16 ≤ len := (myinit_true_iff st0 base len).mp hok
  have hcond : ¬ len < 2 * ALIGNMENT := by show ¬ len < 16; omega
  rw [myinit_state st0 base len hcond]
  refine ⟨[⟨base, len - 8, false⟩], ?_, hb, by simpa using hW, h16, W_pos⟩
  show base = base ∧ wr st0.mem base (len - ALIGNMENT) base = blkWord ⟨base, len - 8, false⟩ ∧
    8 ∣ (len - 8) ∧ 8 ≤ len - 8 ∧
    DescribesFrom 8 (wr st0.mem base (len - ALIGNMENT)) (base + (len - 8 + 8)) (base + len) []
  refine ⟨rfl, ?_, ?_, by omega, ?_⟩
  · rw [wr_same_lt st0.mem base (by show len - 8 < W; omega)]
    show len - 8 = len - 8
    rfl
  · rcases hlen8 with ⟨c, rfl⟩
    exact ⟨c - 1, by omega⟩
  · show base + (len - 8 + 8) = base + len
    omega

/-- Characterization of the first-fit scan: on a described heap it returns
either `none` (no free block is large enough) or the address of a free block
with sufficient size. -/
theorem scanF_spec {m : Nat → Nat} {e needed : Nat} (he : e ≤ W) :
    ∀ {bs : List Blk} {cur : Nat}, DescribesFrom 8 m cur e bs → cur < e →
      ∀ f, bs.length ≤ f →
        (scanF m e needed f cur = none) ∨
        (∃ b ∈ bs, scanF m e needed f cur = some b.addr ∧ b.used = false ∧
          needed ≤ b.size) := by
  intro bs
  induction bs with
  | nil =>
    intro cur hD hcur
    have : cur = e := hD
    omega
  | cons c bs ih =>
    intro cur hD hcur f hf
    have h0 := hD
    obtain ⟨h1, h2, h3, h4, h5⟩ := hD
    have hsz : get_size m cur = c.size := by
      rw [← h1]
      exact (describes_get_size h0 he c (List.mem_cons_self c bs)).1
    have hus : is_used m cur = c.used := by
      rw [← h1]
      exact (describes_get_size h0 he c (List.mem_cons_self c bs)).2
    match f with
    | f + 1 =>
      rw [scanF]
      by_cases hguard : (is_used m cur || decide (get_size m cur < needed)) = true
      · rw [if_pos hguard]
        have hnxt : get_next_header m cur = cur + (c.size + 8) := by
          rw [get_next_header, hsz]; rfl
        by_cases hpast : e ≤ get_next_header m cur
        · rw [if_pos hpast]
          exact Or.inl rfl
        · rw [if_neg hpast, hnxt]
          rw [hnxt] at hpast
          rcases ih h5 (by omega) f (by simpa using hf) with hn | ⟨b, hb, hs1, hs2, hs3⟩
          · exact Or.inl hn
          · exact Or.inr ⟨b, List.mem_cons_of_mem c hb, hs1, hs2, hs3⟩
      · rw [if_neg hguard]
        right
        refine ⟨c, List.mem_cons_self c bs, by rw [h1], ?_, ?_⟩
        · rw [Bool.or_eq_true, not_or] at hguard
          obtain ⟨hg1, -⟩ := hguard
          rw [hus] at hg1
          simpa using hg1
        · rw [Bool.or_eq_true, not_or] at hguard
          obtain ⟨-, hg2⟩ := hguard
          rw [hsz] at hg2
          simpa using hg2

end Impl

namespace HeapModel

theorem describes_nil_intro {lo : Nat} {m : Nat → Nat} {cur e : Nat} (h : cur = e) :
    DescribesFrom lo m cur e [] := h

theorem describes_cons_intro {lo : Nat} {m : Nat → Nat} {cur e : Nat} {b : Blk}
    {bs : List Blk} (h1 : b.addr = cur) (h2 : m cur = blkWord b) (h3 : 8 ∣ b.size)
    (h4 : lo ≤ b.size) (h5 : DescribesFrom lo m (cur + (b.size + 8)) e bs) :
    DescribesFrom lo m cur e (b :: bs) := by
  show b.addr = cur ∧ m cur = blkWord b ∧ 8 ∣ b.size ∧ lo ≤ b.size ∧
    DescribesFrom lo m (cur + (b.size + 8)) e bs
  exact ⟨h1, h2, h3, h4, h5⟩

end HeapModel

namespace Impl

open HeapModel

theorem headersOf_eq {st : St} {bs : List Blk}
    (hD : DescribesFrom 8 st.mem st.segment_start (st.segment_start + st.segment_size) bs)
    (he : st.segment_start + st.segment_size ≤ W) :
    headersOf st = bs.map Blk.addr := by
  have hlen : bs.length ≤ st.segment_size + 1 := by
    have := describes_length hD; omega
  rw [headersOf, describes_walk hD he _ hlen]
  rfl

theorem isLive_iff {st : St} {bs : List Blk}
    (hD : DescribesFrom 8 st.mem st.segment_start (st.segment_start + st.segment_size) bs)
    (he : st.segment_start + st.segment_size ≤ W) (p : Nat) :
    isLive st p = true ↔ ∃ b ∈ bs, b.addr + 8 = p ∧ b.used = true := by
  rw [isLive, headersOf_eq hD he]
  constructor
  · intro h
    rw [Bool.and_eq_true, Bool.and_eq_true] at h
    obtain ⟨⟨h8, hmem⟩, hused⟩ := h
    have h8' : 8 ≤ p := by simpa using h8
    have hmem' : p - 8 ∈ bs.map Blk.addr := by
      simpa [List.contains, List.elem_iff] using hmem
    obtain ⟨b, hb, hba⟩ := List.mem_map.mp hmem'
    refine ⟨b, hb, by omega, ?_⟩
    have := (describes_get_size hD he b hb).2
    rw [hba, hused] at this
    exact this.symm
  · rintro ⟨b, hb, haddr, hused⟩
    rw [Bool.and_eq_true, Bool.and_eq_true]
    refine ⟨⟨by simp; omega, ?_⟩, ?_⟩
    · have hmem' : p - 8 ∈ bs.map Blk.addr :=
        List.mem_map.mpr ⟨b, hb, by omega⟩
      simpa [List.contains, List.elem_iff] using hmem'
    · have := (describes_get_size hD he b hb).2
      have hba : b.addr = p - 8 := by omega
      rw [hba] at this
      rw [this, hused]

end Impl

namespace HeapModel

theorem wr_set_used (m : Nat → Nat) (a s : Nat) (h8 : 8 ∣ s) (hlt : s + 1 < W) :
    wr (wr m a s) a ((wr m a s) a ||| 1) = wr m a (s + 1) := by
  rw [wr_same_lt m a (by omega), lor_one_of_even (by omega), wr_wr_same]

end HeapModel

namespace Impl

open HeapModel

theorem mymalloc_spec {st : St} {bs : List Blk}
    (hD : DescribesFrom 8 st.mem st.segment_start (st.segment_start + st.segment_size) bs)
    (he : st.segment_start + st.segment_size ≤ W)
    (hb : 0 < st.segment_start) (hs16 : 16 ≤ st.segment_size) (r : Nat) :
    ((mymalloc st r).1 = none ∧ (mymalloc st r).2 = st) ∨
    (∃ p bs', (mymalloc st r).1 = some p ∧
      (mymalloc st r).2.segment_start = st.segment_start ∧
      (mymalloc st r).2.segment_size = st.segment_size ∧
      (mymalloc st r).2.nused < W ∧
      DescribesFrom 8 (mymalloc st r).2.mem st.segment_start
        (st.segment_start + st.segment_size) bs' ∧
      (∃ bn ∈ bs', bn.addr + 8 = p ∧ bn.used = true ∧ r ≤ bn.size) ∧
      (∀ b ∈ bs, b.used = true → b ∈ bs')) := by
  by_cases hrej : r = 0 ∨ MAX_REQUEST_SIZE < r
  · left
    constructor <;> simp [mymalloc, hrej]
  · have hr0 : 0 < r := by
      rcases Nat.eq_zero_or_pos r with h | h
      · exact absurd (Or.inl h) hrej
      · exact h
    have hrM : r ≤ MAX_REQUEST_SIZE := by
      by_contra hc
      exact hrej (Or.inr (by omega))
    have hr7 : r + 7 < W := by
      have h1 : MAX_REQUEST_SIZE + 7 < W := by
        show (2 : Nat) ^ 30 + 7 < 2 ^ 64
        norm_num
      omega
    obtain ⟨hru_ge, hru_le, hru_dvd, hru_8⟩ := roundup_facts hr7 hr0
    have hcur0 : st.segment_start < st.segment_start + st.segment_size := by omega
    have hflen : bs.length ≤ st.segment_size + 1 := by
      have := describes_length hD; omega
    rcases @scanF_spec st.mem (st.segment_start + st.segment_size)
        (roundup r ALIGNMENT) he bs st.segment_start hD hcur0
        (st.segment_size + 1) hflen
      with hnone | ⟨bv, hbv, hsome, hbvfree, hbvfit⟩
    · left
      constructor <;> simp [mymalloc, hrej, hnone]
    · right
      have hbsz : get_size st.mem bv.addr = bv.size := (describes_get_size hD he bv hbv).1
      have hbnd := describes_mem_bounds hD bv hbv
      obtain ⟨bs1, bs2, rfl⟩ := List.append_of_mem hbv
      obtain ⟨mid, hD1, hD2⟩ := describes_append.mp hD
      have hD2c := hD2
      obtain ⟨hmid, hword, hdvd, hlo, hD3⟩ := hD2
      subst hmid
      have hszW : bv.size + 8 ≤ W := by omega
      have hb1lt : ∀ b ∈ bs1, b.addr < bv.addr := by
        intro b hbb
        have := describes_mem_bounds hD1 b hbb
        omega
      have hb2gt : ∀ b ∈ bs2, bv.addr + (bv.size + 8) ≤ b.addr := by
        intro b hbb
        have := describes_mem_bounds hD3 b hbb
        omega
      by_cases habs : bv.size < roundup r ALIGNMENT + 2 * ALIGNMENT
      · -- absorb: the whole block is handed out, no split
        have hmal : mymalloc st r =
            (some (bv.addr + ALIGNMENT),
              { st with mem := wr st.mem bv.addr (bv.size + 1),
                        nused := (st.nused + bv.size) % W }) := by
          rw [mymalloc, if_neg hrej]
          simp only [hsome]
          simp only [hbsz, if_pos habs]
          rw [wr_set_used st.mem bv.addr bv.size hdvd (by omega)]
          rw [if_neg (lt_irrefl bv.size)]
        rw [hmal]
        dsimp only
        refine ⟨bv.addr + ALIGNMENT, bs1 ++ ⟨bv.addr, bv.size, true⟩ :: bs2,
          rfl, rfl, rfl, Nat.mod_lt _ W_pos, ?_, ?_, ?_⟩
        · apply describes_append.mpr
          refine ⟨bv.addr, ?_, ?_⟩
          · apply describes_frame hD1
            intro b hbb
            exact wr_other st.mem _ (by have := hb1lt b hbb; omega)
          · refine @describes_cons_intro 8 _ _ _ ⟨bv.addr, bv.size, true⟩ bs2
              rfl ?_ hdvd hlo ?_
            · rw [wr_same_lt st.mem bv.addr (by omega)]
              rfl
            · apply describes_frame hD3
              intro b hbb
              exact wr_other st.mem _ (by have := hb2gt b hbb; omega)
        · refine ⟨⟨bv.addr, bv.size, true⟩, ?_, rfl, rfl,
            show r ≤ bv.size by omega⟩
          exact List.mem_append_right bs1 (List.mem_cons_self _ bs2)
        · intro b hbb hbu
          rcases List.mem_append.mp hbb with hbb | hbb
          · exact List.mem_append_left _ hbb
          · rcases List.mem_cons.mp hbb with hbe | hbb
            · rw [hbe] at hbu
              rw [hbvfree] at hbu
              cases hbu
            · exact List.mem_append_right _ (List.mem_cons_of_mem _ hbb)
      · -- split: low part handed out, trailer becomes a fresh free block
        have hfit : roundup r ALIGNMENT + 16 ≤ bv.size := by
          have h2A : (2 : Nat) * ALIGNMENT = 16 := rfl
          omega
        have hmal : mymalloc st r =
            (some (bv.addr + ALIGNMENT),
              { st with
                  mem := wr (wr st.mem bv.addr (roundup r ALIGNMENT + 1))
                    (bv.addr + (roundup r ALIGNMENT + 8))
                    (bv.size - roundup r ALIGNMENT - ALIGNMENT),
                  nused := (st.nused + roundup r ALIGNMENT) % W }) := by
          rw [mymalloc, if_neg hrej]
          simp only [hsome]
          simp only [hbsz, if_neg habs]
          rw [wr_set_used st.mem bv.addr (roundup r ALIGNMENT) hru_dvd (by omega)]
          rw [if_pos (by omega : roundup r ALIGNMENT < bv.size)]
          have hgnh : get_next_header (wr st.mem bv.addr (roundup r ALIGNMENT + 1))
              bv.addr = bv.addr + (roundup r ALIGNMENT + 8) := by
            rw [get_next_header,
              get_size_word_used (wr_same_lt st.mem bv.addr (by omega)) hru_dvd
                (by omega)]
            rfl
          rw [hgnh]
        rw [hmal]
        dsimp only
        refine ⟨bv.addr + ALIGNMENT,
          bs1 ++ ⟨bv.addr, roundup r ALIGNMENT, true⟩ ::
            ⟨bv.addr + (roundup r ALIGNMENT + 8), bv.size - roundup r ALIGNMENT - 8,
              false⟩ :: bs2,
          rfl, rfl, rfl, Nat.mod_lt _ W_pos, ?_, ?_, ?_⟩
        · apply describes_append.mpr
          refine ⟨bv.addr, ?_, ?_⟩
          · apply describes_frame hD1
            intro b hbb
            have hlt := hb1lt b hbb
            rw [wr_other _ _ (by omega), wr_other _ _ (by omega)]
          · refine @describes_cons_intro 8 _ _ _ ⟨bv.addr, roundup r ALIGNMENT, true⟩
              (⟨bv.addr + (roundup r ALIGNMENT + 8),
                bv.size - roundup r ALIGNMENT - 8, false⟩ :: bs2)
              rfl ?_ hru_dvd (by show (8:Nat) ≤ roundup r ALIGNMENT; omega) ?_
            · rw [wr_other _ _ (by omega), wr_same_lt _ _ (by omega)]
              rfl
            · refine @describes_cons_intro 8 _ _ _
                ⟨bv.addr + (roundup r ALIGNMENT + 8),
                  bv.size - roundup r ALIGNMENT - 8, false⟩ bs2
                rfl ?_ ?_
                (by show (8:Nat) ≤ bv.size - roundup r ALIGNMENT - 8; omega) ?_
              · rw [wr_same_lt _ _ (by omega)]
                show bv.size - roundup r ALIGNMENT - 8 = bv.size - roundup r ALIGNMENT - 8
                rfl
              · have : bv.size - roundup r ALIGNMENT - 8 =
                    bv.size - (roundup r ALIGNMENT + 8) := by omega
                rw [this]
                exact Nat.dvd_sub' hdvd (by
                  rcases hru_dvd with ⟨c, hc⟩
                  exact ⟨c + 1, by omega⟩)
              · have hend : bv.addr + (roundup r ALIGNMENT + 8) +
                    (bv.size - roundup r ALIGNMENT - 8 + 8) = bv.addr + (bv.size + 8) := by
                  omega
                rw [hend]
                apply describes_frame hD3
                intro b hbb
                have hgt := hb2gt b hbb
                rw [wr_other _ _ (by omega), wr_other _ _ (by omega)]
        · refine ⟨⟨bv.addr, roundup r ALIGNMENT, true⟩, ?_, rfl, rfl,
            show r ≤ roundup r ALIGNMENT from hru_ge⟩
          exact List.mem_append_right bs1 (List.mem_cons_self _ _)
        · intro b hbb hbu
          rcases List.mem_append.mp hbb with hbb | hbb
          · exact List.mem_append_left _ hbb
          · rcases List.mem_cons.mp hbb with hbe | hbb
            · rw [hbe] at hbu
              rw [hbvfree] at hbu
              cases hbu
            · exact List.mem_append_right _
                (List.mem_cons_of_mem _ (List.mem_cons_of_mem _ hbb))

end Impl

namespace HeapModel

theorem word_clear_used {s : Nat} (h8 : 8 ∣ s) (hlt : s + 1 < W) :
    (s + 1) &&& (W - 2) = s := by
  have h1 : W - 2 = W - 2 ^ 1 := by norm_num
  rw [h1, and_mask_pow 1 (by norm_num), Nat.mod_eq_of_lt hlt]
  omega

end HeapModel

namespace Impl

open HeapModel

theorem myfree_spec {st : St} {bs : List Blk}
    (hD : DescribesFrom 8 st.mem st.segment_start (st.segment_start + st.segment_size) bs)
    (he : st.segment_start + st.segment_size ≤ W) {p : Nat}
    (hlive : isLive st p = true) :
    (myfree st (some p)).segment_start = st.segment_start ∧
    (myfree st (some p)).segment_size = st.segment_size ∧
    (myfree st (some p)).nused < W ∧
    ∃ bs', DescribesFrom 8 (myfree st (some p)).mem st.segment_start
      (st.segment_start + st.segment_size) bs' ∧
      (∀ b ∈ bs, b.used = true → b.addr + 8 ≠ p → b ∈ bs') := by
  obtain ⟨b0, hb0, hb0p, hb0u⟩ := (isLive_iff hD he p).mp hlive
  have hword0 : st.mem b0.addr = b0.size + 1 := by
    have := (describes_word hD b0 hb0).1
    rw [blkWord, hb0u] at this
    simpa using this
  have hbnd := describes_mem_bounds hD b0 hb0
  have hdvd0 : 8 ∣ b0.size := (describes_word hD b0 hb0).2.1
  have hhdr : get_header p = b0.addr := by
    rw [get_header]
    show p - 8 = b0.addr
    omega
  have hfr : myfree st (some p) =
      { st with
          nused := sub64 st.nused (get_size st.mem b0.addr),
          mem := wr st.mem b0.addr (st.mem b0.addr &&& (W - 2)) } := by
    rw [myfree]
    simp only [hhdr]
  have hclear : st.mem b0.addr &&& (W - 2) = b0.size := by
    rw [hword0]
    exact word_clear_used hdvd0 (by omega)
  rw [hfr]
  obtain ⟨bs1, bs2, rfl⟩ := List.append_of_mem hb0
  obtain ⟨mid, hD1, hD2⟩ := describes_append.mp hD
  obtain ⟨hmid, hword, hdvd, hlo, hD3⟩ := hD2
  subst hmid
  refine ⟨rfl, rfl, Nat.mod_lt _ W_pos, bs1 ++ ⟨b0.addr, b0.size, false⟩ :: bs2, ?_, ?_⟩
  · apply describes_append.mpr
    refine ⟨b0.addr, ?_, ?_⟩
    · apply describes_frame hD1
      intro b hbb
      have := describes_mem_bounds hD1 b hbb
      exact wr_other st.mem _ (by omega)
    · refine @describes_cons_intro 8 _ _ _ ⟨b0.addr, b0.size, false⟩ bs2
        rfl ?_ hdvd hlo ?_
      · rw [hclear]
        show wr st.mem b0.addr b0.size b0.addr = blkWord ⟨b0.addr, b0.size, false⟩
        rw [wr_same_lt st.mem b0.addr (by omega)]
        rfl
      · apply describes_frame hD3
        intro b hbb
        have := describes_mem_bounds hD3 b hbb
        exact wr_other st.mem _ (by omega)
  · intro b hbb hbu hbp
    rcases List.mem_append.mp hbb with hbb | hbb
    · exact List.mem_append_left _ hbb
    · rcases List.mem_cons.mp hbb with hbe | hbb
      · exfalso
        apply hbp
        rw [hbe]
        omega
      · exact List.mem_append_right _ (List.mem_cons_of_mem _ hbb)

theorem mymalloc_zero (st : St) : mymalloc st 0 = (none, st) := by
  simp [mymalloc]

theorem mymalloc_inv {st : St} (h : Inv st) (r : Nat) : Inv (mymalloc st r).2 := by
  obtain ⟨bs, hD, hb, he, hs16, hnu⟩ := h
  rcases mymalloc_spec hD he hb hs16 r with ⟨-, hst⟩ | ⟨p, bs', -, h1, h2, h3, h4, -, -⟩
  · rw [hst]
    exact ⟨bs, hD, hb, he, hs16, hnu⟩
  · refine ⟨bs', ?_, ?_, ?_, ?_, h3⟩
    · rw [h1, h2]
      exact h4
    · rw [h1]; exact hb
    · rw [h1, h2]; exact he
    · rw [h2]; exact hs16

theorem myfree_inv {st : St} (h : Inv st) (p : Option Nat)
    (hp : p = none ∨ ∃ a, p = some a ∧ isLive st a = true) : Inv (myfree st p) := by
  obtain ⟨bs, hD, hb, he, hs16, hnu⟩ := h
  rcases hp with rfl | ⟨a, rfl, hlive⟩
  · exact ⟨bs, hD, hb, he, hs16, hnu⟩
  · obtain ⟨h1, h2, h3, bs', hD', -⟩ := myfree_spec hD he hlive
    refine ⟨bs', ?_, ?_, ?_, ?_, h3⟩
    · rw [h1, h2]; exact hD'
    · rw [h1]; exact hb
    · rw [h1, h2]; exact he
    · rw [h2]; exact hs16

end Impl

namespace Impl

open HeapModel

theorem myrealloc_inv {st : St} (h : Inv st) (p : Option Nat) (n : Nat)
    (hp : p = none ∨ ∃ a, p = some a ∧ isLive st a = true) :
    Inv (myrealloc st p n).2 := by
  rcases hp with rfl | ⟨a, rfl, hlive⟩
  · have hh : (myrealloc st none n).2 = (mymalloc st n).2 := by
      simp [myrealloc]
    rw [hh]
    exact mymalloc_inv h n
  · by_cases hn0 : n = 0
    · subst hn0
      have hh : myrealloc st (some a) 0 = (none, myfree st (some a)) := by
        simp [myrealloc, mymalloc_zero]
      rw [hh]
      exact myfree_inv h (some a) (Or.inr ⟨a, rfl, hlive⟩)
    · obtain ⟨bs, hD, hb, he, hs16, hnu⟩ := h
      rcases mymalloc_spec hD he hb hs16 n with ⟨hres, hst⟩ |
        ⟨np, bs', hres, h1, h2, h3, h4, ⟨bn, hbn, hbnp, hbnu, hbnsz⟩, hused⟩
      · have hh : (myrealloc st (some a) n).2 = st := by
          simp only [myrealloc, hres, if_neg hn0]
          rw [hst]
        rw [hh]
        exact ⟨bs, hD, hb, he, hs16, hnu⟩
      · obtain ⟨bo, hbo, hboa, hbou⟩ := (isLive_iff hD he a).mp hlive
        have hbo' : bo ∈ bs' := hused bo hbo hbou
        have hra : (myrealloc st (some a) n).2 =
            myfree { (mymalloc st n).2 with
              mem := memcpyWords (mymalloc st n).2.mem np a
                (if n < get_size (mymalloc st n).2.mem (get_header a) then n
                 else get_size (mymalloc st n).2.mem (get_header a)) } (some a) := by
          simp only [myrealloc, hres, if_neg hn0]
        have hcnt : (if n < get_size (mymalloc st n).2.mem (get_header a) then n
            else get_size (mymalloc st n).2.mem (get_header a)) ≤ n := by
          by_cases hcc : n < get_size (mymalloc st n).2.mem (get_header a)
          · rw [if_pos hcc]
          · rw [if_neg hcc]
            omega
        set cnt := (if n < get_size (mymalloc st n).2.mem (get_header a) then n
          else get_size (mymalloc st n).2.mem (get_header a)) with hcntdef
        have hframe : ∀ b ∈ bs',
            memcpyWords (mymalloc st n).2.mem np a cnt b.addr =
              (mymalloc st n).2.mem b.addr := by
          intro b hbb
          rcases describes_sep h4 bn hbn b hbb with heq | hsep | hsep
          · apply memcpyWords_outside
            left
            rw [← heq]
            omega
          · apply memcpyWords_outside
            right
            omega
          · apply memcpyWords_outside
            left
            omega
        have hD2 : DescribesFrom 8 (memcpyWords (mymalloc st n).2.mem np a cnt)
            st.segment_start (st.segment_start + st.segment_size) bs' :=
          describes_frame h4 hframe
        set st2 : St := { (mymalloc st n).2 with
          mem := memcpyWords (mymalloc st n).2.mem np a cnt } with hst2
        have hst2start : st2.segment_start = st.segment_start := h1
        have hst2size : st2.segment_size = st.segment_size := h2
        have hD2' : DescribesFrom 8 st2.mem st2.segment_start
            (st2.segment_start + st2.segment_size) bs' := by
          rw [hst2start, hst2size]
          exact hD2
        have he2 : st2.segment_start + st2.segment_size ≤ W := by
          rw [hst2start, hst2size]
          exact he
        have hlive2 : isLive st2 a = true := by
          rw [isLive_iff hD2' he2 a]
          refine ⟨bo, hbo', hboa, hbou⟩
        obtain ⟨hf1, hf2, hf3, bs'', hDf, -⟩ := myfree_spec hD2' he2 hlive2
        rw [hra]
        refine ⟨bs'', ?_, ?_, ?_, ?_, hf3⟩
        · rw [hf1, hf2, hst2start, hst2size]
          rw [hst2start, hst2size] at hDf
          exact hDf
        · rw [hf1, hst2start]
          exact hb
        · rw [hf1, hf2, hst2start, hst2size]
          exact he
        · rw [hf2, hst2size]
          exact hs16

theorem reachable_inv : ∀ {st : St}, Reachable st → Inv st := by
  intro st h
  induction h with
  | init st0 base len hb h8b h8l hW hok => exact myinit_inv hb h8l hW hok
  | mallocStep r hR ih => exact mymalloc_inv ih r
  | freeStep p hR hp ih => exact myfree_inv ih p hp
  | reallocStep p n hR hp ih => exact myrealloc_inv ih p n hp

theorem reachable_heapTotal {st : St} (h : Reachable st) :
    heapTotal st.mem st.segment_start st.segment_size = some st.segment_size := by
  obtain ⟨bs, hD, hb, he, -, -⟩ := reachable_inv h
  exact describes_heapTotal hD he hb

theorem reachable_sizes {st : St} (h : Reachable st) :
    ∀ hd ∈ headersOf st, 8 ∣ get_size st.mem hd ∧ 8 ≤ get_size st.mem hd := by
  obtain ⟨bs, hD, hb, he, -, -⟩ := reachable_inv h
  intro hd hmem
  rw [headersOf_eq hD he] at hmem
  obtain ⟨b, hb', rfl⟩ := List.mem_map.mp hmem
  have hgs := (describes_get_size hD he b hb').1
  rw [hgs]
  exact ⟨(describes_word hD b hb').2.1, (describes_word hD b hb').2.2⟩

end Impl

namespace E

open HeapModel

/-- Global state of the explicit allocator: `segment_start`, `segment_size`,
`nused`, `free_start` (head of the doubly linked free list, 0 is `NULL`),
plus the memory words of the segment. -/
structure St where
  mem : Nat → Nat
  segment_start : Nat
  segment_size : Nat
  nused : Nat
  free_start : Nat

/-- Explicit-variant `roundup`: like the implicit one but floored at
`2 * ALIGNMENT` so a freed block can hold its two list links. -/
def roundup (size multiple : Nat) : Nat :=
  let rounded := (size + multiple - 1) &&& (W - multiple)
  if rounded < 2 * ALIGNMENT then 2 * ALIGNMENT else rounded

/-- Address of the next-free link cell of the free block headed at `p`
(`(void **)((char *)ptr + 2 * ALIGNMENT)`). -/
def get_next_free (p : Nat) : Nat := p + 2 * ALIGNMENT

/-- Address of the prev-free link cell of the free block headed at `p`
(`(void **)((char *)ptr + ALIGNMENT)`). -/
def get_prev_free (p : Nat) : Nat := p + ALIGNMENT

/-- `remove_free`: unlink the block headed at `p` from the doubly linked
free list. -/
def remove_free (st : St) (p : Nat) : St :=
  let prev := st.mem (get_prev_free p)
  let next := st.mem (get_next_free p)
  let st1 :=
    if prev ≠ 0 then { st with mem := wr st.mem (get_next_free prev) next }
    else { st with free_start := next }
  if next ≠ 0 then { st1 with mem := wr st1.mem (get_prev_free next) prev } else st1

/-- `add_free`: LIFO insertion of the block headed at `p` at the list head. -/
def add_free (st : St) (p : Nat) : St :=
  let st1 : St := { st with mem := wr st.mem (get_prev_free p) 0 }
  let st2 : St := { st1 with mem := wr st1.mem (get_next_free p) st1.free_start }
  let st3 : St :=
    if st2.free_start ≠ 0 then
      { st2 with mem := wr st2.mem (get_prev_free st2.free_start) p }
    else st2
  { st3 with free_start := p }

/-- `set_used`: set the low bit of the header word. -/
def set_used (m : Nat → Nat) (p : Nat) : Nat → Nat := wr m p (m p ||| 1)

/-- `set_free`: clear the low bit of the header word. -/
def set_free (m : Nat → Nat) (p : Nat) : Nat → Nat := wr m p (m p &&& (W - 2))

/-- Explicit-variant `myinit`: rejects when `heap_size < 3 * ALIGNMENT`;
otherwise writes the initial free header, makes it the whole free list, and
zeroes `nused`. -/
def myinit (st : St) (heap_start heap_size : Nat) : Bool × St :=
  let st1 : St := { st with segment_start := heap_start }
  if heap_size < 3 * ALIGNMENT then (false, st1)
  else
    let st2 : St := { st1 with segment_size := heap_size }
    let st3 : St := { st2 with mem := wr st2.mem heap_start (heap_size - ALIGNMENT) }
    let st4 : St := { st3 with free_start := heap_start }
    let st5 : St := { st4 with mem := wr st4.mem (get_prev_free st4.free_start) 0 }
    let st6 : St := { st5 with mem := wr st5.mem (get_next_free st5.free_start) 0 }
    (true, { st6 with nused := 0 })

/-- The free-list scan of the explicit `mymalloc`:
`while (cur != NULL && get_size(cur) < needed) cur = *get_next_free(cur);`
with fuel (the list is finite on well-formed heaps). -/
def findFitF (m : Nat → Nat) (needed : Nat) : Nat → Nat → Nat
  | 0, cur => cur
  | f + 1, cur =>
    if cur ≠ 0 ∧ get_size m cur < needed then
      findFitF m needed f (m (get_next_free cur))
    else cur

/-- Explicit-variant `mymalloc`. -/
def mymalloc (st : St) (requested_size : Nat) : Option Nat × St :=
  if requested_size = 0 ∨ MAX_REQUEST_SIZE < requested_size then (none, st)
  else
    let needed := roundup requested_size ALIGNMENT
    let cur := findFitF st.mem needed (st.segment_size + 1) st.free_start
    if cur = 0 then (none, st)
    else
      let block_size := get_size st.mem cur
      let needed := if block_size < needed + 3 * ALIGNMENT then block_size else needed
      let m1 := wr st.mem cur needed
      let m2 := set_used m1 cur
      let st1 : St := { st with mem := m2, nused := (st.nused + needed) % W }
      let st2 := remove_free st1 cur
      let ptr := cur + ALIGNMENT
      if needed + 3 * ALIGNMENT ≤ block_size then
        let cur2 := get_next_header st2.mem cur
        let st3 : St := { st2 with mem := wr st2.mem cur2 (block_size - needed - ALIGNMENT) }
        let st4 := add_free st3 cur2
        (some ptr, st4)
      else (some ptr, st2)

/-- The right-coalescing loop of the explicit `myfree`: while the next block
exists and is free, unlink it and grow the header word. -/
def coalesceF (fuel : Nat) (st : St) (header : Nat) : St :=
  match fuel with
  | 0 => st
  | f + 1 =>
    let neighbor := get_next_header st.mem header
    if !is_past_end st.segment_start st.segment_size neighbor &&
        !is_used st.mem neighbor then
      let st1 := remove_free st neighbor
      let st2 : St := { st1 with
        mem := wr st1.mem header
          (st1.mem header + (get_size st1.mem neighbor + ALIGNMENT)) }
      coalesceF f st2 header
    else st

/-- Explicit-variant `myfree`: mark free, LIFO-insert, then right-coalesce. -/
def myfree (st : St) (ptr : Option Nat) : St :=
  match ptr with
  | none => st
  | some p =>
    let header := get_header p
    let st1 : St := { st with nused := sub64 st.nused (get_size st.mem header) }
    let st2 : St := { st1 with mem := set_free st1.mem header }
    let st3 := add_free st2 header
    coalesceF (st3.segment_size + 1) st3 header

/-- The absorb loop of the explicit `myrealloc` (case 2): unlink and absorb
free right neighbors; report `true` as soon as the grown block satisfies
`new_size` (the source then makes one recursive `myrealloc` call). -/
def absorbF (fuel : Nat) (st : St) (old_header new_size : Nat) : St × Bool :=
  match fuel with
  | 0 => (st, false)
  | f + 1 =>
    let neighbor := get_next_header st.mem old_header
    if !is_past_end st.segment_start st.segment_size neighbor &&
        !is_used st.mem neighbor then
      let st1 := remove_free st neighbor
      let st2 : St := { st1 with
        mem := wr st1.mem old_header
          (st1.mem old_header + (get_size st1.mem neighbor + ALIGNMENT)) }
      if new_size ≤ get_size st2.mem old_header then (st2, true)
      else absorbF f st2 old_header new_size
    else (st, false)

/-- Explicit-variant `myrealloc`, with a recursion-depth fuel: the source
makes at most one recursive call (which always lands in case 1). -/
def myreallocF : Nat → St → Option Nat → Nat → Option Nat × St
  | 0, st, _, _ => (none, st)
  | fuel + 1, st, old_ptr, new_size0 =>
    match old_ptr with
    | none => mymalloc st new_size0
    | some old_p =>
      if new_size0 = 0 then (none, myfree st (some old_p))
      else
        let old_header := get_header old_p
        let old_size := get_size st.mem old_header
        let new_size := roundup new_size0 ALIGNMENT
        let st1 : St := { st with nused := sub64 st.nused old_size }
        if new_size ≤ old_size then
          if new_size + 3 * ALIGNMENT ≤ old_size then
            let m2 := set_used (wr st1.mem old_header new_size) old_header
            let stA : St := { st1 with mem := m2 }
            let new_free := get_next_header stA.mem old_header
            let stB : St := { stA with
              mem := wr stA.mem new_free (old_size - new_size - ALIGNMENT) }
            let stC := add_free stB new_free
            (some old_p,
              { stC with nused := add64 stC.nused (get_size stC.mem old_header) })
          else
            (some old_p,
              { st1 with nused := add64 st1.nused (get_size st1.mem old_header) })
        else
          let res := absorbF (st1.segment_size + 1) st1 old_header new_size
          if res.2 then myreallocF fuel res.1 (some old_p) new_size
          else
            match mymalloc res.1 new_size with
            | (none, stD) => (none, stD)
            | (some new_p, stD) =>
              let stE : St := { stD with mem := memcpyWords stD.mem new_p old_p old_size }
              let stF : St := { stE with
                nused := add64 stE.nused (get_size stE.mem old_header) }
              (some new_p, myfree stF (some old_p))

/-- Explicit-variant `myrealloc` entry point (recursion depth at most 2). -/
def myrealloc (st : St) (old_ptr : Option Nat) (new_size : Nat) : Option Nat × St :=
  myreallocF 2 st old_ptr new_size

/-- Pass 2 of `validate_heap`: every node on the free list is free. -/
def allFreeF (m : Nat → Nat) : Nat → Nat → Bool
  | 0, cur => cur == 0
  | f + 1, cur =>
    if cur = 0 then true
    else if is_used m cur then false
    else allFreeF m f (m (get_next_free cur))

/-- Pass 3 helper of `validate_heap`: linear search of the free list. -/
def onListF (m : Nat → Nat) (target : Nat) : Nat → Nat → Bool
  | 0, _ => false
  | f + 1, cur =>
    if cur = 0 then false
    else if cur = target then true
    else onListF m target f (m (get_next_free cur))

/-- Explicit-variant `validate_heap`: segment-walk sum, then head prev link,
then all list nodes free, then every free block reachable from the list. -/
def validate_heap (st : St) : Bool :=
  match walkHeadersF st.mem (st.segment_start + st.segment_size)
      (st.segment_size + 1) st.segment_start with
  | none => false
  | some hs =>
    if (hs.foldl (fun acc h => (acc + (get_size st.mem h + ALIGNMENT)) % W) 0)
        ≠ st.segment_size then false
    else if st.free_start ≠ 0 ∧ st.mem (get_prev_free st.free_start) ≠ 0 then false
    else if ! allFreeF st.mem (st.segment_size + 1) st.free_start then false
    else hs.all (fun h =>
      is_used st.mem h || onListF st.mem h (st.segment_size + 1) st.free_start)

/-- The free list as a list of block header addresses, by following
`*get_next_free` from `free_start` (with ample fuel). -/
def freeListF (m : Nat → Nat) : Nat → Nat → List Nat
  | 0, _ => []
  | f + 1, cur =>
    if cur = 0 then [] else cur :: freeListF m f (m (get_next_free cur))

/-- The free list of a state. -/
def freeListOf (st : St) : List Nat :=
  freeListF st.mem (st.segment_size + 1) st.free_start

/-- The header addresses of the heap, as collected by the walk. -/
def headersOf (st : St) : List Nat :=
  (walkHeadersF st.mem (st.segment_start + st.segment_size) (st.segment_size + 1)
    st.segment_start).getD []

/-- A payload pointer is live when it sits one word past a block header that
is currently marked used. -/
def isLive (st : St) (p : Nat) : Bool :=
  decide (8 ≤ p) && (headersOf st).contains (p - 8) && is_used st.mem (p - 8)

/-- States reachable from a successful aligned `myinit` by valid entry-point
calls (`free`/`realloc` only on `NULL` or a live payload — anything else is
undefined behavior per the specification). -/
inductive Reachable : St → Prop where
  | init : ∀ (st0 : St) (base len : Nat), 0 < base → 8 ∣ base → 8 ∣ len →
      base + len ≤ W → (myinit st0 base len).1 = true →
      Reachable (myinit st0 base len).2
  | mallocStep : ∀ {st : St} (r : Nat), Reachable st → Reachable (mymalloc st r).2
  | freeStep : ∀ {st : St} (p : Option Nat), Reachable st →
      (p = none ∨ ∃ a, p = some a ∧ isLive st a = true) → Reachable (myfree st p)
  | reallocStep : ∀ {st : St} (p : Option Nat) (n : Nat), Reachable st →
      (p = none ∨ ∃ a, p = some a ∧ isLive st a = true) →
      Reachable (myrealloc st p n).2

/-- `Chain m prv cur L`: starting from the pointer `cur` whose owner's
prev-link is `prv`, the doubly linked free list consists exactly of the
nodes `L`, ending with a null next link. -/
def Chain (m : Nat → Nat) : Nat → Nat → List Nat → Prop
  | _, cur, [] => cur = 0
  | prv, cur, a :: L =>
    cur = a ∧ a ≠ 0 ∧ m (get_prev_free a) = prv ∧ Chain m a (m (get_next_free a)) L

/-- Free-list fidelity: the doubly linked list from `free_start` holds
exactly the free blocks, each once. -/
def FL (st : St) (bs : List Blk) (L : List Nat) : Prop :=
  Chain st.mem 0 st.free_start L ∧ L.Nodup ∧
  (∀ a ∈ L, ∃ b ∈ bs, b.addr = a ∧ b.used = false) ∧
  (∀ b ∈ bs, b.used = false → b.addr ∈ L)

/-- Structural invariant of the explicit heap. -/
def Inv (st : St) : Prop :=
  ∃ bs L,
    DescribesFrom 16 st.mem st.segment_start (st.segment_start + st.segment_size) bs ∧
    FL st bs L ∧ 0 < st.segment_start ∧ st.segment_start + st.segment_size ≤ W ∧
    24 ≤ st.segment_size ∧ st.nused < W

end E

namespace E

open HeapModel

/-- Pairwise 24-byte separation: any two distinct block header addresses are
at least a minimum block (header + two links) apart. -/
def Sep24 (L : List Nat) : Prop :=
  ∀ x ∈ L, ∀ y ∈ L, x = y ∨ x + 24 ≤ y ∨ y + 24 ≤ x

theorem e_chain_ne_zero {m : Nat → Nat} :
    ∀ {L : List Nat} {prv cur : Nat}, Chain m prv cur L → ∀ a ∈ L, a ≠ 0 := by
  intro L
  induction L with
  | nil => intro prv cur h a ha; cases ha
  | cons b L ih =>
    intro prv cur h a ha
    obtain ⟨-, hb0, -, h4⟩ := h
    rcases List.mem_cons.mp ha with rfl | ha
    · exact hb0
    · exact ih h4 a ha

theorem e_chain_frame {m m2 : Nat → Nat} :
    ∀ {L : List Nat} {prv cur : Nat}, Chain m prv cur L →
      (∀ a ∈ L, m2 (get_prev_free a) = m (get_prev_free a) ∧
        m2 (get_next_free a) = m (get_next_free a)) →
      Chain m2 prv cur L := by
  intro L
  induction L with
  | nil => intro prv cur h _; exact h
  | cons b L ih =>
    intro prv cur h hf
    obtain ⟨h1, h2, h3, h4⟩ := h
    have hb := hf b (List.mem_cons_self b L)
    refine ⟨h1, h2, by rw [hb.1, h3], ?_⟩
    rw [hb.2]
    exact ih h4 (fun a ha => hf a (List.mem_cons_of_mem b ha))

theorem e_chain_head_mem {m : Nat → Nat} {L : List Nat} {prv cur : Nat}
    (h : Chain m prv cur L) (hne : cur ≠ 0) : cur ∈ L := by
  cases L with
  | nil => exact absurd h hne
  | cons b L =>
    obtain ⟨h1, -, -, -⟩ := h
    rw [h1]
    exact List.mem_cons_self b L

/-- The prev link of `p` inside a chain `L1 ++ p :: L2` is the anchor when
`L1` is empty, and a member of `L1` otherwise. -/
theorem e_chain_prev_mem {m : Nat → Nat} {p : Nat} {L2 : List Nat} :
    ∀ {L1 : List Nat} {prv cur : Nat}, Chain m prv cur (L1 ++ p :: L2) →
      (L1 = [] ∧ m (get_prev_free p) = prv) ∨ m (get_prev_free p) ∈ L1 := by
  intro L1
  induction L1 with
  | nil =>
    intro prv cur h
    obtain ⟨-, -, h3, -⟩ := h
    exact Or.inl ⟨rfl, h3⟩
  | cons x L1 ih =>
    intro prv cur h
    obtain ⟨-, -, -, h4⟩ := h
    rcases ih h4 with ⟨rfl, hp⟩ | hp
    · right
      rw [hp]
      exact List.mem_cons_self x []
    · exact Or.inr (List.mem_cons_of_mem x hp)

/-- The next link of the node at the head of `p :: L2` is the head of `L2`
(or null). -/
theorem e_chain_next_head {m : Nat → Nat} {p : Nat} {L2 : List Nat} {prv : Nat}
    (h : Chain m prv p (p :: L2)) :
    (L2 = [] ∧ m (get_next_free p) = 0) ∨
    (∃ b L2t, L2 = b :: L2t ∧ m (get_next_free p) = b) := by
  obtain ⟨-, -, -, h4⟩ := h
  cases L2 with
  | nil => exact Or.inl ⟨rfl, h4⟩
  | cons b L2t =>
    obtain ⟨hb, -, -, -⟩ := h4
    exact Or.inr ⟨b, L2t, rfl, hb⟩

end E

namespace E

open HeapModel

/-- `ChainSeg m prv cur L prv2 cur2`: the nodes `L` form an initial segment
of a doubly linked list starting at pointer `cur` with prev-anchor `prv`,
handing over prev-anchor `prv2` (the last node, or `prv` when `L` is empty)
and forward pointer `cur2`. -/
def ChainSeg (m : Nat → Nat) : Nat → Nat → List Nat → Nat → Nat → Prop
  | prv, cur, [], prv2, cur2 => prv2 = prv ∧ cur2 = cur
  | prv, cur, a :: L, prv2, cur2 =>
    cur = a ∧ a ≠ 0 ∧ m (get_prev_free a) = prv ∧
      ChainSeg m a (m (get_next_free a)) L prv2 cur2

theorem e_chain_split {m : Nat → Nat} {L2 : List Nat} :
    ∀ {L1 : List Nat} {prv cur : Nat}, Chain m prv cur (L1 ++ L2) →
      ∃ prv2 cur2, ChainSeg m prv cur L1 prv2 cur2 ∧ Chain m prv2 cur2 L2 := by
  intro L1
  induction L1 with
  | nil =>
    intro prv cur h
    exact ⟨prv, cur, ⟨rfl, rfl⟩, h⟩
  | cons x L1 ih =>
    intro prv cur h
    obtain ⟨h1, h2, h3, h4⟩ := h
    obtain ⟨prv2, cur2, hseg, hch⟩ := ih h4
    exact ⟨prv2, cur2, ⟨h1, h2, h3, hseg⟩, hch⟩

theorem e_chain_join {m : Nat → Nat} {L2 : List Nat} :
    ∀ {L1 : List Nat} {prv cur prv2 cur2 : Nat},
      ChainSeg m prv cur L1 prv2 cur2 → Chain m prv2 cur2 L2 →
      Chain m prv cur (L1 ++ L2) := by
  intro L1
  induction L1 with
  | nil =>
    intro prv cur prv2 cur2 hseg hch
    obtain ⟨hh1, hh2⟩ := hseg
    rw [List.nil_append, ← hh1, ← hh2]
    exact hch
  | cons x L1 ih =>
    intro prv cur prv2 cur2 hseg hch
    obtain ⟨h1, h2, h3, h4⟩ := hseg
    exact ⟨h1, h2, h3, ih h4 hch⟩

theorem e_chainSeg_ne_zero {m : Nat → Nat} :
    ∀ {L : List Nat} {prv cur prv2 cur2 : Nat}, ChainSeg m prv cur L prv2 cur2 →
      ∀ a ∈ L, a ≠ 0 := by
  intro L
  induction L with
  | nil => intro prv cur prv2 cur2 h a ha; cases ha
  | cons x L ih =>
    intro prv cur prv2 cur2 h a ha
    obtain ⟨-, h2, -, h4⟩ := h
    rcases List.mem_cons.mp ha with rfl | ha
    · exact h2
    · exact ih h4 a ha

theorem e_chainSeg_last_mem {m : Nat → Nat} :
    ∀ {L : List Nat} {prv cur prv2 cur2 : Nat}, ChainSeg m prv cur L prv2 cur2 →
      L ≠ [] → prv2 ∈ L := by
  intro L
  induction L with
  | nil => intro prv cur prv2 cur2 h hne; exact absurd rfl hne
  | cons x L ih =>
    intro prv cur prv2 cur2 h hne
    obtain ⟨-, -, -, h4⟩ := h
    cases L with
    | nil =>
      obtain ⟨hp, -⟩ := h4
      rw [hp]
      exact List.mem_cons_self x []
    | cons y L' =>
      exact List.mem_cons_of_mem x (ih h4 (by simp))

theorem e_chainSeg_retarget {m m2 : Nat → Nat} :
    ∀ {L : List Nat} {prv cur prv2 cur2 cur2' : Nat},
      ChainSeg m prv cur L prv2 cur2 → L.Nodup →
      (∀ a ∈ L, m2 (get_prev_free a) = m (get_prev_free a)) →
      (∀ a ∈ L, a ≠ prv2 → m2 (get_next_free a) = m (get_next_free a)) →
      (L ≠ [] → m2 (get_next_free prv2) = cur2') →
      (L = [] → cur2' = cur2) →
      ChainSeg m2 prv cur L prv2 cur2' := by
  intro L
  induction L with
  | nil =>
    intro prv cur prv2 cur2 cur2' hseg hnd hfp hfn hlast hnil
    obtain ⟨hh1, hh2⟩ := hseg
    exact ⟨hh1, by rw [hnil rfl, hh2]⟩
  | cons x L ih =>
    intro prv cur prv2 cur2 cur2' hseg hnd hfp hfn hlast hnil
    obtain ⟨h1, h2, h3, h4⟩ := hseg
    refine ⟨h1, h2, ?_, ?_⟩
    · rw [hfp x (List.mem_cons_self x L), h3]
    · cases L with
      | nil =>
        obtain ⟨hp, hc⟩ := h4
        refine ⟨hp, ?_⟩
        have hh := hlast (by simp)
        rw [hp] at hh
        exact hh.symm
      | cons y L' =>
        have hx_ne : x ≠ prv2 := by
          intro hx
          have hmem := e_chainSeg_last_mem h4 (by simp)
          rw [← hx] at hmem
          exact (List.nodup_cons.mp hnd).1 hmem
        rw [hfn x (List.mem_cons_self x _) hx_ne]
        exact ih h4 (List.nodup_cons.mp hnd).2
          (fun a ha => hfp a (List.mem_cons_of_mem x ha))
          (fun a ha hne => hfn a (List.mem_cons_of_mem x ha) hne)
          (fun _ => hlast (by simp)) (by simp)

end E

namespace E

open HeapModel

theorem e_cells_ne {a b : Nat} (hsep : a + 24 ≤ b ∨ b + 24 ≤ a) :
    get_prev_free a ≠ get_prev_free b ∧ get_prev_free a ≠ get_next_free b ∧
    get_next_free a ≠ get_prev_free b ∧ get_next_free a ≠ get_next_free b ∧
    a ≠ get_prev_free b ∧ a ≠ get_next_free b ∧ get_prev_free a ≠ b ∧
    get_next_free a ≠ b ∧ a ≠ b := by
  simp only [get_prev_free, get_next_free, ALIGNMENT]
  omega

theorem e_cells_own (a : Nat) :
    a ≠ get_prev_free a ∧ a ≠ get_next_free a ∧ get_prev_free a ≠ get_next_free a := by
  simp only [get_prev_free, get_next_free, ALIGNMENT]
  omega

theorem e_sep_of {L : List Nat} (hsep : Sep24 L) {a b : Nat} (ha : a ∈ L) (hb : b ∈ L)
    (hne : a ≠ b) : a + 24 ≤ b ∨ b + 24 ≤ a := by
  rcases hsep a ha b hb with h | h | h
  · exact absurd h hne
  · exact Or.inl h
  · exact Or.inr h

theorem e_remove_free_spec {st : St} {L1 L2 : List Nat} {p : Nat}
    (hch : Chain st.mem 0 st.free_start (L1 ++ p :: L2))
    (hnd : (L1 ++ p :: L2).Nodup)
    (hsep : Sep24 (L1 ++ p :: L2))
    (hlt : ∀ a ∈ L1 ++ p :: L2, a < W) :
    Chain (remove_free st p).mem 0 (remove_free st p).free_start (L1 ++ L2) ∧
    (remove_free st p).segment_start = st.segment_start ∧
    (remove_free st p).segment_size = st.segment_size ∧
    (remove_free st p).nused = st.nused ∧
    (∀ c : Nat, (∀ a ∈ L1 ++ p :: L2, c ≠ get_prev_free a ∧ c ≠ get_next_free a) →
      (remove_free st p).mem c = st.mem c) := by
  obtain ⟨prv2, cur2, hseg, hrest⟩ := e_chain_split hch
  obtain ⟨hcur2, hp0, hpprev, htail⟩ := hrest
  rw [hcur2] at hseg
  have hdisj : L1.Disjoint (p :: L2) := List.disjoint_of_nodup_append hnd
  have hnd1 : L1.Nodup := hnd.of_append_left
  have hnd2 : (p :: L2).Nodup := hnd.of_append_right
  have hpmem : p ∈ L1 ++ p :: L2 :=
    List.mem_append_right L1 (List.mem_cons_self p L2)
  by_cases hL1 : L1 = []
  · -- p is the list head: free_start moves to p's next
    subst hL1
    obtain ⟨hprv2, hfs⟩ := hseg
    subst hprv2
    cases L2 with
    | nil =>
      have hnext : st.mem (get_next_free p) = 0 := htail
      have hco : remove_free st p = { st with free_start := 0 } := by
        rw [remove_free]
        simp only [hpprev, hnext]
        simp
      rw [hco]
      exact ⟨rfl, rfl, rfl, rfl, fun c _ => rfl⟩
    | cons b L2t =>
      obtain ⟨hb, hb0, hbp, htt⟩ := htail
      have hbmem : b ∈ [] ++ p :: b :: L2t := by simp
      have hbW : b < W := hlt b hbmem
      have hco : remove_free st p =
          { st with free_start := b, mem := wr st.mem (get_prev_free b) 0 } := by
        rw [remove_free]
        simp only [hpprev, hb]
        simp [hb0]
      rw [hco]
      dsimp only
      refine ⟨?_, rfl, rfl, rfl, ?_⟩
      · refine ⟨rfl, hb0, ?_, ?_⟩
        · rw [wr_same]
          simp
        · have hb16 : wr st.mem (get_prev_free b) 0 (get_next_free b) =
              st.mem (get_next_free b) :=
            wr_other _ _ (e_cells_own b).2.2.symm
          rw [hb16]
          apply e_chain_frame htt
          intro a ha
          have hane : a ≠ b := by
            intro hh
            rw [hh] at ha
            exact (List.nodup_cons.mp (List.nodup_cons.mp hnd2).2).1 ha
          have hasep := e_sep_of hsep (by simp [ha]) hbmem hane
          obtain ⟨c1, c2, c3, c4, -⟩ := e_cells_ne hasep
          exact ⟨wr_other _ _ c1, wr_other _ _ c3⟩
      · intro c hc
        exact wr_other _ _ (hc b hbmem).1
  · -- p has a predecessor prv2 ∈ L1
    have hprv2mem : prv2 ∈ L1 := e_chainSeg_last_mem hseg hL1
    have hprv2ne : prv2 ≠ 0 := e_chainSeg_ne_zero hseg prv2 hprv2mem
    have hprv2memL : prv2 ∈ L1 ++ p :: L2 := List.mem_append_left _ hprv2mem
    have hprv2W : prv2 < W := hlt _ hprv2memL
    cases L2 with
    | nil =>
      have hnext : st.mem (get_next_free p) = 0 := htail
      have hco : remove_free st p =
          { st with mem := wr st.mem (get_next_free prv2) 0 } := by
        rw [remove_free]
        simp only [hpprev, hnext]
        simp [hprv2ne]
      rw [hco]
      dsimp only
      refine ⟨?_, rfl, rfl, rfl, ?_⟩
      · have hjoin : Chain (wr st.mem (get_next_free prv2) 0) prv2 0 [] := rfl
        have hseg' : ChainSeg (wr st.mem (get_next_free prv2) 0) 0 st.free_start
            L1 prv2 0 := by
          apply e_chainSeg_retarget hseg hnd1
          · intro a ha
            by_cases hap : a = prv2
            · subst hap
              exact wr_other _ _ (e_cells_own a).2.2
            · have hasep := e_sep_of hsep (List.mem_append_left _ ha) hprv2memL hap
              obtain ⟨-, c2, -, -, -⟩ := e_cells_ne hasep
              exact wr_other _ _ c2
          · intro a ha hap
            have hasep := e_sep_of hsep (List.mem_append_left _ ha) hprv2memL hap
            obtain ⟨-, -, -, c4, -⟩ := e_cells_ne hasep
            exact wr_other _ _ c4
          · intro _
            rw [wr_same]
            simp
          · intro hcon
            exact absurd hcon hL1
        have := e_chain_join hseg' hjoin
        simpa using this
      · intro c hc
        exact wr_other _ _ (hc prv2 hprv2memL).2
    | cons b L2t =>
      obtain ⟨hb, hb0, hbp, htt⟩ := htail
      have hbmem : b ∈ L1 ++ p :: b :: L2t := by simp
      have hbW : b < W := hlt b hbmem
      have hbprv2 : b ≠ prv2 := by
        intro hh
        subst hh
        exact hdisj hprv2mem (by simp)
      have hbpsep := e_sep_of hsep hbmem hprv2memL hbprv2
      obtain ⟨d1, d2, d3, d4, -⟩ := e_cells_ne hbpsep
      have hco : remove_free st p =
          { st with
              mem := wr (wr st.mem (get_next_free prv2) b) (get_prev_free b) prv2 } := by
        rw [remove_free]
        simp only [hpprev, hb]
        simp [hprv2ne, hb0]
      rw [hco]
      dsimp only
      set m2 : Nat → Nat :=
        wr (wr st.mem (get_next_free prv2) b) (get_prev_free b) prv2 with hm2
      refine ⟨?_, rfl, rfl, rfl, ?_⟩
      · have hchainL2 : Chain m2 prv2 b (b :: L2t) := by
          refine ⟨rfl, hb0, ?_, ?_⟩
          · rw [hm2, wr_same]
            exact Nat.mod_eq_of_lt hprv2W
          · have hb16 : m2 (get_next_free b) = st.mem (get_next_free b) := by
              rw [hm2, wr_other _ _ (e_cells_own b).2.2.symm, wr_other _ _ d4]
            rw [hb16]
            apply e_chain_frame htt
            intro a ha
            have hamem : a ∈ L1 ++ p :: b :: L2t := by simp [ha]
            have hab : a ≠ b := by
              intro hh
              rw [hh] at ha
              exact (List.nodup_cons.mp (List.nodup_cons.mp hnd2).2).1 ha
            have hap : a ≠ prv2 := by
              intro hh
              subst hh
              exact hdisj hprv2mem (by simp [ha])
            have hs1 := e_sep_of hsep hamem hbmem hab
            have hs2 := e_sep_of hsep hamem hprv2memL hap
            obtain ⟨e1, -, e3, -, -⟩ := e_cells_ne hs1
            obtain ⟨-, f2, -, f4, -⟩ := e_cells_ne hs2
            constructor
            · rw [hm2, wr_other _ _ e1, wr_other _ _ f2]
            · rw [hm2, wr_other _ _ e3, wr_other _ _ f4]
        have hseg' : ChainSeg m2 0 st.free_start L1 prv2 b := by
          apply e_chainSeg_retarget hseg hnd1
          · intro a ha
            by_cases hap : a = prv2
            · subst hap
              rw [hm2, wr_other _ _ d1.symm, wr_other _ _ (e_cells_own a).2.2]
            · have hasep := e_sep_of hsep (List.mem_append_left _ ha) hprv2memL hap
              obtain ⟨-, c2, -, -, -⟩ := e_cells_ne hasep
              have hab : a ≠ b := by
                intro hh
                subst hh
                exact hdisj ha (by simp)
              have hs1 := e_sep_of hsep (List.mem_append_left _ ha) hbmem hab
              obtain ⟨g1, -, -, -, -⟩ := e_cells_ne hs1
              rw [hm2, wr_other _ _ g1, wr_other _ _ c2]
          · intro a ha hap
            have hasep := e_sep_of hsep (List.mem_append_left _ ha) hprv2memL hap
            obtain ⟨-, -, -, c4, -⟩ := e_cells_ne hasep
            have hab : a ≠ b := by
              intro hh
              subst hh
              exact hdisj ha (by simp)
            have hs1 := e_sep_of hsep (List.mem_append_left _ ha) hbmem hab
            obtain ⟨-, -, g3, -, -⟩ := e_cells_ne hs1
            rw [hm2, wr_other _ _ g3, wr_other _ _ c4]
          · intro _
            rw [hm2, wr_other _ _ d2.symm, wr_same]
            exact Nat.mod_eq_of_lt hbW
          · intro hcon
            exact absurd hcon hL1
        exact e_chain_join hseg' hchainL2
      · intro c hc
        rw [hm2, wr_other _ _ (hc b hbmem).1, wr_other _ _ (hc prv2 hprv2memL).2]

end E

namespace E

open HeapModel

theorem e_add_free_spec {st : St} {L : List Nat} {p : Nat}
    (hch : Chain st.mem 0 st.free_start L)
    (hnd : L.Nodup)
    (hsep : Sep24 L)
    (hlt : ∀ a ∈ L, a < W)
    (hp0 : p ≠ 0) (hpW : p < W)
    (hpsep : ∀ a ∈ L, p + 24 ≤ a ∨ a + 24 ≤ p) :
    Chain (add_free st p).mem 0 (add_free st p).free_start (p :: L) ∧
    (add_free st p).free_start = p ∧
    (add_free st p).segment_start = st.segment_start ∧
    (add_free st p).segment_size = st.segment_size ∧
    (add_free st p).nused = st.nused ∧
    (∀ c : Nat, c ≠ get_prev_free p → c ≠ get_next_free p →
      (∀ a ∈ L, c ≠ get_prev_free a) → (add_free st p).mem c = st.mem c) := by
  by_cases hfs : st.free_start = 0
  · have hLnil : L = [] := by
      cases L with
      | nil => rfl
      | cons b Lt =>
        obtain ⟨h1, h2, -, -⟩ := hch
        exact absurd (hfs ▸ h1.symm) h2
    subst hLnil
    have hco : add_free st p =
        { st with
            mem := wr (wr st.mem (get_prev_free p) 0) (get_next_free p) st.free_start,
            free_start := p } := by
      rw [add_free]
      simp [hfs]
    rw [hco]
    dsimp only
    refine ⟨?_, rfl, rfl, rfl, rfl, ?_⟩
    · refine ⟨rfl, hp0, ?_, ?_⟩
      · rw [wr_other _ _ (e_cells_own p).2.2, wr_same]
        simp
      · show wr (wr st.mem (get_prev_free p) 0) (get_next_free p) st.free_start
          (get_next_free p) = 0
        rw [wr_same, hfs]
        simp
    · intro c hc1 hc2 _
      rw [wr_other _ _ hc2, wr_other _ _ hc1]
  · cases L with
    | nil => exact absurd hch hfs
    | cons b Lt =>
      obtain ⟨h1, hb0, hbprev, htt⟩ := hch
      have hbmem : b ∈ b :: Lt := List.mem_cons_self b Lt
      have hbW : b < W := hlt b hbmem
      have hbsep := hpsep b hbmem
      obtain ⟨k1, k2, k3, k4, k5, k6, k7, k8, k9⟩ := e_cells_ne hbsep
      have hco : add_free st p =
          { st with
              mem := wr (wr (wr st.mem (get_prev_free p) 0) (get_next_free p)
                st.free_start) (get_prev_free st.free_start) p,
              free_start := p } := by
        rw [add_free]
        simp [hfs]
      rw [hco]
      dsimp only
      rw [← h1]
      refine ⟨?_, rfl, rfl, rfl, rfl, ?_⟩
      · refine ⟨rfl, hp0, ?_, ?_⟩
        · rw [h1] at hfs ⊢
          rw [wr_other _ _ k1, wr_other _ _ (e_cells_own p).2.2, wr_same]
          simp
        · rw [h1] at hfs ⊢
          have hv : wr (wr (wr st.mem (get_prev_free p) 0) (get_next_free p) b)
              (get_prev_free b) p (get_next_free p) = b := by
            rw [wr_other _ _ k3, wr_same]
            exact Nat.mod_eq_of_lt hbW
          rw [hv]
          refine ⟨rfl, hb0, ?_, ?_⟩
          · rw [wr_same]
            exact Nat.mod_eq_of_lt hpW
          · have hv2 : wr (wr (wr st.mem (get_prev_free p) 0) (get_next_free p) b)
                (get_prev_free b) p (get_next_free b) = st.mem (get_next_free b) := by
              rw [wr_other _ _ (e_cells_own b).2.2.symm, wr_other _ _ k4.symm,
                wr_other _ _ k2.symm]
            rw [hv2]
            apply e_chain_frame htt
            intro a ha
            have hamem : a ∈ b :: Lt := List.mem_cons_of_mem b ha
            have hab : a ≠ b := by
              intro hh
              rw [hh] at ha
              exact (List.nodup_cons.mp hnd).1 ha
            obtain ⟨j1, j2, j3, j4, j5, j6, j7, j8, j9⟩ :=
              e_cells_ne (hpsep a hamem)
            obtain ⟨i1, i2, i3, i4, i5, i6, i7, i8, i9⟩ :=
              e_cells_ne (e_sep_of hsep hamem hbmem hab)
            constructor
            · rw [wr_other _ _ i1, wr_other _ _ j3.symm, wr_other _ _ j1.symm]
            · rw [wr_other _ _ i3, wr_other _ _ j4.symm, wr_other _ _ j2.symm]
      · intro c hc1 hc2 hcl
        have hbm2 : b ∈ st.free_start :: Lt := by
          rw [h1]
          exact hbmem
        rw [h1]
        rw [wr_other _ _ (hcl b hbm2), wr_other _ _ hc2, wr_other _ _ hc1]

end E

namespace E

open HeapModel

theorem e_findFitF_spec {m : Nat → Nat} {needed : Nat} :
    ∀ {L : List Nat} {prv cur : Nat}, Chain m prv cur L →
      ∀ f, L.length ≤ f →
        (findFitF m needed f cur = 0 ∧ ∀ a ∈ L, get_size m a < needed) ∨
        (∃ a ∈ L, findFitF m needed f cur = a ∧ needed ≤ get_size m a) := by
  intro L
  induction L with
  | nil =>
    intro prv cur h f hf
    left
    have hc : cur = 0 := h
    subst hc
    constructor
    · cases f with
      | zero => rfl
      | succ f =>
        rw [findFitF]
        simp
    · intro a ha
      cases ha
  | cons b L ih =>
    intro prv cur h f hf
    obtain ⟨h1, hb0, -, h4⟩ := h
    rw [h1]
    match f with
    | f + 1 =>
      rw [findFitF]
      by_cases hg : get_size m b < needed
      · rw [if_pos ⟨hb0, hg⟩]
        rcases ih h4 f (by simpa using hf) with ⟨hr, hall⟩ | ⟨a, ha, hr, hge⟩
        · left
          refine ⟨hr, ?_⟩
          intro a ha
          rcases List.mem_cons.mp ha with rfl | ha
          · exact hg
          · exact hall a ha
        · right
          exact ⟨a, List.mem_cons_of_mem b ha, hr, hge⟩
      · rw [if_neg (by intro hcon; exact hg hcon.2)]
        right
        exact ⟨b, List.mem_cons_self b L, rfl, by omega⟩

theorem e_addr_sep24 {m : Nat → Nat} {cur e : Nat} {bs : List Blk}
    (hD : DescribesFrom 16 m cur e bs) :
    ∀ b1 ∈ bs, ∀ b2 ∈ bs,
      b1.addr = b2.addr ∨ b1.addr + 24 ≤ b2.addr ∨ b2.addr + 24 ≤ b1.addr := by
  intro b1 hb1 b2 hb2
  rcases describes_sep hD b1 hb1 b2 hb2 with heq | hs | hs
  · exact Or.inl (by rw [heq])
  · have := (describes_word hD b1 hb1).2.2
    right; left; omega
  · have := (describes_word hD b2 hb2).2.2
    right; right; omega

theorem e_L_sep {st : St} {bs : List Blk} {L : List Nat}
    (hD : DescribesFrom 16 st.mem st.segment_start
      (st.segment_start + st.segment_size) bs)
    (hmem : ∀ a ∈ L, ∃ b ∈ bs, b.addr = a ∧ b.used = false) : Sep24 L := by
  intro x hx y hy
  obtain ⟨bx, hbx, hbxa, -⟩ := hmem x hx
  obtain ⟨bz, hbz, hbza, -⟩ := hmem y hy
  rcases e_addr_sep24 hD bx hbx bz hbz with h | h | h
  · left; omega
  · right; left; omega
  · right; right; omega

theorem e_L_ltW {st : St} {bs : List Blk} {L : List Nat}
    (hD : DescribesFrom 16 st.mem st.segment_start
      (st.segment_start + st.segment_size) bs)
    (he : st.segment_start + st.segment_size ≤ W)
    (hmem : ∀ a ∈ L, ∃ b ∈ bs, b.addr = a ∧ b.used = false) :
    ∀ a ∈ L, a < W := by
  intro a ha
  obtain ⟨b, hb, hba, -⟩ := hmem a ha
  have := describes_mem_bounds hD b hb
  omega

theorem e_headersOf_eq {st : St} {bs : List Blk}
    (hD : DescribesFrom 16 st.mem st.segment_start
      (st.segment_start + st.segment_size) bs)
    (he : st.segment_start + st.segment_size ≤ W) :
    headersOf st = bs.map Blk.addr := by
  have hlen : bs.length ≤ st.segment_size + 1 := by
    have := describes_length hD; omega
  rw [headersOf, describes_walk hD he _ hlen]
  rfl

theorem e_isLive_iff {st : St} {bs : List Blk}
    (hD : DescribesFrom 16 st.mem st.segment_start
      (st.segment_start + st.segment_size) bs)
    (he : st.segment_start + st.segment_size ≤ W) (p : Nat) :
    isLive st p = true ↔ ∃ b ∈ bs, b.addr + 8 = p ∧ b.used = true := by
  rw [isLive, e_headersOf_eq hD he]
  constructor
  · intro h
    rw [Bool.and_eq_true, Bool.and_eq_true] at h
    obtain ⟨⟨h8, hmem⟩, hused⟩ := h
    have h8' : 8 ≤ p := by simpa using h8
    have hmem' : p - 8 ∈ bs.map Blk.addr := by
      simpa [List.contains, List.elem_iff] using hmem
    obtain ⟨b, hb, hba⟩ := List.mem_map.mp hmem'
    refine ⟨b, hb, by omega, ?_⟩
    have := (describes_get_size hD he b hb).2
    rw [hba, hused] at this
    exact this.symm
  · rintro ⟨b, hb, haddr, hused⟩
    rw [Bool.and_eq_true, Bool.and_eq_true]
    refine ⟨⟨by simp; omega, ?_⟩, ?_⟩
    · have hmem' : p - 8 ∈ bs.map Blk.addr :=
        List.mem_map.mpr ⟨b, hb, by omega⟩
      simpa [List.contains, List.elem_iff] using hmem'
    · have := (describes_get_size hD he b hb).2
      have hba : b.addr = p - 8 := by omega
      rw [hba] at this
      rw [this, hused]

theorem e_myinit_fst (st0 : St) (base len : Nat) :
    (myinit st0 base len).1 = ! decide (len < 3 * ALIGNMENT) := by
  unfold myinit
  by_cases h : len < 3 * ALIGNMENT
  · simp [h]
  · simp [h]

theorem e_myinit_true_iff (st0 : St) (base len : Nat) :
    (myinit st0 base len).1 = true ↔ 24 ≤ len := by
  rw [e_myinit_fst]
  have hA : 3 * ALIGNMENT = 24 := rfl
  rw [hA]
  by_cases h : len < 24
  · simp [h]
  · simp [h]
    omega

theorem e_myinit_inv {st0 : St} {base len : Nat} (hb : 0 < base) (hlen8 : 8 ∣ len)
    (hW : base + len ≤ W) (hok : (myinit st0 base len).1 = true) :
    Inv (myinit st0 base len).2 := by
  have h24 : 24 ≤ len := (e_myinit_true_iff st0 base len).mp hok
  have hcond : ¬ len < 3 * ALIGNMENT := by show ¬ len < 24; omega
  have hstate : (myinit st0 base len).2 =
      { mem := wr (wr (wr st0.mem base (len - ALIGNMENT)) (get_prev_free base) 0)
          (get_next_free base) 0,
        segment_start := base, segment_size := len, nused := 0,
        free_start := base } := by
    rw [myinit]
    simp [hcond]
  rw [hstate]
  have hbne : base ≠ get_prev_free base := (e_cells_own base).1
  have hbne2 : base ≠ get_next_free base := (e_cells_own base).2.1
  have hpn : get_prev_free base ≠ get_next_free base := (e_cells_own base).2.2
  have hhdr : wr (wr (wr st0.mem base (len - ALIGNMENT)) (get_prev_free base) 0)
      (get_next_free base) 0 base = len - 8 := by
    rw [wr_other _ _ hbne2, wr_other _ _ hbne,
      wr_same_lt _ _ (by show len - 8 < W; omega)]
    rfl
  refine ⟨[⟨base, len - 8, false⟩], [base], ?_, ?_, hb, by simpa using hW,
    h24, W_pos⟩
  · dsimp only
    refine @describes_cons_intro 16 _ _ _ ⟨base, len - 8, false⟩ []
      rfl ?_ ?_ (by show 16 ≤ len - 8; omega) ?_
    · rw [hhdr]
      rfl
    · rcases hlen8 with ⟨c, rfl⟩
      exact ⟨c - 1, by show (8 : Nat) * c - 8 = 8 * (c - 1); omega⟩
    · show base + (len - 8 + 8) = base + len
      omega
  · dsimp only
    refine ⟨?_, ?_, ?_, ?_⟩
    · show ((base : Nat) = base ∧ base ≠ 0 ∧
        wr (wr (wr st0.mem base (len - ALIGNMENT)) (get_prev_free base) 0)
          (get_next_free base) 0 (get_prev_free base) = 0 ∧
        Chain (wr (wr (wr st0.mem base (len - ALIGNMENT)) (get_prev_free base) 0)
          (get_next_free base) 0) base
          (wr (wr (wr st0.mem base (len - ALIGNMENT)) (get_prev_free base) 0)
          (get_next_free base) 0 (get_next_free base)) [])
      refine ⟨rfl, by omega, ?_, ?_⟩
      · rw [wr_other _ _ hpn, wr_same]
        simp
      · show wr (wr (wr st0.mem base (len - ALIGNMENT)) (get_prev_free base) 0)
          (get_next_free base) 0 (get_next_free base) = 0
        rw [wr_same]
        simp
    · simp
    · intro a ha
      rcases List.mem_cons.mp ha with rfl | ha
      · exact ⟨⟨a, len - 8, false⟩, List.mem_cons_self _ _, rfl, rfl⟩
      · cases ha
    · intro b hb hbu
      rcases List.mem_cons.mp hb with rfl | hb
      · show (base : Nat) ∈ [base]
        exact List.mem_cons_self _ _
      · cases hb

end E

namespace E

open HeapModel

/-- One iteration of the right-coalescing loop: with blocks
`bs1 ++ b :: c :: bs2` and `c` free, unlinking `c` and growing `b`'s header
word merges the two blocks, preserving the heap description and the free
list (minus `c`). -/
theorem e_coalesce_step {st : St} {bs1 bs2 : List Blk} {b c : Blk} {L : List Nat}
    (hD : DescribesFrom 16 st.mem st.segment_start
      (st.segment_start + st.segment_size) (bs1 ++ b :: c :: bs2))
    (hFL : FL st (bs1 ++ b :: c :: bs2) L)
    (hstart : 0 < st.segment_start)
    (he : st.segment_start + st.segment_size ≤ W)
    (hcfree : c.used = false) :
    ∀ st2 : St, st2 = { remove_free st c.addr with
        mem := wr (remove_free st c.addr).mem b.addr
          ((remove_free st c.addr).mem b.addr +
            (get_size (remove_free st c.addr).mem c.addr + ALIGNMENT)) } →
    ∃ L',
      DescribesFrom 16 st2.mem st.segment_start (st.segment_start + st.segment_size)
        (bs1 ++ ⟨b.addr, b.size + (c.size + 8), b.used⟩ :: bs2) ∧
      FL st2 (bs1 ++ ⟨b.addr, b.size + (c.size + 8), b.used⟩ :: bs2) L' ∧
      st2.segment_start = st.segment_start ∧ st2.segment_size = st.segment_size ∧
      st2.nused = st.nused := by
  obtain ⟨hch, hnd, hmem, hfree⟩ := hFL
  have hbmem : b ∈ bs1 ++ b :: c :: bs2 :=
    List.mem_append_right _ (List.mem_cons_self _ _)
  have hcmem : c ∈ bs1 ++ b :: c :: bs2 :=
    List.mem_append_right _ (List.mem_cons_of_mem _ (List.mem_cons_self _ _))
  have hcL : c.addr ∈ L := hfree c hcmem hcfree
  obtain ⟨L1, L2, hLsplit⟩ := List.append_of_mem hcL
  subst hLsplit
  have hsepL : Sep24 (L1 ++ c.addr :: L2) := e_L_sep hD hmem
  have hltL : ∀ a ∈ L1 ++ c.addr :: L2, a < W := e_L_ltW hD he hmem
  -- every list node is a block address; link cells never alias a header cell
  have hcellne : ∀ a ∈ L1 ++ c.addr :: L2, ∀ bb ∈ bs1 ++ b :: c :: bs2,
      bb.addr ≠ get_prev_free a ∧ bb.addr ≠ get_next_free a := by
    intro a ha bb hbb
    obtain ⟨ba, hba, hbaa, -⟩ := hmem a ha
    by_cases hab : bb.addr = a
    · rw [hab]
      exact ⟨(e_cells_own a).1, (e_cells_own a).2.1⟩
    · have hbane : bb.addr ≠ ba.addr := by rw [hbaa]; exact hab
      rcases e_addr_sep24 hD bb hbb ba hba with hx | hx | hx
      · exact absurd hx hbane
      · rw [hbaa] at hx
        obtain ⟨-, -, -, -, u5, u6, -, -, -⟩ := e_cells_ne (Or.inl hx)
        exact ⟨u5, u6⟩
      · rw [hbaa] at hx
        obtain ⟨-, -, -, -, u5, u6, -, -, -⟩ := e_cells_ne (Or.inr hx)
        exact ⟨u5, u6⟩
  obtain ⟨hch1, hf1, hf2, hf3, hframe⟩ :=
    @e_remove_free_spec st _ _ c.addr hch hnd hsepL hltL
  have hmemframe : ∀ bb ∈ bs1 ++ b :: c :: bs2,
      (remove_free st c.addr).mem bb.addr = st.mem bb.addr := by
    intro bb hbb
    apply hframe
    intro a ha
    exact hcellne a ha bb hbb
  have hD1 : DescribesFrom 16 (remove_free st c.addr).mem st.segment_start
      (st.segment_start + st.segment_size) (bs1 ++ b :: c :: bs2) :=
    describes_frame hD hmemframe
  have hbw : (remove_free st c.addr).mem b.addr = blkWord b := by
    rw [hmemframe b hbmem]
    exact (describes_word hD b hbmem).1
  have hcz : get_size (remove_free st c.addr).mem c.addr = c.size := by
    have := describes_get_size hD1 he c hcmem
    exact this.1
  intro st2 hst2
  -- bounds for the merged block
  have hbbnd := describes_mem_bounds hD b hbmem
  have hcbnd := describes_mem_bounds hD c hcmem
  obtain ⟨hbword8, hbdvd, hblo⟩ := describes_word hD b hbmem
  obtain ⟨-, hcdvd, hclo⟩ := describes_word hD c hcmem
  -- decompose the description around b and c
  obtain ⟨mid, hDa, hDb⟩ := describes_append.mp hD1
  obtain ⟨hmidb, hword_b, -, -, hDc⟩ := hDb
  subst hmidb
  obtain ⟨hmidc, hword_c, -, -, hDd⟩ := hDc
  -- the merged header word
  have hnextc : b.addr + (b.size + 8) = c.addr := by
    omega
  have hszbound : b.size + (c.size + 8) + 8 ≤ st.segment_start + st.segment_size
      - b.addr := by
    omega
  have hmerge_lt : blkWord b + (c.size + 8) < W := by
    have : blkWord b ≤ b.size + 1 := by
      rw [blkWord]
      by_cases hu : b.used <;> simp [hu]
    omega
  have hmergeword : blkWord b + (c.size + 8) =
      blkWord ⟨b.addr, b.size + (c.size + 8), b.used⟩ := by
    rw [blkWord, blkWord]
    by_cases hu : b.used
    · simp [hu]
      omega
    · simp [hu]
  have hst2mem : st2.mem = wr (remove_free st c.addr).mem b.addr
      (blkWord b + (c.size + 8)) := by
    rw [hst2]
    dsimp only
    rw [hbw, hcz]
    rfl
  have hbaddr_ne : ∀ bb ∈ bs1, bb.addr ≠ b.addr := by
    intro bb hbb
    have h1 := describes_mem_bounds hDa bb hbb
    intro hcon
    omega
  have hbaddr_ne2 : ∀ bb ∈ bs2, bb.addr ≠ b.addr := by
    intro bb hbb
    have h1 := describes_mem_bounds hDd bb hbb
    intro hcon
    omega
  refine ⟨L1 ++ L2, ?_, ?_, ?_, ?_, ?_⟩
  · -- merged description
    rw [hst2mem]
    apply describes_append.mpr
    refine ⟨b.addr, ?_, ?_⟩
    · apply describes_frame hDa
      intro bb hbb
      exact wr_other _ _ (hbaddr_ne bb hbb)
    · refine @describes_cons_intro 16 _ _ _ ⟨b.addr, b.size + (c.size + 8), b.used⟩
        bs2 rfl ?_ ?_ (by show 16 ≤ b.size + (c.size + 8); omega) ?_
      · rw [wr_same_lt _ _ hmerge_lt, hmergeword]
      · show 8 ∣ b.size + (c.size + 8)
        rcases hbdvd with ⟨x, hx⟩
        rcases hcdvd with ⟨y, hy⟩
        exact ⟨x + y + 1, by omega⟩
      · have hend : b.addr + (b.size + (c.size + 8) + 8) = c.addr + (c.size + 8) := by
          omega
        have hDd2 : DescribesFrom 16 (remove_free st c.addr).mem
            (c.addr + (c.size + 8)) (st.segment_start + st.segment_size) bs2 := by
          rw [← hmidc] at hDd
          exact hDd
        rw [hend]
        apply describes_frame hDd2
        intro bb hbb
        apply wr_other
        have h1 := describes_mem_bounds hDd2 bb hbb
        omega
  · -- free list: c removed
    have hndLL : (L1 ++ L2).Nodup := by
      have hsub : (L1 ++ L2).Sublist (L1 ++ c.addr :: L2) :=
        List.Sublist.append_left (List.sublist_cons_self c.addr L2) L1
      exact hsub.nodup hnd
    have hcnotin : c.addr ∉ L1 ++ L2 := by
      intro hcon
      rcases List.mem_append.mp hcon with hx | hx
      · exact (List.disjoint_of_nodup_append hnd) hx (List.mem_cons_self _ _)
      · have h2 : (c.addr :: L2).Nodup := hnd.of_append_right
        exact (List.nodup_cons.mp h2).1 hx
    refine ⟨?_, hndLL, ?_, ?_⟩
    · -- chain survives the header write
      have : st2.free_start = (remove_free st c.addr).free_start := by
        rw [hst2]
      rw [this]
      rw [hst2mem]
      apply e_chain_frame hch1
      intro a ha
      have haL : a ∈ L1 ++ c.addr :: L2 := by
        rcases List.mem_append.mp ha with hx | hx
        · exact List.mem_append_left _ hx
        · exact List.mem_append_right _ (List.mem_cons_of_mem _ hx)
      obtain ⟨c1, c2⟩ := hcellne a haL b hbmem
      exact ⟨wr_other _ _ c1.symm, wr_other _ _ c2.symm⟩
    · intro a ha
      have haL : a ∈ L1 ++ c.addr :: L2 := by
        rcases List.mem_append.mp ha with hx | hx
        · exact List.mem_append_left _ hx
        · exact List.mem_append_right _ (List.mem_cons_of_mem _ hx)
      have hanec : a ≠ c.addr := by
        intro hcon
        rw [hcon] at ha
        exact hcnotin ha
      obtain ⟨ba, hba, hbaa, hbau⟩ := hmem a haL
      rcases List.mem_append.mp hba with hx | hx
      · exact ⟨ba, List.mem_append_left _ hx, hbaa, hbau⟩
      · rcases List.mem_cons.mp hx with hbx | hx
        · refine ⟨⟨b.addr, b.size + (c.size + 8), b.used⟩, ?_, ?_, ?_⟩
          · exact List.mem_append_right _ (List.mem_cons_self _ _)
          · show b.addr = a
            rw [← hbaa, hbx]
          · show b.used = false
            rw [hbx] at hbau
            exact hbau
        · rcases List.mem_cons.mp hx with hbx | hx
          · exfalso
            apply hanec
            rw [← hbaa, hbx]
          · exact ⟨ba, List.mem_append_right _ (List.mem_cons_of_mem _ hx), hbaa, hbau⟩
    · -- every free block is on the list
      have hdrop : ∀ a, a ∈ L1 ++ c.addr :: L2 → a ≠ c.addr → a ∈ L1 ++ L2 := by
        intro a ha hane
        rcases List.mem_append.mp ha with hy | hy
        · exact List.mem_append_left _ hy
        · rcases List.mem_cons.mp hy with hy | hy
          · exact absurd hy hane
          · exact List.mem_append_right _ hy
      intro bb hbb hbu
      rcases List.mem_append.mp hbb with hx | hx
      · have h1 := describes_mem_bounds hDa bb hx
        refine hdrop _ (hfree bb (List.mem_append_left _ hx) hbu) ?_
        intro hcon
        omega
      · rcases List.mem_cons.mp hx with hx | hx
        · have hbufree : b.used = false := by
            rw [hx] at hbu
            exact hbu
          have hbL : b.addr ∈ L1 ++ c.addr :: L2 := hfree b hbmem hbufree
          have : bb.addr = b.addr := by rw [hx]
          rw [this]
          refine hdrop _ hbL ?_
          intro hcon
          omega
        · have h1 := describes_mem_bounds hDd bb hx
          refine hdrop _
            (hfree bb (List.mem_append_right _
              (List.mem_cons_of_mem _ (List.mem_cons_of_mem _ hx))) hbu) ?_
          intro hcon
          omega
  · rw [hst2]
    exact hf1
  · rw [hst2]
    exact hf2
  · rw [hst2]
    exact hf3

end E

namespace E

open HeapModel

/-- The right-coalescing loop characterised: starting from any block `b` of a
well-formed heap, enough fuel merges `b` with its maximal run of free right
neighbours, preserving the description, the free list and `nused`, and on exit
the next header is past the end or used. -/
theorem e_coalesceF_spec :
    ∀ (bs2 : List Blk) (st : St) (bs1 : List Blk) (b : Blk) (L : List Nat),
    DescribesFrom 16 st.mem st.segment_start
      (st.segment_start + st.segment_size) (bs1 ++ b :: bs2) →
    FL st (bs1 ++ b :: bs2) L →
    0 < st.segment_start →
    st.segment_start + st.segment_size ≤ W →
    ∃ st' mb bs2' L',
      (∀ f, bs2.length + 1 ≤ f → coalesceF f st b.addr = st') ∧
      DescribesFrom 16 st'.mem st.segment_start (st.segment_start + st.segment_size)
        (bs1 ++ mb :: bs2') ∧
      FL st' (bs1 ++ mb :: bs2') L' ∧
      st'.segment_start = st.segment_start ∧ st'.segment_size = st.segment_size ∧
      st'.nused = st.nused ∧ mb.addr = b.addr ∧ mb.used = b.used ∧
      b.size ≤ mb.size ∧
      (is_past_end st.segment_start st.segment_size
          (get_next_header st'.mem mb.addr) = true ∨
        is_used st'.mem (get_next_header st'.mem mb.addr) = true) := by
  intro bs2
  induction bs2 with
  | nil =>
    intro st bs1 b L hD hFL hstart he
    have hbmem : b ∈ bs1 ++ [b] := List.mem_append_right _ (List.mem_cons_self _ _)
    have hgs := (describes_get_size hD he b hbmem).1
    have hbnd := describes_mem_bounds hD b hbmem
    have hend : b.addr + (b.size + 8) = st.segment_start + st.segment_size := by
      obtain ⟨mid, hDa, hDb⟩ := describes_append.mp hD
      obtain ⟨hba, -, -, -, hnil⟩ := hDb
      simp only [DescribesFrom] at hnil
      omega
    have hnext : get_next_header st.mem b.addr = st.segment_start + st.segment_size := by
      rw [get_next_header, hgs, ALIGNMENT]
      omega
    have hpe : is_past_end st.segment_start st.segment_size
        (get_next_header st.mem b.addr) = true := by
      rw [hnext, is_past_end]
      simp
    refine ⟨st, b, [], L, ?_, hD, hFL, rfl, rfl, rfl, rfl, rfl, le_refl _, Or.inl hpe⟩
    intro f hf
    cases f with
    | zero => rfl
    | succ f =>
      rw [coalesceF]
      simp only [hpe, Bool.not_true, Bool.false_and, if_neg]
      simp
  | cons c bs2t ih =>
    intro st bs1 b L hD hFL hstart he
    have hbmem : b ∈ bs1 ++ b :: c :: bs2t :=
      List.mem_append_right _ (List.mem_cons_self _ _)
    have hcmem : c ∈ bs1 ++ b :: c :: bs2t :=
      List.mem_append_right _ (List.mem_cons_of_mem _ (List.mem_cons_self _ _))
    have hgs := (describes_get_size hD he b hbmem).1
    have hcw := describes_word hD c hcmem
    have hcbnd := describes_mem_bounds hD c hcmem
    have hcaddr : c.addr = b.addr + (b.size + 8) := by
      obtain ⟨mid, hDa, hDb⟩ := describes_append.mp hD
      obtain ⟨hba, -, -, -, hDc⟩ := hDb
      obtain ⟨hca, -, -, -, -⟩ := hDc
      omega
    have hnext : get_next_header st.mem b.addr = c.addr := by
      rw [get_next_header, hgs, ALIGNMENT]
      omega
    have hpe : is_past_end st.segment_start st.segment_size c.addr = false := by
      rw [is_past_end]
      simp only [decide_eq_false_iff_not]
      omega
    by_cases hcu : c.used
    · -- next block used: loop exits immediately
      have hu : is_used st.mem c.addr = true := by
        have := (describes_get_size hD he c hcmem).2
        rw [this, hcu]
      refine ⟨st, b, c :: bs2t, L, ?_, hD, hFL, rfl, rfl, rfl, rfl, rfl, le_refl _,
        Or.inr (by rw [hnext]; exact hu)⟩
      intro f hf
      cases f with
      | zero => rfl
      | succ f =>
        rw [coalesceF]
        simp only [hnext, hu, Bool.not_true, Bool.and_false, if_neg]
        simp
    · -- next block free: one merge step, then the IH
      have hcfree : c.used = false := by
        cases hcuv : c.used
        · rfl
        · exact absurd hcuv hcu
      have hu : is_used st.mem c.addr = false := by
        have := (describes_get_size hD he c hcmem).2
        rw [this, hcfree]
      obtain ⟨L2, hD2, hFL2, hs1, hs2, hs3⟩ :=
        e_coalesce_step hD hFL hstart he hcfree
          { remove_free st c.addr with
            mem := wr (remove_free st c.addr).mem b.addr
              ((remove_free st c.addr).mem b.addr +
                (get_size (remove_free st c.addr).mem c.addr + ALIGNMENT)) } rfl
      rw [← hs1, ← hs2] at hD2
      obtain ⟨st', mb, bs2', L', hfuel, hD', hFL', hg1, hg2, hg3, hmba, hmbu,
        hmbsz, hexit⟩ := ih _ bs1 ⟨b.addr, b.size + (c.size + 8), b.used⟩ L2
          hD2 hFL2 (by rw [hs1]; exact hstart) (by rw [hs1, hs2]; exact he)
      rw [hs1] at hg1
      rw [hs2] at hg2
      rw [hs3] at hg3
      rw [hs1, hs2] at hD' hexit
      refine ⟨st', mb, bs2', L', ?_, hD', hFL', hg1, hg2, hg3, hmba, hmbu,
        (by have h9 : b.size + (c.size + 8) ≤ mb.size := hmbsz; omega), hexit⟩
      intro f hf
      cases f with
      | zero => simp at hf
      | succ f =>
        rw [coalesceF]
        simp only [hnext, hpe, hu, Bool.not_false, Bool.and_self, if_pos]
        exact hfuel f (by simp at hf ⊢; omega)

end E

namespace E

open HeapModel

/-- The absorb loop of the explicit `myrealloc` characterised: it merges free
right neighbours into `b` (stopping early with `hit = true` once `ns` fits),
preserving the description, the free list and `nused`. -/
theorem e_absorbF_spec :
    ∀ (bs2 : List Blk) (st : St) (bs1 : List Blk) (b : Blk) (L : List Nat) (ns : Nat),
    DescribesFrom 16 st.mem st.segment_start
      (st.segment_start + st.segment_size) (bs1 ++ b :: bs2) →
    FL st (bs1 ++ b :: bs2) L →
    0 < st.segment_start →
    st.segment_start + st.segment_size ≤ W →
    ∃ st' mb bs2' L' hit,
      (∀ f, bs2.length + 1 ≤ f → absorbF f st b.addr ns = (st', hit)) ∧
      DescribesFrom 16 st'.mem st.segment_start (st.segment_start + st.segment_size)
        (bs1 ++ mb :: bs2') ∧
      FL st' (bs1 ++ mb :: bs2') L' ∧
      st'.segment_start = st.segment_start ∧ st'.segment_size = st.segment_size ∧
      st'.nused = st.nused ∧ mb.addr = b.addr ∧ mb.used = b.used ∧
      b.size ≤ mb.size ∧ (hit = true → ns ≤ mb.size) := by
  intro bs2
  induction bs2 with
  | nil =>
    intro st bs1 b L ns hD hFL hstart he
    have hbmem : b ∈ bs1 ++ [b] := List.mem_append_right _ (List.mem_cons_self _ _)
    have hgs := (describes_get_size hD he b hbmem).1
    have hbnd := describes_mem_bounds hD b hbmem
    have hend : b.addr + (b.size + 8) = st.segment_start + st.segment_size := by
      obtain ⟨mid, hDa, hDb⟩ := describes_append.mp hD
      obtain ⟨hba, -, -, -, hnil⟩ := hDb
      simp only [DescribesFrom] at hnil
      omega
    have hpe : is_past_end st.segment_start st.segment_size
        (get_next_header st.mem b.addr) = true := by
      rw [get_next_header, hgs, ALIGNMENT, is_past_end]
      simp only [decide_eq_true_eq]
      omega
    refine ⟨st, b, [], L, false, ?_, hD, hFL, rfl, rfl, rfl, rfl, rfl, le_refl _,
      by intro h; cases h⟩
    intro f hf
    cases f with
    | zero => rfl
    | succ f =>
      rw [absorbF]
      simp only [hpe, Bool.not_true, Bool.false_and, if_neg]
      simp
  | cons c bs2t ih =>
    intro st bs1 b L ns hD hFL hstart he
    have hbmem : b ∈ bs1 ++ b :: c :: bs2t :=
      List.mem_append_right _ (List.mem_cons_self _ _)
    have hcmem : c ∈ bs1 ++ b :: c :: bs2t :=
      List.mem_append_right _ (List.mem_cons_of_mem _ (List.mem_cons_self _ _))
    have hgs := (describes_get_size hD he b hbmem).1
    have hcbnd := describes_mem_bounds hD c hcmem
    have hcaddr : c.addr = b.addr + (b.size + 8) := by
      obtain ⟨mid, hDa, hDb⟩ := describes_append.mp hD
      obtain ⟨hba, -, -, -, hDc⟩ := hDb
      obtain ⟨hca, -, -, -, -⟩ := hDc
      omega
    have hnext : get_next_header st.mem b.addr = c.addr := by
      rw [get_next_header, hgs, ALIGNMENT]
      omega
    have hpe : is_past_end st.segment_start st.segment_size c.addr = false := by
      rw [is_past_end]
      simp only [decide_eq_false_iff_not]
      omega
    by_cases hcu : c.used
    · have hu : is_used st.mem c.addr = true := by
        have := (describes_get_size hD he c hcmem).2
        rw [this, hcu]
      refine ⟨st, b, c :: bs2t, L, false, ?_, hD, hFL, rfl, rfl, rfl, rfl, rfl,
        le_refl _, by intro h; cases h⟩
      intro f hf
      cases f with
      | zero => rfl
      | succ f =>
        rw [absorbF]
        simp only [hnext, hu, Bool.not_true, Bool.and_false, if_neg]
        simp
    · have hcfree : c.used = false := by
        cases hcuv : c.used
        · rfl
        · exact absurd hcuv hcu
      have hu : is_used st.mem c.addr = false := by
        have := (describes_get_size hD he c hcmem).2
        rw [this, hcfree]
      obtain ⟨L2, hD2, hFL2, hs1, hs2, hs3⟩ :=
        e_coalesce_step hD hFL hstart he hcfree
          { remove_free st c.addr with
            mem := wr (remove_free st c.addr).mem b.addr
              ((remove_free st c.addr).mem b.addr +
                (get_size (remove_free st c.addr).mem c.addr + ALIGNMENT)) } rfl
      have hmbmem : (⟨b.addr, b.size + (c.size + 8), b.used⟩ : Blk) ∈
          bs1 ++ (⟨b.addr, b.size + (c.size + 8), b.used⟩ : Blk) :: bs2t :=
        List.mem_append_right _ (List.mem_cons_self _ _)
      have hgs2 := (describes_get_size hD2 he _ hmbmem).1
      by_cases hfit : ns ≤ b.size + (c.size + 8)
      · -- enough room after this merge: loop returns with hit = true
        refine ⟨_, ⟨b.addr, b.size + (c.size + 8), b.used⟩, bs2t, L2, true, ?_,
          hD2, hFL2, hs1, hs2, hs3, rfl, rfl,
          (by show b.size ≤ b.size + (c.size + 8); omega),
          by intro h; show ns ≤ b.size + (c.size + 8); omega⟩
        intro f hf
        cases f with
        | zero => simp at hf
        | succ f =>
          rw [absorbF]
          simp only [hnext, hpe, hu, Bool.not_false, Bool.and_self, if_pos]
          rw [if_pos]
          rw [hgs2]
          exact hfit
      · have hD2s := hD2
        rw [← hs1, ← hs2] at hD2s
        obtain ⟨st', mb, bs2', L', hit, hfuel, hD', hFL', hg1, hg2, hg3, hmba,
          hmbu, hmbsz, hhit⟩ := ih _ bs1 ⟨b.addr, b.size + (c.size + 8), b.used⟩
            L2 ns hD2s hFL2 (by rw [hs1]; exact hstart) (by rw [hs1, hs2]; exact he)
        rw [hs1] at hg1
        rw [hs2] at hg2
        rw [hs3] at hg3
        rw [hs1, hs2] at hD'
        refine ⟨st', mb, bs2', L', hit, ?_, hD', hFL', hg1, hg2, hg3, hmba, hmbu,
          (by have h9 : b.size + (c.size + 8) ≤ mb.size := hmbsz; omega), hhit⟩
        intro f hf
        cases f with
        | zero => simp at hf
        | succ f =>
          rw [absorbF]
          simp only [hnext, hpe, hu, Bool.not_false, Bool.and_self, if_pos]
          rw [if_neg]
          · exact hfuel f (by simp at hf ⊢; omega)
          · rw [hgs2]
            exact hfit

end E

namespace E

open HeapModel

/-- The explicit `roundup` in arithmetic form. -/
theorem e_roundup_eq {r : Nat} (h : r + 7 < W) :
    roundup r ALIGNMENT =
      if (r + 7) / 8 * 8 < 16 then 16 else (r + 7) / 8 * 8 := by
  have hbase : Impl.roundup r ALIGNMENT = (r + 7) / 8 * 8 := Impl.roundup_eq h
  show (if Impl.roundup r ALIGNMENT < 2 * ALIGNMENT then 2 * ALIGNMENT
    else Impl.roundup r ALIGNMENT) = _
  rw [hbase]
  rfl

/-- Facts about the explicit `roundup` at multiple 8. -/
theorem e_roundup_facts {r : Nat} (h : r + 7 < W) (h0 : 0 < r) :
    r ≤ roundup r ALIGNMENT ∧ 16 ≤ roundup r ALIGNMENT ∧
      8 ∣ roundup r ALIGNMENT ∧ roundup r ALIGNMENT ≤ r + 23 := by
  rw [e_roundup_eq h]
  by_cases hc : (r + 7) / 8 * 8 < 16
  · rw [if_pos hc]
    refine ⟨by omega, le_refl _, ⟨2, rfl⟩, by omega⟩
  · rw [if_neg hc]
    refine ⟨by omega, by omega, ⟨(r + 7) / 8, by omega⟩, by omega⟩

/-- A block header address is never a link cell of a free-list node. -/
theorem e_cells_headers {st : St} {bs : List Blk} {L : List Nat}
    (hD : DescribesFrom 16 st.mem st.segment_start
      (st.segment_start + st.segment_size) bs)
    (hmem : ∀ a ∈ L, ∃ b ∈ bs, b.addr = a ∧ b.used = false) :
    ∀ a ∈ L, ∀ bb ∈ bs,
      bb.addr ≠ get_prev_free a ∧ bb.addr ≠ get_next_free a := by
  intro a ha bb hbb
  obtain ⟨ba, hba, hbaa, -⟩ := hmem a ha
  by_cases hab : bb.addr = a
  · rw [hab]
    exact ⟨(e_cells_own a).1, (e_cells_own a).2.1⟩
  · have hbane : bb.addr ≠ ba.addr := by rw [hbaa]; exact hab
    rcases e_addr_sep24 hD bb hbb ba hba with hx | hx | hx
    · exact absurd hx hbane
    · rw [hbaa] at hx
      obtain ⟨-, -, -, -, u5, u6, -, -, -⟩ := e_cells_ne (Or.inl hx)
      exact ⟨u5, u6⟩
    · rw [hbaa] at hx
      obtain ⟨-, -, -, -, u5, u6, -, -, -⟩ := e_cells_ne (Or.inr hx)
      exact ⟨u5, u6⟩

/-- The free list is no longer than the block list. -/
theorem e_L_length {bs : List Blk} {L : List Nat} (hnd : L.Nodup)
    (hmem : ∀ a ∈ L, ∃ b ∈ bs, b.addr = a ∧ b.used = false) :
    L.length ≤ bs.length := by
  have hsub : L ⊆ bs.map Blk.addr := by
    intro a ha
    obtain ⟨b, hb, hba, -⟩ := hmem a ha
    exact List.mem_map.mpr ⟨b, hb, hba⟩
  have := (hnd.subperm hsub).length_le
  rw [List.length_map] at this
  exact this

end E

namespace E

open HeapModel

/-- Explicit `mymalloc` characterised: it either fails leaving the state
unchanged, or returns a fresh used block of at least the requested size,
preserving the heap description, the free-list invariant, and all used
blocks. -/
theorem e_mymalloc_spec {st : St} {bs : List Blk} {L : List Nat}
    (hD : DescribesFrom 16 st.mem st.segment_start
      (st.segment_start + st.segment_size) bs)
    (hFL : FL st bs L)
    (he : st.segment_start + st.segment_size ≤ W)
    (hb : 0 < st.segment_start) (r : Nat) :
    ((mymalloc st r).1 = none ∧ (mymalloc st r).2 = st) ∨
    (∃ p bs' L', (mymalloc st r).1 = some p ∧
      (mymalloc st r).2.segment_start = st.segment_start ∧
      (mymalloc st r).2.segment_size = st.segment_size ∧
      (mymalloc st r).2.nused < W ∧
      DescribesFrom 16 (mymalloc st r).2.mem st.segment_start
        (st.segment_start + st.segment_size) bs' ∧
      FL (mymalloc st r).2 bs' L' ∧
      (∃ bn ∈ bs', bn.addr + 8 = p ∧ bn.used = true ∧ r ≤ bn.size) ∧
      (∀ b ∈ bs, b.used = true → b ∈ bs')) := by
  obtain ⟨hch, hnd, hmem, hfree⟩ := hFL
  by_cases hrej : r = 0 ∨ MAX_REQUEST_SIZE < r
  · left
    constructor <;> simp [mymalloc, hrej]
  · have hr0 : 0 < r := by
      rcases Nat.eq_zero_or_pos r with h | h
      · exact absurd (Or.inl h) hrej
      · exact h
    have hrM : r ≤ MAX_REQUEST_SIZE := by
      by_contra hc
      exact hrej (Or.inr (by omega))
    have hr7 : r + 7 < W := by
      have h1 : MAX_REQUEST_SIZE + 7 < W := by
        show (2 : Nat) ^ 30 + 7 < 2 ^ 64
        norm_num
      omega
    obtain ⟨hru_ge, hru_16, hru_dvd, hru_le⟩ := e_roundup_facts hr7 hr0
    have hruW : roundup r ALIGNMENT + 24 < W := by
      have h1 : MAX_REQUEST_SIZE + 47 < W := by
        show (2 : Nat) ^ 30 + 47 < 2 ^ 64
        norm_num
      omega
    have hLlen : L.length ≤ st.segment_size + 1 := by
      have h1 := e_L_length hnd hmem
      have h2 := describes_length hD
      omega
    rcases @e_findFitF_spec st.mem (roundup r ALIGNMENT) L 0 st.free_start hch
        (st.segment_size + 1) hLlen with ⟨hz, -⟩ | ⟨a, haL, hfind, hfit⟩
    · left
      constructor <;> simp [mymalloc, hrej, hz]
    · right
      obtain ⟨bv, hbv, hbva, hbvfree⟩ := hmem a haL
      subst hbva
      have hbsz : get_size st.mem bv.addr = bv.size :=
        (describes_get_size hD he bv hbv).1
      have hbv0 : ¬(bv.addr = 0) := e_chain_ne_zero hch _ haL
      have hbnd := describes_mem_bounds hD bv hbv
      obtain ⟨hbw, hbdvd, hblo⟩ := describes_word hD bv hbv
      have hsepL : Sep24 L := e_L_sep hD hmem
      have hltL : ∀ x ∈ L, x < W := e_L_ltW hD he hmem
      have hcellsH := e_cells_headers hD hmem
      rw [hbsz] at hfit
      have hszW : bv.size + 8 < W := by omega
      obtain ⟨L1, L2, hLsplit⟩ := List.append_of_mem haL
      subst hLsplit
      obtain ⟨bs1, bs2, rfl⟩ := List.append_of_mem hbv
      obtain ⟨mid, hDL, hDR⟩ := describes_append.mp hD
      obtain ⟨hmid, -, -, -, hDrest⟩ := hDR
      subst hmid
      have hb1lt : ∀ b ∈ bs1, b.addr + (b.size + 8) ≤ bv.addr := by
        intro b hbb
        exact (describes_mem_bounds hDL b hbb).2
      have hb2gt : ∀ b ∈ bs2, bv.addr + (bv.size + 8) ≤ b.addr := by
        intro b hbb
        exact (describes_mem_bounds hDrest b hbb).1
      have hndLL : (L1 ++ L2).Nodup := by
        have hsub : (L1 ++ L2).Sublist (L1 ++ bv.addr :: L2) :=
          List.Sublist.append_left (List.sublist_cons_self bv.addr L2) L1
        exact hsub.nodup hnd
      have hanotin : bv.addr ∉ L1 ++ L2 := by
        intro hcon
        rcases List.mem_append.mp hcon with hx | hx
        · exact (List.disjoint_of_nodup_append hnd) hx (List.mem_cons_self _ _)
        · have h2 : (bv.addr :: L2).Nodup := hnd.of_append_right
          exact (List.nodup_cons.mp h2).1 hx
      have hdrop : ∀ x, x ∈ L1 ++ bv.addr :: L2 → x ≠ bv.addr → x ∈ L1 ++ L2 := by
        intro x hx hxne
        rcases List.mem_append.mp hx with hy | hy
        · exact List.mem_append_left _ hy
        · rcases List.mem_cons.mp hy with hy | hy
          · exact absurd hy hxne
          · exact List.mem_append_right _ hy
      by_cases habs : bv.size < roundup r ALIGNMENT + 3 * ALIGNMENT
      · -- absorb: the whole free block is handed out
        have hmal : mymalloc st r =
            (some (bv.addr + ALIGNMENT),
              remove_free { st with
                mem := wr st.mem bv.addr (bv.size + 1),
                nused := (st.nused + bv.size) % W } bv.addr) := by
          rw [mymalloc, if_neg hrej]
          simp only [hfind]
          rw [if_neg hbv0]
          simp only [hbsz, if_pos habs, set_used]
          rw [wr_set_used st.mem bv.addr bv.size hbdvd (by omega)]
          rw [if_neg (by show ¬(bv.size + 3 * 8 ≤ bv.size); omega :
            ¬(bv.size + 3 * ALIGNMENT ≤ bv.size))]
        have hch1 : Chain (wr st.mem bv.addr (bv.size + 1)) 0 st.free_start
            (L1 ++ bv.addr :: L2) := by
          apply e_chain_frame hch
          intro x hx
          obtain ⟨c1, c2⟩ := hcellsH x hx bv hbv
          exact ⟨wr_other _ _ c1.symm, wr_other _ _ c2.symm⟩
        obtain ⟨hch2, hrf1, hrf2, hrf3, hframe2⟩ :=
          @e_remove_free_spec { st with
            mem := wr st.mem bv.addr (bv.size + 1),
            nused := (st.nused + bv.size) % W } _ _ bv.addr
            hch1 hnd hsepL hltL
        have hD1' : DescribesFrom 16 (wr st.mem bv.addr (bv.size + 1))
            st.segment_start (st.segment_start + st.segment_size)
            (bs1 ++ ⟨bv.addr, bv.size, true⟩ :: bs2) := by
          apply describes_append.mpr
          refine ⟨bv.addr, ?_, ?_⟩
          · apply describes_frame hDL
            intro b hbb
            exact wr_other st.mem _ (by have := hb1lt b hbb; omega)
          · refine @describes_cons_intro 16 _ _ _ ⟨bv.addr, bv.size, true⟩ bs2
              rfl ?_ hbdvd hblo ?_
            · rw [wr_same_lt st.mem bv.addr (by omega)]
              rfl
            · apply describes_frame hDrest
              intro b hbb
              exact wr_other st.mem _ (by have := hb2gt b hbb; omega)
        have hcellsH' : ∀ x ∈ L1 ++ bv.addr :: L2,
            ∀ b ∈ bs1 ++ (⟨bv.addr, bv.size, true⟩ : Blk) :: bs2,
              b.addr ≠ get_prev_free x ∧ b.addr ≠ get_next_free x := by
          intro x hx b hbb
          rcases List.mem_append.mp hbb with h1 | h1
          · exact hcellsH x hx b (List.mem_append_left _ h1)
          · rcases List.mem_cons.mp h1 with h1 | h1
            · rw [h1]
              exact hcellsH x hx bv hbv
            · exact hcellsH x hx b
                (List.mem_append_right _ (List.mem_cons_of_mem _ h1))
        have hD2' : DescribesFrom 16
            ((remove_free { st with
              mem := wr st.mem bv.addr (bv.size + 1),
              nused := (st.nused + bv.size) % W } bv.addr)).mem
            st.segment_start (st.segment_start + st.segment_size)
            (bs1 ++ ⟨bv.addr, bv.size, true⟩ :: bs2) := by
          apply describes_frame hD1'
          intro b hbb
          apply hframe2
          intro x hx
          exact hcellsH' x hx b hbb
        rw [hmal]
        dsimp only
        refine ⟨bv.addr + ALIGNMENT, bs1 ++ ⟨bv.addr, bv.size, true⟩ :: bs2,
          L1 ++ L2, rfl, hrf1, hrf2, ?_, hD2', ⟨hch2, hndLL, ?_, ?_⟩, ?_, ?_⟩
        · rw [hrf3]
          exact Nat.mod_lt _ W_pos
        · -- every node of the shrunken list is a free block
          intro x hx
          have hxL : x ∈ L1 ++ bv.addr :: L2 := by
            rcases List.mem_append.mp hx with hy | hy
            · exact List.mem_append_left _ hy
            · exact List.mem_append_right _ (List.mem_cons_of_mem _ hy)
          have hxne : x ≠ bv.addr := by
            intro hcon
            rw [hcon] at hx
            exact hanotin hx
          obtain ⟨bx, hbx, hbxa, hbxu⟩ := hmem x hxL
          have hbxnev : bx ≠ bv := by
            intro hcon
            rw [hcon] at hbxa
            exact hxne hbxa.symm
          rcases List.mem_append.mp hbx with hy | hy
          · exact ⟨bx, List.mem_append_left _ hy, hbxa, hbxu⟩
          · rcases List.mem_cons.mp hy with hy | hy
            · exact absurd hy hbxnev
            · exact ⟨bx, List.mem_append_right _ (List.mem_cons_of_mem _ hy),
                hbxa, hbxu⟩
        · -- every free block is on the shrunken list
          intro b hbb hbu
          rcases List.mem_append.mp hbb with h1 | h1
          · have h2 := hfree b (List.mem_append_left _ h1) hbu
            refine hdrop _ h2 ?_
            have := hb1lt b h1
            omega
          · rcases List.mem_cons.mp h1 with h1 | h1
            · rw [h1] at hbu
              cases hbu
            · have h2 := hfree b
                (List.mem_append_right _ (List.mem_cons_of_mem _ h1)) hbu
              refine hdrop _ h2 ?_
              have := hb2gt b h1
              omega
        · refine ⟨⟨bv.addr, bv.size, true⟩, ?_, rfl, rfl,
            show r ≤ bv.size by omega⟩
          exact List.mem_append_right bs1 (List.mem_cons_self _ _)
        · intro b hbb hbu
          rcases List.mem_append.mp hbb with h1 | h1
          · exact List.mem_append_left _ h1
          · rcases List.mem_cons.mp h1 with h1 | h1
            · rw [h1] at hbu
              rw [hbvfree] at hbu
              cases hbu
            · exact List.mem_append_right _ (List.mem_cons_of_mem _ h1)
      · -- split: the tail of the free block becomes a new free block
        have h24 : roundup r ALIGNMENT + 24 ≤ bv.size := by
          have h3A : (3 : Nat) * ALIGNMENT = 24 := rfl
          omega
        have hch1 : Chain (wr st.mem bv.addr (roundup r ALIGNMENT + 1)) 0
            st.free_start (L1 ++ bv.addr :: L2) := by
          apply e_chain_frame hch
          intro x hx
          obtain ⟨c1, c2⟩ := hcellsH x hx bv hbv
          exact ⟨wr_other _ _ c1.symm, wr_other _ _ c2.symm⟩
        obtain ⟨hch2, hrf1, hrf2, hrf3, hframe2⟩ :=
          @e_remove_free_spec { st with
            mem := wr st.mem bv.addr (roundup r ALIGNMENT + 1),
            nused := (st.nused + roundup r ALIGNMENT) % W } _ _ bv.addr
            hch1 hnd hsepL hltL
        have hmem2A : (remove_free { st with
            mem := wr st.mem bv.addr (roundup r ALIGNMENT + 1),
            nused := (st.nused + roundup r ALIGNMENT) % W } bv.addr).mem bv.addr
            = roundup r ALIGNMENT + 1 := by
          rw [hframe2 bv.addr (fun x hx => hcellsH x hx bv hbv)]
          exact wr_same_lt st.mem bv.addr (by omega)
        have hcur2 : get_next_header (remove_free { st with
            mem := wr st.mem bv.addr (roundup r ALIGNMENT + 1),
            nused := (st.nused + roundup r ALIGNMENT) % W } bv.addr).mem bv.addr
            = bv.addr + (roundup r ALIGNMENT + 8) := by
          rw [get_next_header, get_size_word_used hmem2A hru_dvd (by omega)]
          rfl
        have hmal : mymalloc st r =
            (some (bv.addr + ALIGNMENT),
              add_free { remove_free { st with
                  mem := wr st.mem bv.addr (roundup r ALIGNMENT + 1),
                  nused := (st.nused + roundup r ALIGNMENT) % W } bv.addr with
                mem := wr (remove_free { st with
                  mem := wr st.mem bv.addr (roundup r ALIGNMENT + 1),
                  nused := (st.nused + roundup r ALIGNMENT) % W } bv.addr).mem
                  (bv.addr + (roundup r ALIGNMENT + 8))
                  (bv.size - roundup r ALIGNMENT - ALIGNMENT) }
                (bv.addr + (roundup r ALIGNMENT + 8))) := by
          rw [mymalloc, if_neg hrej]
          simp only [hfind]
          rw [if_neg hbv0]
          simp only [hbsz, if_neg habs, set_used]
          rw [wr_set_used st.mem bv.addr (roundup r ALIGNMENT) hru_dvd (by omega)]
          rw [if_pos (by show roundup r ALIGNMENT + 3 * 8 ≤ bv.size; omega :
            roundup r ALIGNMENT + 3 * ALIGNMENT ≤ bv.size)]
          rw [hcur2]
        -- abbreviations for the split-case proof
        have hT24 : bv.addr + 24 ≤ bv.addr + (roundup r ALIGNMENT + 8) := by omega
        have htsz16 : 16 ≤ bv.size - roundup r ALIGNMENT - 8 := by omega
        have htszdvd : 8 ∣ bv.size - roundup r ALIGNMENT - 8 := by
          have : bv.size - roundup r ALIGNMENT - 8 =
              bv.size - (roundup r ALIGNMENT + 8) := by omega
          rw [this]
          exact Nat.dvd_sub' hbdvd (by
            rcases hru_dvd with ⟨c, hc⟩
            exact ⟨c + 1, by omega⟩)
        -- every surviving list node lies in a block region disjoint from bv
        have hxreg : ∀ x ∈ L1 ++ L2, ∃ bx, bx ∈ bs1 ++ bv :: bs2 ∧ bx.addr = x ∧
            (x + (bx.size + 8) ≤ bv.addr ∨ bv.addr + (bv.size + 8) ≤ x) := by
          intro x hx
          have hxL : x ∈ L1 ++ bv.addr :: L2 := by
            rcases List.mem_append.mp hx with hy | hy
            · exact List.mem_append_left _ hy
            · exact List.mem_append_right _ (List.mem_cons_of_mem _ hy)
          have hxne : x ≠ bv.addr := by
            intro hcon
            rw [hcon] at hx
            exact hanotin hx
          obtain ⟨bx, hbx, hbxa, -⟩ := hmem x hxL
          refine ⟨bx, hbx, hbxa, ?_⟩
          rcases describes_sep hD bx hbx bv hbv with hq | hq | hq
          · exfalso
            apply hxne
            rw [← hbxa, hq]
          · rw [hbxa] at hq
            exact Or.inl hq
          · rw [hbxa] at hq
            exact Or.inr hq
        have hxbsz16 : ∀ bx ∈ bs1 ++ bv :: bs2, 16 ≤ bx.size := by
          intro bx hbx
          exact (describes_word hD bx hbx).2.2
        -- the trailer header address misses all link cells of surviving nodes
        have hTnotcell : ∀ x ∈ L1 ++ L2,
            bv.addr + (roundup r ALIGNMENT + 8) ≠ get_prev_free x ∧
            bv.addr + (roundup r ALIGNMENT + 8) ≠ get_next_free x := by
          intro x hx
          obtain ⟨bx, hbx, hbxa, hreg⟩ := hxreg x hx
          have h16 := hxbsz16 bx hbx
          rw [← hbxa] at hreg
          constructor
          · show bv.addr + (roundup r ALIGNMENT + 8) ≠ x + 8
            omega
          · show bv.addr + (roundup r ALIGNMENT + 8) ≠ x + 2 * 8
            omega
        have hch3 : Chain (wr (remove_free { st with
            mem := wr st.mem bv.addr (roundup r ALIGNMENT + 1),
            nused := (st.nused + roundup r ALIGNMENT) % W } bv.addr).mem
            (bv.addr + (roundup r ALIGNMENT + 8))
            (bv.size - roundup r ALIGNMENT - ALIGNMENT)) 0
            (remove_free { st with
              mem := wr st.mem bv.addr (roundup r ALIGNMENT + 1),
              nused := (st.nused + roundup r ALIGNMENT) % W } bv.addr).free_start
            (L1 ++ L2) := by
          apply e_chain_frame hch2
          intro x hx
          obtain ⟨c1, c2⟩ := hTnotcell x hx
          exact ⟨wr_other _ _ c1.symm, wr_other _ _ c2.symm⟩
        have hsepLL : Sep24 (L1 ++ L2) := by
          intro x hx y hy
          have hxL : x ∈ L1 ++ bv.addr :: L2 := by
            rcases List.mem_append.mp hx with hq | hq
            · exact List.mem_append_left _ hq
            · exact List.mem_append_right _ (List.mem_cons_of_mem _ hq)
          have hyL : y ∈ L1 ++ bv.addr :: L2 := by
            rcases List.mem_append.mp hy with hq | hq
            · exact List.mem_append_left _ hq
            · exact List.mem_append_right _ (List.mem_cons_of_mem _ hq)
          exact hsepL x hxL y hyL
        have hltLL : ∀ x ∈ L1 ++ L2, x < W := by
          intro x hx
          apply hltL
          rcases List.mem_append.mp hx with hq | hq
          · exact List.mem_append_left _ hq
          · exact List.mem_append_right _ (List.mem_cons_of_mem _ hq)
        have hTsep : ∀ x ∈ L1 ++ L2,
            bv.addr + (roundup r ALIGNMENT + 8) + 24 ≤ x ∨
            x + 24 ≤ bv.addr + (roundup r ALIGNMENT + 8) := by
          intro x hx
          obtain ⟨bx, hbx, hbxa, hreg⟩ := hxreg x hx
          have h16 := hxbsz16 bx hbx
          rw [← hbxa] at hreg
          rcases hreg with hq | hq
          · right
            omega
          · left
            omega
        obtain ⟨hch4, hfs4, haf1, haf2, haf3, hframe3⟩ :=
          @e_add_free_spec { remove_free { st with
              mem := wr st.mem bv.addr (roundup r ALIGNMENT + 1),
              nused := (st.nused + roundup r ALIGNMENT) % W } bv.addr with
            mem := wr (remove_free { st with
              mem := wr st.mem bv.addr (roundup r ALIGNMENT + 1),
              nused := (st.nused + roundup r ALIGNMENT) % W } bv.addr).mem
              (bv.addr + (roundup r ALIGNMENT + 8))
              (bv.size - roundup r ALIGNMENT - ALIGNMENT) }
            _ (bv.addr + (roundup r ALIGNMENT + 8))
            hch3 hndLL hsepLL hltLL (by omega) (by omega) hTsep
        -- heap description after the header write, the unlink and the trailer
        have hD3' : DescribesFrom 16
            (wr (remove_free { st with
              mem := wr st.mem bv.addr (roundup r ALIGNMENT + 1),
              nused := (st.nused + roundup r ALIGNMENT) % W } bv.addr).mem
              (bv.addr + (roundup r ALIGNMENT + 8))
              (bv.size - roundup r ALIGNMENT - ALIGNMENT))
            st.segment_start (st.segment_start + st.segment_size)
            (bs1 ++ ⟨bv.addr, roundup r ALIGNMENT, true⟩ ::
              ⟨bv.addr + (roundup r ALIGNMENT + 8),
                bv.size - roundup r ALIGNMENT - 8, false⟩ :: bs2) := by
          apply describes_append.mpr
          refine ⟨bv.addr, ?_, ?_⟩
          · apply describes_frame hDL
            intro b hbb
            have h1 := hb1lt b hbb
            rw [wr_other _ _
              (by omega : b.addr ≠ bv.addr + (roundup r ALIGNMENT + 8))]
            rw [hframe2 b.addr
              (fun x hx => hcellsH x hx b (List.mem_append_left _ hbb))]
            exact wr_other st.mem _ (by omega)
          · refine @describes_cons_intro 16 _ _ _
              ⟨bv.addr, roundup r ALIGNMENT, true⟩
              (⟨bv.addr + (roundup r ALIGNMENT + 8),
                bv.size - roundup r ALIGNMENT - 8, false⟩ :: bs2)
              rfl ?_ hru_dvd (by show (16:Nat) ≤ roundup r ALIGNMENT; omega) ?_
            · rw [wr_other _ _
                (by omega : bv.addr ≠ bv.addr + (roundup r ALIGNMENT + 8))]
              rw [hmem2A]
              rfl
            · refine @describes_cons_intro 16 _ _ _
                ⟨bv.addr + (roundup r ALIGNMENT + 8),
                  bv.size - roundup r ALIGNMENT - 8, false⟩ bs2
                rfl ?_ htszdvd htsz16 ?_
              · rw [wr_same_lt _ _ (by omega)]
                show bv.size - roundup r ALIGNMENT - 8 =
                  bv.size - roundup r ALIGNMENT - 8
                rfl
              · have hend : bv.addr + (roundup r ALIGNMENT + 8) +
                    (bv.size - roundup r ALIGNMENT - 8 + 8) =
                    bv.addr + (bv.size + 8) := by omega
                rw [hend]
                apply describes_frame hDrest
                intro b hbb
                have h1 := hb2gt b hbb
                rw [wr_other _ _
                  (by omega : b.addr ≠ bv.addr + (roundup r ALIGNMENT + 8))]
                rw [hframe2 b.addr (fun x hx => hcellsH x hx b
                  (List.mem_append_right _ (List.mem_cons_of_mem _ hbb)))]
                exact wr_other st.mem _ (by omega)
        -- description survives the LIFO insertion of the trailer
        have hD4' : DescribesFrom 16
            (add_free { remove_free { st with
                mem := wr st.mem bv.addr (roundup r ALIGNMENT + 1),
                nused := (st.nused + roundup r ALIGNMENT) % W } bv.addr with
              mem := wr (remove_free { st with
                mem := wr st.mem bv.addr (roundup r ALIGNMENT + 1),
                nused := (st.nused + roundup r ALIGNMENT) % W } bv.addr).mem
                (bv.addr + (roundup r ALIGNMENT + 8))
                (bv.size - roundup r ALIGNMENT - ALIGNMENT) }
              (bv.addr + (roundup r ALIGNMENT + 8))).mem
            st.segment_start (st.segment_start + st.segment_size)
            (bs1 ++ ⟨bv.addr, roundup r ALIGNMENT, true⟩ ::
              ⟨bv.addr + (roundup r ALIGNMENT + 8),
                bv.size - roundup r ALIGNMENT - 8, false⟩ :: bs2) := by
          apply describes_frame hD3'
          intro b hbb
          rcases List.mem_append.mp hbb with h1 | h1
          · have hlt := hb1lt b h1
            apply hframe3
            · show b.addr ≠ bv.addr + (roundup r ALIGNMENT + 8) + 8
              omega
            · show b.addr ≠ bv.addr + (roundup r ALIGNMENT + 8) + 2 * 8
              omega
            · intro x hx
              exact (hcellsH x (by
                rcases List.mem_append.mp hx with hq | hq
                · exact List.mem_append_left _ hq
                · exact List.mem_append_right _ (List.mem_cons_of_mem _ hq))
                b (List.mem_append_left _ h1)).1
          · rcases List.mem_cons.mp h1 with h1 | h1
            · rw [h1]
              apply hframe3
              · show bv.addr ≠ bv.addr + (roundup r ALIGNMENT + 8) + 8
                omega
              · show bv.addr ≠ bv.addr + (roundup r ALIGNMENT + 8) + 2 * 8
                omega
              · intro x hx
                exact (hcellsH x (by
                  rcases List.mem_append.mp hx with hq | hq
                  · exact List.mem_append_left _ hq
                  · exact List.mem_append_right _ (List.mem_cons_of_mem _ hq))
                  bv hbv).1
            · rcases List.mem_cons.mp h1 with h1 | h1
              · rw [h1]
                apply hframe3
                · show bv.addr + (roundup r ALIGNMENT + 8) ≠
                    bv.addr + (roundup r ALIGNMENT + 8) + 8
                  omega
                · show bv.addr + (roundup r ALIGNMENT + 8) ≠
                    bv.addr + (roundup r ALIGNMENT + 8) + 2 * 8
                  omega
                · intro x hx
                  exact (hTnotcell x hx).1
              · have hgt := hb2gt b h1
                apply hframe3
                · show b.addr ≠ bv.addr + (roundup r ALIGNMENT + 8) + 8
                  omega
                · show b.addr ≠ bv.addr + (roundup r ALIGNMENT + 8) + 2 * 8
                  omega
                · intro x hx
                  exact (hcellsH x (by
                    rcases List.mem_append.mp hx with hq | hq
                    · exact List.mem_append_left _ hq
                    · exact List.mem_append_right _ (List.mem_cons_of_mem _ hq))
                    b (List.mem_append_right _ (List.mem_cons_of_mem _ h1))).1
        have hTnotL : bv.addr + (roundup r ALIGNMENT + 8) ∉ L1 ++ L2 := by
          intro hcon
          rcases hTsep _ hcon with hq | hq <;> omega
        rw [hmal]
        dsimp only
        refine ⟨bv.addr + ALIGNMENT,
          bs1 ++ ⟨bv.addr, roundup r ALIGNMENT, true⟩ ::
            ⟨bv.addr + (roundup r ALIGNMENT + 8),
              bv.size - roundup r ALIGNMENT - 8, false⟩ :: bs2,
          (bv.addr + (roundup r ALIGNMENT + 8)) :: (L1 ++ L2),
          rfl, haf1.trans hrf1, haf2.trans hrf2, ?_, hD4',
          ⟨hch4, List.nodup_cons.mpr ⟨hTnotL, hndLL⟩, ?_, ?_⟩, ?_, ?_⟩
        · have hnn : (add_free { remove_free { st with
              mem := wr st.mem bv.addr (roundup r ALIGNMENT + 1),
              nused := (st.nused + roundup r ALIGNMENT) % W } bv.addr with
            mem := wr (remove_free { st with
              mem := wr st.mem bv.addr (roundup r ALIGNMENT + 1),
              nused := (st.nused + roundup r ALIGNMENT) % W } bv.addr).mem
              (bv.addr + (roundup r ALIGNMENT + 8))
              (bv.size - roundup r ALIGNMENT - ALIGNMENT) }
            (bv.addr + (roundup r ALIGNMENT + 8))).nused =
              (st.nused + roundup r ALIGNMENT) % W := haf3.trans hrf3
          rw [hnn]
          exact Nat.mod_lt _ W_pos
        · -- members of the new list are free blocks
          intro x hx
          rcases List.mem_cons.mp hx with hx | hx
          · refine ⟨⟨bv.addr + (roundup r ALIGNMENT + 8),
              bv.size - roundup r ALIGNMENT - 8, false⟩, ?_, ?_, rfl⟩
            · exact List.mem_append_right _
                (List.mem_cons_of_mem _ (List.mem_cons_self _ _))
            · show bv.addr + (roundup r ALIGNMENT + 8) = x
              rw [hx]
          · have hxL : x ∈ L1 ++ bv.addr :: L2 := by
              rcases List.mem_append.mp hx with hy | hy
              · exact List.mem_append_left _ hy
              · exact List.mem_append_right _ (List.mem_cons_of_mem _ hy)
            have hxne : x ≠ bv.addr := by
              intro hcon
              rw [hcon] at hx
              exact hanotin hx
            obtain ⟨bx, hbx, hbxa, hbxu⟩ := hmem x hxL
            have hbxnev : bx ≠ bv := by
              intro hcon
              rw [hcon] at hbxa
              exact hxne hbxa.symm
            rcases List.mem_append.mp hbx with hy | hy
            · exact ⟨bx, List.mem_append_left _ hy, hbxa, hbxu⟩
            · rcases List.mem_cons.mp hy with hy | hy
              · exact absurd hy hbxnev
              · exact ⟨bx, List.mem_append_right _ (List.mem_cons_of_mem _
                  (List.mem_cons_of_mem _ hy)), hbxa, hbxu⟩
        · -- free blocks are on the new list
          intro b hbb hbu
          rcases List.mem_append.mp hbb with h1 | h1
          · have h2 := hfree b (List.mem_append_left _ h1) hbu
            refine List.mem_cons_of_mem _ (hdrop _ h2 ?_)
            have := hb1lt b h1
            omega
          · rcases List.mem_cons.mp h1 with h1 | h1
            · rw [h1] at hbu
              cases hbu
            · rcases List.mem_cons.mp h1 with h1 | h1
              · rw [h1]
                exact List.mem_cons_self _ _
              · have h2 := hfree b
                  (List.mem_append_right _ (List.mem_cons_of_mem _ h1)) hbu
                refine List.mem_cons_of_mem _ (hdrop _ h2 ?_)
                have := hb2gt b h1
                omega
        · refine ⟨⟨bv.addr, roundup r ALIGNMENT, true⟩, ?_, rfl, rfl,
            show r ≤ roundup r ALIGNMENT from hru_ge⟩
          exact List.mem_append_right bs1 (List.mem_cons_self _ _)
        · intro b hbb hbu
          rcases List.mem_append.mp hbb with h1 | h1
          · exact List.mem_append_left _ h1
          · rcases List.mem_cons.mp h1 with h1 | h1
            · rw [h1] at hbu
              rw [hbvfree] at hbu
              cases hbu
            · exact List.mem_append_right _ (List.mem_cons_of_mem _
                (List.mem_cons_of_mem _ h1))

end E

namespace E

open HeapModel

/-- Explicit `myfree` characterised on a live block: the block becomes free
(possibly growing by right-coalescing), `nused` drops by its size, the heap
description and free-list invariant are preserved, and afterwards the freed
block's right neighbour is past the end or used. -/
theorem e_myfree_spec {st : St} {bs1 bs2 : List Blk} {bf : Blk} {L : List Nat}
    (hD : DescribesFrom 16 st.mem st.segment_start
      (st.segment_start + st.segment_size) (bs1 ++ bf :: bs2))
    (hFL : FL st (bs1 ++ bf :: bs2) L)
    (hb : 0 < st.segment_start)
    (he : st.segment_start + st.segment_size ≤ W)
    (hused : bf.used = true) :
    ∃ mb bs2' L',
      (myfree st (some (bf.addr + 8))).segment_start = st.segment_start ∧
      (myfree st (some (bf.addr + 8))).segment_size = st.segment_size ∧
      (myfree st (some (bf.addr + 8))).nused = sub64 st.nused bf.size ∧
      DescribesFrom 16 (myfree st (some (bf.addr + 8))).mem st.segment_start
        (st.segment_start + st.segment_size) (bs1 ++ mb :: bs2') ∧
      FL (myfree st (some (bf.addr + 8))) (bs1 ++ mb :: bs2') L' ∧
      mb.addr = bf.addr ∧ mb.used = false ∧ bf.size ≤ mb.size ∧
      (is_past_end st.segment_start st.segment_size
          (get_next_header (myfree st (some (bf.addr + 8))).mem bf.addr) = true ∨
        is_used (myfree st (some (bf.addr + 8))).mem
          (get_next_header (myfree st (some (bf.addr + 8))).mem bf.addr) = true) := by
  obtain ⟨hch, hnd, hmem, hfree⟩ := hFL
  have hbfmem : bf ∈ bs1 ++ bf :: bs2 :=
    List.mem_append_right _ (List.mem_cons_self _ _)
  obtain ⟨hword, hbdvd, hblo⟩ := describes_word hD bf hbfmem
  have hbnd := describes_mem_bounds hD bf hbfmem
  have hbsz : get_size st.mem bf.addr = bf.size :=
    (describes_get_size hD he bf hbfmem).1
  have hszW : bf.size + 8 < W := by omega
  have hw2 : st.mem bf.addr = bf.size + 1 := by
    rw [hword, blkWord, hused]
    simp
  have hcellsH := e_cells_headers hD hmem
  -- region decomposition
  obtain ⟨mid, hDL, hDR⟩ := describes_append.mp hD
  obtain ⟨hmid, -, -, -, hDrest⟩ := hDR
  subst hmid
  have hb1lt : ∀ b ∈ bs1, b.addr + (b.size + 8) ≤ bf.addr := by
    intro b hbb
    exact (describes_mem_bounds hDL b hbb).2
  have hb2gt : ∀ b ∈ bs2, bf.addr + (bf.size + 8) ≤ b.addr := by
    intro b hbb
    exact (describes_mem_bounds hDrest b hbb).1
  -- the freed-block state before coalescing
  have hch2 : Chain (wr st.mem bf.addr bf.size) 0 st.free_start L := by
    apply e_chain_frame hch
    intro x hx
    obtain ⟨c1, c2⟩ := hcellsH x hx bf hbfmem
    exact ⟨wr_other _ _ c1.symm, wr_other _ _ c2.symm⟩
  have hsepL : Sep24 L := e_L_sep hD hmem
  have hltL : ∀ x ∈ L, x < W := e_L_ltW hD he hmem
  have hbfsep : ∀ x ∈ L, bf.addr + 24 ≤ x ∨ x + 24 ≤ bf.addr := by
    intro x hx
    obtain ⟨bx, hbx, hbxa, hbxu⟩ := hmem x hx
    have hne : bx ≠ bf := by
      intro hcon
      rw [hcon] at hbxu
      rw [hused] at hbxu
      cases hbxu
    have h16x := (describes_word hD bx hbx).2.2
    rcases describes_sep hD bx hbx bf hbfmem with hq | hq | hq
    · exact absurd hq hne
    · right
      rw [← hbxa]
      omega
    · left
      rw [← hbxa]
      omega
  obtain ⟨hch3, hfs3, haf1, haf2, haf3, hframe3⟩ :=
    @e_add_free_spec { st with
        mem := wr st.mem bf.addr bf.size,
        nused := sub64 st.nused bf.size }
      _ bf.addr hch2 hnd hsepL hltL (by omega) (by omega) hbfsep
  have hD2 : DescribesFrom 16 (wr st.mem bf.addr bf.size) st.segment_start
      (st.segment_start + st.segment_size)
      (bs1 ++ ⟨bf.addr, bf.size, false⟩ :: bs2) := by
    apply describes_append.mpr
    refine ⟨bf.addr, ?_, ?_⟩
    · apply describes_frame hDL
      intro b hbb
      exact wr_other st.mem _ (by have := hb1lt b hbb; omega)
    · refine @describes_cons_intro 16 _ _ _ ⟨bf.addr, bf.size, false⟩ bs2
        rfl ?_ hbdvd hblo ?_
      · rw [wr_same_lt st.mem bf.addr (by omega)]
        rfl
      · apply describes_frame hDrest
        intro b hbb
        exact wr_other st.mem _ (by have := hb2gt b hbb; omega)
  have hD3 : DescribesFrom 16 (add_free { st with
      mem := wr st.mem bf.addr bf.size,
      nused := sub64 st.nused bf.size } bf.addr).mem st.segment_start
      (st.segment_start + st.segment_size)
      (bs1 ++ ⟨bf.addr, bf.size, false⟩ :: bs2) := by
    apply describes_frame hD2
    intro b hbb
    rcases List.mem_append.mp hbb with h1 | h1
    · have hlt := hb1lt b h1
      apply hframe3
      · show b.addr ≠ bf.addr + 8
        omega
      · show b.addr ≠ bf.addr + 2 * 8
        omega
      · intro x hx
        exact (hcellsH x hx b (List.mem_append_left _ h1)).1
    · rcases List.mem_cons.mp h1 with h1 | h1
      · rw [h1]
        apply hframe3
        · show bf.addr ≠ bf.addr + 8
          omega
        · show bf.addr ≠ bf.addr + 2 * 8
          omega
        · intro x hx
          exact (hcellsH x hx bf hbfmem).1
      · have hgt := hb2gt b h1
        apply hframe3
        · show b.addr ≠ bf.addr + 8
          omega
        · show b.addr ≠ bf.addr + 2 * 8
          omega
        · intro x hx
          exact (hcellsH x hx b
            (List.mem_append_right _ (List.mem_cons_of_mem _ h1))).1
  have hbfnotL : bf.addr ∉ L := by
    intro hcon
    rcases hbfsep _ hcon with hq | hq <;> omega
  have hFL3 : FL (add_free { st with
      mem := wr st.mem bf.addr bf.size,
      nused := sub64 st.nused bf.size } bf.addr)
      (bs1 ++ ⟨bf.addr, bf.size, false⟩ :: bs2) (bf.addr :: L) := by
    refine ⟨hch3, List.nodup_cons.mpr ⟨hbfnotL, hnd⟩, ?_, ?_⟩
    · intro x hx
      rcases List.mem_cons.mp hx with hx | hx
      · refine ⟨⟨bf.addr, bf.size, false⟩, ?_, ?_, rfl⟩
        · exact List.mem_append_right _ (List.mem_cons_self _ _)
        · show bf.addr = x
          rw [hx]
      · obtain ⟨bx, hbx, hbxa, hbxu⟩ := hmem x hx
        have hne : bx ≠ bf := by
          intro hcon
          rw [hcon] at hbxu
          rw [hused] at hbxu
          cases hbxu
        rcases List.mem_append.mp hbx with hy | hy
        · exact ⟨bx, List.mem_append_left _ hy, hbxa, hbxu⟩
        · rcases List.mem_cons.mp hy with hy | hy
          · exact absurd hy hne
          · exact ⟨bx, List.mem_append_right _ (List.mem_cons_of_mem _ hy),
              hbxa, hbxu⟩
    · intro b hbb hbu
      rcases List.mem_append.mp hbb with h1 | h1
      · exact List.mem_cons_of_mem _
          (hfree b (List.mem_append_left _ h1) hbu)
      · rcases List.mem_cons.mp h1 with h1 | h1
        · rw [h1]
          exact List.mem_cons_self _ _
        · exact List.mem_cons_of_mem _ (hfree b
            (List.mem_append_right _ (List.mem_cons_of_mem _ h1)) hbu)
  -- run the coalescing loop
  have haf1' : (add_free { st with
      mem := wr st.mem bf.addr bf.size,
      nused := sub64 st.nused bf.size } bf.addr).segment_start
      = st.segment_start := haf1
  have haf2' : (add_free { st with
      mem := wr st.mem bf.addr bf.size,
      nused := sub64 st.nused bf.size } bf.addr).segment_size
      = st.segment_size := haf2
  have haf3' : (add_free { st with
      mem := wr st.mem bf.addr bf.size,
      nused := sub64 st.nused bf.size } bf.addr).nused
      = sub64 st.nused bf.size := haf3
  have hD3s : DescribesFrom 16 (add_free { st with
      mem := wr st.mem bf.addr bf.size,
      nused := sub64 st.nused bf.size } bf.addr).mem
      (add_free { st with
        mem := wr st.mem bf.addr bf.size,
        nused := sub64 st.nused bf.size } bf.addr).segment_start
      ((add_free { st with
        mem := wr st.mem bf.addr bf.size,
        nused := sub64 st.nused bf.size } bf.addr).segment_start +
       (add_free { st with
        mem := wr st.mem bf.addr bf.size,
        nused := sub64 st.nused bf.size } bf.addr).segment_size)
      (bs1 ++ ⟨bf.addr, bf.size, false⟩ :: bs2) := by
    rw [haf1', haf2']
    exact hD3
  obtain ⟨st', mb, bs2', L', hfuel, hD', hFL', hg1, hg2, hg3, hmba, hmbu,
    hmbsz, hexit⟩ := e_coalesceF_spec bs2 _ bs1 ⟨bf.addr, bf.size, false⟩
      (bf.addr :: L) hD3s hFL3 (by rw [haf1']; exact hb)
      (by rw [haf1', haf2']; exact he)
  rw [haf1'] at hg1
  rw [haf2'] at hg2
  rw [haf3'] at hg3
  rw [haf1', haf2'] at hD' hexit
  -- the length bound supplies enough fuel for the loop
  have hlen2 : 8 * bs2.length ≤ st.segment_start + st.segment_size -
      (bf.addr + (bf.size + 8)) := describes_length hDrest
  have hfuelbound : bs2.length + 1 ≤ (add_free { st with
      mem := wr st.mem bf.addr bf.size,
      nused := sub64 st.nused bf.size } bf.addr).segment_size + 1 := by
    rw [haf2']
    omega
  have hfr : myfree st (some (bf.addr + 8)) = st' := by
    rw [myfree]
    simp only [get_header, ALIGNMENT, Nat.add_sub_cancel, hbsz, set_free, hw2,
      word_clear_used hbdvd (by omega)]
    exact hfuel _ hfuelbound
  rw [hfr]
  rw [hmba] at hexit
  exact ⟨mb, bs2', L', hg1, hg2, hg3, hD', hFL', hmba, hmbu, hmbsz, hexit⟩

end E

namespace HeapModel

theorem add64_sub64 {n s : Nat} (hn : n < W) (hs : s < W) :
    add64 (sub64 n s) s = n := by
  rw [add64, sub64, Nat.mod_eq_of_lt hs, Nat.mod_add_mod]
  have h1 : n + (W - s) + s = n + W := by
    have := W_pos
    omega
  rw [h1, Nat.add_mod_right, Nat.mod_eq_of_lt hn]

end HeapModel

namespace E

open HeapModel

/-- The explicit `roundup` is idempotent on aligned sizes of at least 16. -/
theorem e_roundup_idem {nd : Nat} (h8 : 8 ∣ nd) (h16 : 16 ≤ nd)
    (hW : nd + 7 < W) : roundup nd ALIGNMENT = nd := by
  rw [e_roundup_eq hW]
  have hq : (nd + 7) / 8 * 8 = nd := by omega
  rw [hq, if_neg (by omega)]

end E

namespace E

open HeapModel

/-- Case 1 of the explicit `myrealloc` (`new_size ≤ old_size`): the request is
served in place. With room for a spare free block the block is split and the
tail LIFO-inserted; otherwise the state is returned completely unchanged. -/
theorem e_realloc_case1 (f : Nat) {st : St} {bs1 bs2 : List Blk} {bo : Blk}
    {L : List Nat} {ns0 : Nat}
    (hD : DescribesFrom 16 st.mem st.segment_start
      (st.segment_start + st.segment_size) (bs1 ++ bo :: bs2))
    (hFL : FL st (bs1 ++ bo :: bs2) L)
    (hb : 0 < st.segment_start)
    (he : st.segment_start + st.segment_size ≤ W)
    (hnW : st.nused < W)
    (hused : bo.used = true)
    (hns0 : ¬(ns0 = 0))
    (hnd : roundup ns0 ALIGNMENT ≤ bo.size)
    (hnd16 : 16 ≤ roundup ns0 ALIGNMENT)
    (hnd8 : 8 ∣ roundup ns0 ALIGNMENT) :
    (roundup ns0 ALIGNMENT + 24 ≤ bo.size →
      ∃ st' L',
        myreallocF (f + 1) st (some (bo.addr + 8)) ns0 =
          (some (bo.addr + 8), st') ∧
        DescribesFrom 16 st'.mem st.segment_start
          (st.segment_start + st.segment_size)
          (bs1 ++ ⟨bo.addr, roundup ns0 ALIGNMENT, true⟩ ::
            ⟨bo.addr + (roundup ns0 ALIGNMENT + 8),
              bo.size - roundup ns0 ALIGNMENT - 8, false⟩ :: bs2) ∧
        FL st' (bs1 ++ ⟨bo.addr, roundup ns0 ALIGNMENT, true⟩ ::
            ⟨bo.addr + (roundup ns0 ALIGNMENT + 8),
              bo.size - roundup ns0 ALIGNMENT - 8, false⟩ :: bs2) L' ∧
        st'.segment_start = st.segment_start ∧
        st'.segment_size = st.segment_size ∧
        st'.nused = add64 (sub64 st.nused bo.size) (roundup ns0 ALIGNMENT)) ∧
    (¬(roundup ns0 ALIGNMENT + 24 ≤ bo.size) →
      myreallocF (f + 1) st (some (bo.addr + 8)) ns0 =
        (some (bo.addr + 8), st)) := by
  obtain ⟨hch, hnd', hmem, hfree⟩ := hFL
  have hbomem : bo ∈ bs1 ++ bo :: bs2 :=
    List.mem_append_right _ (List.mem_cons_self _ _)
  obtain ⟨hword, hbdvd, hblo⟩ := describes_word hD bo hbomem
  have hbnd := describes_mem_bounds hD bo hbomem
  have hbsz : get_size st.mem bo.addr = bo.size :=
    (describes_get_size hD he bo hbomem).1
  have hszW : bo.size + 8 < W := by omega
  have hcellsH := e_cells_headers hD hmem
  obtain ⟨mid, hDL, hDR⟩ := describes_append.mp hD
  obtain ⟨hmid, -, -, -, hDrest⟩ := hDR
  subst hmid
  have hb1lt : ∀ b ∈ bs1, b.addr + (b.size + 8) ≤ bo.addr := by
    intro b hbb
    exact (describes_mem_bounds hDL b hbb).2
  have hb2gt : ∀ b ∈ bs2, bo.addr + (bo.size + 8) ≤ b.addr := by
    intro b hbb
    exact (describes_mem_bounds hDrest b hbb).1
  constructor
  · -- split sub-case
    intro h24
    have hT : get_next_header (wr st.mem bo.addr (roundup ns0 ALIGNMENT + 1))
        bo.addr = bo.addr + (roundup ns0 ALIGNMENT + 8) := by
      rw [get_next_header,
        get_size_word_used (wr_same_lt st.mem bo.addr (by omega)) hnd8 (by omega)]
      rfl
    have hmal : myreallocF (f + 1) st (some (bo.addr + 8)) ns0 =
        (some (bo.addr + 8),
          { add_free { st with
              mem := wr (wr st.mem bo.addr (roundup ns0 ALIGNMENT + 1))
                (bo.addr + (roundup ns0 ALIGNMENT + 8))
                (bo.size - roundup ns0 ALIGNMENT - ALIGNMENT),
              nused := sub64 st.nused bo.size }
              (bo.addr + (roundup ns0 ALIGNMENT + 8)) with
            nused := add64 (add_free { st with
              mem := wr (wr st.mem bo.addr (roundup ns0 ALIGNMENT + 1))
                (bo.addr + (roundup ns0 ALIGNMENT + 8))
                (bo.size - roundup ns0 ALIGNMENT - ALIGNMENT),
              nused := sub64 st.nused bo.size }
              (bo.addr + (roundup ns0 ALIGNMENT + 8))).nused
              (get_size (add_free { st with
                mem := wr (wr st.mem bo.addr (roundup ns0 ALIGNMENT + 1))
                  (bo.addr + (roundup ns0 ALIGNMENT + 8))
                  (bo.size - roundup ns0 ALIGNMENT - ALIGNMENT),
                nused := sub64 st.nused bo.size }
                (bo.addr + (roundup ns0 ALIGNMENT + 8))).mem bo.addr) }) := by
      have hgh : get_header (bo.addr + 8) = bo.addr := by
        simp [get_header, ALIGNMENT]
      rw [myreallocF]
      simp only [if_neg hns0, hgh, hbsz]
      rw [if_pos hnd]
      rw [if_pos (by show roundup ns0 ALIGNMENT + 3 * 8 ≤ bo.size; omega :
        roundup ns0 ALIGNMENT + 3 * ALIGNMENT ≤ bo.size)]
      simp only [set_used]
      rw [wr_set_used st.mem bo.addr (roundup ns0 ALIGNMENT) hnd8 (by omega)]
      rw [hT]
    have htsz16 : 16 ≤ bo.size - roundup ns0 ALIGNMENT - 8 := by omega
    have htszdvd : 8 ∣ bo.size - roundup ns0 ALIGNMENT - 8 := by
      have hrw : bo.size - roundup ns0 ALIGNMENT - 8 =
          bo.size - (roundup ns0 ALIGNMENT + 8) := by omega
      rw [hrw]
      exact Nat.dvd_sub' hbdvd (by
        rcases hnd8 with ⟨c, hc⟩
        exact ⟨c + 1, by omega⟩)
    have hsepL : Sep24 L := e_L_sep hD hmem
    have hltL : ∀ x ∈ L, x < W := e_L_ltW hD he hmem
    have hxreg : ∀ x ∈ L, ∃ bx, bx ∈ bs1 ++ bo :: bs2 ∧ bx.addr = x ∧
        (x + (bx.size + 8) ≤ bo.addr ∨ bo.addr + (bo.size + 8) ≤ x) := by
      intro x hx
      obtain ⟨bx, hbx, hbxa, hbxu⟩ := hmem x hx
      have hne : bx ≠ bo := by
        intro hcon
        rw [hcon] at hbxu
        rw [hused] at hbxu
        cases hbxu
      refine ⟨bx, hbx, hbxa, ?_⟩
      rcases describes_sep hD bx hbx bo hbomem with hq | hq | hq
      · exact absurd hq hne
      · rw [hbxa] at hq
        exact Or.inl hq
      · rw [hbxa] at hq
        exact Or.inr hq
    have hxbsz16 : ∀ bx ∈ bs1 ++ bo :: bs2, 16 ≤ bx.size := by
      intro bx hbx
      exact (describes_word hD bx hbx).2.2
    have hTnotcell : ∀ x ∈ L,
        bo.addr + (roundup ns0 ALIGNMENT + 8) ≠ get_prev_free x ∧
        bo.addr + (roundup ns0 ALIGNMENT + 8) ≠ get_next_free x := by
      intro x hx
      obtain ⟨bx, hbx, hbxa, hreg⟩ := hxreg x hx
      have h16 := hxbsz16 bx hbx
      rw [← hbxa] at hreg
      constructor
      · show bo.addr + (roundup ns0 ALIGNMENT + 8) ≠ x + 8
        omega
      · show bo.addr + (roundup ns0 ALIGNMENT + 8) ≠ x + 2 * 8
        omega
    have hTsep : ∀ x ∈ L,
        bo.addr + (roundup ns0 ALIGNMENT + 8) + 24 ≤ x ∨
        x + 24 ≤ bo.addr + (roundup ns0 ALIGNMENT + 8) := by
      intro x hx
      obtain ⟨bx, hbx, hbxa, hreg⟩ := hxreg x hx
      have h16 := hxbsz16 bx hbx
      rw [← hbxa] at hreg
      rcases hreg with hq | hq
      · right
        omega
      · left
        omega
    have hch2 : Chain (wr (wr st.mem bo.addr (roundup ns0 ALIGNMENT + 1))
        (bo.addr + (roundup ns0 ALIGNMENT + 8))
        (bo.size - roundup ns0 ALIGNMENT - ALIGNMENT)) 0 st.free_start L := by
      apply e_chain_frame hch
      intro x hx
      obtain ⟨c1, c2⟩ := hcellsH x hx bo hbomem
      obtain ⟨t1, t2⟩ := hTnotcell x hx
      constructor
      · rw [wr_other _ _ t1.symm]
        exact wr_other _ _ c1.symm
      · rw [wr_other _ _ t2.symm]
        exact wr_other _ _ c2.symm
    obtain ⟨hch3, hfs3, haf1, haf2, haf3, hframe3⟩ :=
      @e_add_free_spec { st with
          mem := wr (wr st.mem bo.addr (roundup ns0 ALIGNMENT + 1))
            (bo.addr + (roundup ns0 ALIGNMENT + 8))
            (bo.size - roundup ns0 ALIGNMENT - ALIGNMENT),
          nused := sub64 st.nused bo.size }
        _ (bo.addr + (roundup ns0 ALIGNMENT + 8))
        hch2 hnd' hsepL hltL (by omega) (by omega) hTsep
    have hD3 : DescribesFrom 16
        (wr (wr st.mem bo.addr (roundup ns0 ALIGNMENT + 1))
          (bo.addr + (roundup ns0 ALIGNMENT + 8))
          (bo.size - roundup ns0 ALIGNMENT - ALIGNMENT))
        st.segment_start (st.segment_start + st.segment_size)
        (bs1 ++ ⟨bo.addr, roundup ns0 ALIGNMENT, true⟩ ::
          ⟨bo.addr + (roundup ns0 ALIGNMENT + 8),
            bo.size - roundup ns0 ALIGNMENT - 8, false⟩ :: bs2) := by
      apply describes_append.mpr
      refine ⟨bo.addr, ?_, ?_⟩
      · apply describes_frame hDL
        intro b hbb
        have h1 := hb1lt b hbb
        rw [wr_other _ _
          (by omega : b.addr ≠ bo.addr + (roundup ns0 ALIGNMENT + 8))]
        exact wr_other st.mem _ (by omega)
      · refine @describes_cons_intro 16 _ _ _
          ⟨bo.addr, roundup ns0 ALIGNMENT, true⟩
          (⟨bo.addr + (roundup ns0 ALIGNMENT + 8),
            bo.size - roundup ns0 ALIGNMENT - 8, false⟩ :: bs2)
          rfl ?_ hnd8 (by show (16:Nat) ≤ roundup ns0 ALIGNMENT; omega) ?_
        · rw [wr_other _ _
            (by omega : bo.addr ≠ bo.addr + (roundup ns0 ALIGNMENT + 8))]
          rw [wr_same_lt st.mem bo.addr (by omega)]
          rfl
        · refine @describes_cons_intro 16 _ _ _
            ⟨bo.addr + (roundup ns0 ALIGNMENT + 8),
              bo.size - roundup ns0 ALIGNMENT - 8, false⟩ bs2
            rfl ?_ htszdvd htsz16 ?_
          · rw [wr_same_lt _ _ (by omega)]
            show bo.size - roundup ns0 ALIGNMENT - 8 =
              bo.size - roundup ns0 ALIGNMENT - 8
            rfl
          · have hend : bo.addr + (roundup ns0 ALIGNMENT + 8) +
                (bo.size - roundup ns0 ALIGNMENT - 8 + 8) =
                bo.addr + (bo.size + 8) := by omega
            rw [hend]
            apply describes_frame hDrest
            intro b hbb
            have h1 := hb2gt b hbb
            rw [wr_other _ _
              (by omega : b.addr ≠ bo.addr + (roundup ns0 ALIGNMENT + 8))]
            exact wr_other st.mem _ (by omega)
    have hD4 : DescribesFrom 16
        (add_free { st with
          mem := wr (wr st.mem bo.addr (roundup ns0 ALIGNMENT + 1))
            (bo.addr + (roundup ns0 ALIGNMENT + 8))
            (bo.size - roundup ns0 ALIGNMENT - ALIGNMENT),
          nused := sub64 st.nused bo.size }
          (bo.addr + (roundup ns0 ALIGNMENT + 8))).mem
        st.segment_start (st.segment_start + st.segment_size)
        (bs1 ++ ⟨bo.addr, roundup ns0 ALIGNMENT, true⟩ ::
          ⟨bo.addr + (roundup ns0 ALIGNMENT + 8),
            bo.size - roundup ns0 ALIGNMENT - 8, false⟩ :: bs2) := by
      apply describes_frame hD3
      intro b hbb
      rcases List.mem_append.mp hbb with h1 | h1
      · have hlt := hb1lt b h1
        apply hframe3
        · show b.addr ≠ bo.addr + (roundup ns0 ALIGNMENT + 8) + 8
          omega
        · show b.addr ≠ bo.addr + (roundup ns0 ALIGNMENT + 8) + 2 * 8
          omega
        · intro x hx
          exact (hcellsH x hx b (List.mem_append_left _ h1)).1
      · rcases List.mem_cons.mp h1 with h1 | h1
        · rw [h1]
          apply hframe3
          · show bo.addr ≠ bo.addr + (roundup ns0 ALIGNMENT + 8) + 8
            omega
          · show bo.addr ≠ bo.addr + (roundup ns0 ALIGNMENT + 8) + 2 * 8
            omega
          · intro x hx
            exact (hcellsH x hx bo hbomem).1
        · rcases List.mem_cons.mp h1 with h1 | h1
          · rw [h1]
            apply hframe3
            · show bo.addr + (roundup ns0 ALIGNMENT + 8) ≠
                bo.addr + (roundup ns0 ALIGNMENT + 8) + 8
              omega
            · show bo.addr + (roundup ns0 ALIGNMENT + 8) ≠
                bo.addr + (roundup ns0 ALIGNMENT + 8) + 2 * 8
              omega
            · intro x hx
              exact (hTnotcell x hx).1
          · have hgt := hb2gt b h1
            apply hframe3
            · show b.addr ≠ bo.addr + (roundup ns0 ALIGNMENT + 8) + 8
              omega
            · show b.addr ≠ bo.addr + (roundup ns0 ALIGNMENT + 8) + 2 * 8
              omega
            · intro x hx
              exact (hcellsH x hx b
                (List.mem_append_right _ (List.mem_cons_of_mem _ h1))).1
    have hTnotL : bo.addr + (roundup ns0 ALIGNMENT + 8) ∉ L := by
      intro hcon
      rcases hTsep _ hcon with hq | hq <;> omega
    have hgsC : get_size (add_free { st with
        mem := wr (wr st.mem bo.addr (roundup ns0 ALIGNMENT + 1))
          (bo.addr + (roundup ns0 ALIGNMENT + 8))
          (bo.size - roundup ns0 ALIGNMENT - ALIGNMENT),
        nused := sub64 st.nused bo.size }
        (bo.addr + (roundup ns0 ALIGNMENT + 8))).mem bo.addr
        = roundup ns0 ALIGNMENT := by
      have hm : (add_free { st with
          mem := wr (wr st.mem bo.addr (roundup ns0 ALIGNMENT + 1))
            (bo.addr + (roundup ns0 ALIGNMENT + 8))
            (bo.size - roundup ns0 ALIGNMENT - ALIGNMENT),
          nused := sub64 st.nused bo.size }
          (bo.addr + (roundup ns0 ALIGNMENT + 8))).mem bo.addr
          = roundup ns0 ALIGNMENT + 1 := by
        rw [hframe3 bo.addr
          (by show bo.addr ≠ bo.addr + (roundup ns0 ALIGNMENT + 8) + 8; omega)
          (by show bo.addr ≠ bo.addr + (roundup ns0 ALIGNMENT + 8) + 2 * 8; omega)
          (fun x hx => (hcellsH x hx bo hbomem).1)]
        show wr (wr st.mem bo.addr (roundup ns0 ALIGNMENT + 1))
          (bo.addr + (roundup ns0 ALIGNMENT + 8))
          (bo.size - roundup ns0 ALIGNMENT - ALIGNMENT) bo.addr
          = roundup ns0 ALIGNMENT + 1
        rw [wr_other _ _
          (by omega : bo.addr ≠ bo.addr + (roundup ns0 ALIGNMENT + 8))]
        exact wr_same_lt st.mem bo.addr (by omega)
      exact get_size_word_used hm hnd8 (by omega)
    rw [hmal]
    refine ⟨_, (bo.addr + (roundup ns0 ALIGNMENT + 8)) :: L, rfl, hD4,
      ⟨hch3, List.nodup_cons.mpr ⟨hTnotL, hnd'⟩, ?_, ?_⟩, haf1, haf2, ?_⟩
    · intro x hx
      rcases List.mem_cons.mp hx with hx | hx
      · refine ⟨⟨bo.addr + (roundup ns0 ALIGNMENT + 8),
          bo.size - roundup ns0 ALIGNMENT - 8, false⟩, ?_, ?_, rfl⟩
        · exact List.mem_append_right _
            (List.mem_cons_of_mem _ (List.mem_cons_self _ _))
        · show bo.addr + (roundup ns0 ALIGNMENT + 8) = x
          rw [hx]
      · obtain ⟨bx, hbx, hbxa, hbxu⟩ := hmem x hx
        have hne : bx ≠ bo := by
          intro hcon
          rw [hcon] at hbxu
          rw [hused] at hbxu
          cases hbxu
        rcases List.mem_append.mp hbx with hy | hy
        · exact ⟨bx, List.mem_append_left _ hy, hbxa, hbxu⟩
        · rcases List.mem_cons.mp hy with hy | hy
          · exact absurd hy hne
          · exact ⟨bx, List.mem_append_right _ (List.mem_cons_of_mem _
              (List.mem_cons_of_mem _ hy)), hbxa, hbxu⟩
    · intro b hbb hbu
      rcases List.mem_append.mp hbb with h1 | h1
      · exact List.mem_cons_of_mem _ (hfree b (List.mem_append_left _ h1) hbu)
      · rcases List.mem_cons.mp h1 with h1 | h1
        · rw [h1] at hbu
          cases hbu
        · rcases List.mem_cons.mp h1 with h1 | h1
          · rw [h1]
            exact List.mem_cons_self _ _
          · exact List.mem_cons_of_mem _ (hfree b
              (List.mem_append_right _ (List.mem_cons_of_mem _ h1)) hbu)
    · show add64 _ _ = add64 (sub64 st.nused bo.size) (roundup ns0 ALIGNMENT)
      rw [hgsC, haf3]
  · -- no room for a spare block: the state is returned untouched
    intro h24n
    have hgh : get_header (bo.addr + 8) = bo.addr := by
      simp [get_header, ALIGNMENT]
    rw [myreallocF]
    simp only [if_neg hns0, hgh, hbsz]
    rw [if_pos hnd]
    rw [if_neg (by show ¬(roundup ns0 ALIGNMENT + 3 * 8 ≤ bo.size); omega :
      ¬(roundup ns0 ALIGNMENT + 3 * ALIGNMENT ≤ bo.size))]
    rw [add64_sub64 hnW (by omega)]

end E

namespace E

open HeapModel

/-- Unconditional facts about the explicit `roundup` at multiple 8. -/
theorem e_roundup_basic (n : Nat) :
    8 ∣ roundup n ALIGNMENT ∧ 16 ≤ roundup n ALIGNMENT ∧
      roundup n ALIGNMENT < W := by
  have hmask : (n + 8 - 1) &&& (W - 8) = ((n + 7) % W) / 8 * 8 := by
    have h8 : (W : Nat) - 8 = W - 2 ^ 3 := by norm_num
    rw [show n + 8 - 1 = n + 7 from rfl, h8, and_mask_pow 3 (by norm_num)]
    norm_num
  have hru : roundup n ALIGNMENT =
      if ((n + 7) % W) / 8 * 8 < 16 then 16 else ((n + 7) % W) / 8 * 8 := by
    show (if (n + 8 - 1) &&& (W - 8) < 2 * ALIGNMENT then 2 * ALIGNMENT
      else (n + 8 - 1) &&& (W - 8)) = _
    rw [hmask]
    rfl
  have hlt : ((n + 7) % W) / 8 * 8 < W := by
    have h1 : (n + 7) % W < W := Nat.mod_lt _ W_pos
    omega
  rw [hru]
  by_cases hc : (n + 7) % W / 8 * 8 < 16
  · rw [if_pos hc]
    refine ⟨⟨2, rfl⟩, le_refl _, ?_⟩
    show (16 : Nat) < 2 ^ 64
    norm_num
  · rw [if_neg hc]
    exact ⟨⟨(n + 7) % W / 8, by omega⟩, by omega, hlt⟩

/-- `mymalloc` preserves the explicit-heap invariant. -/
theorem e_mymalloc_inv {st : St} (h : Inv st) (r : Nat) : Inv (mymalloc st r).2 := by
  obtain ⟨bs, L, hD, hFL, hb, he, hs24, hnu⟩ := h
  rcases e_mymalloc_spec hD hFL he hb r with ⟨-, hst⟩ |
    ⟨p, bs', L', -, h1, h2, h3, h4, h5, -, -⟩
  · rw [hst]
    exact ⟨bs, L, hD, hFL, hb, he, hs24, hnu⟩
  · refine ⟨bs', L', ?_, h5, ?_, ?_, ?_, h3⟩
    · rw [h1, h2]
      exact h4
    · rw [h1]; exact hb
    · rw [h1, h2]; exact he
    · rw [h2]; exact hs24

/-- `myfree` preserves the explicit-heap invariant on `NULL` or live input. -/
theorem e_myfree_inv {st : St} (h : Inv st) (p : Option Nat)
    (hp : p = none ∨ ∃ a, p = some a ∧ isLive st a = true) : Inv (myfree st p) := by
  obtain ⟨bs, L, hD, hFL, hb, he, hs24, hnu⟩ := h
  rcases hp with rfl | ⟨a, rfl, hlive⟩
  · exact ⟨bs, L, hD, hFL, hb, he, hs24, hnu⟩
  · obtain ⟨bf, hbf, hbfa, hbfu⟩ := (e_isLive_iff hD he a).mp hlive
    obtain ⟨bs1, bs2, rfl⟩ := List.append_of_mem hbf
    subst hbfa
    obtain ⟨mb, bs2', L', hg1, hg2, hg3, hD', hFL', -, -, -, -⟩ :=
      e_myfree_spec hD hFL hb he hbfu
    refine ⟨bs1 ++ mb :: bs2', L', ?_, hFL', ?_, ?_, ?_, ?_⟩
    · rw [hg1, hg2]
      exact hD'
    · rw [hg1]; exact hb
    · rw [hg1, hg2]; exact he
    · rw [hg2]; exact hs24
    · rw [hg3, sub64]
      exact Nat.mod_lt _ W_pos

end E

namespace E

open HeapModel

/-- Copying into the payload of a used block changes no header word and no
free-list link cell, so the description and the free-list invariant survive. -/
theorem e_memcpy_inv {st : St} {bs : List Blk} {L : List Nat} {bn : Blk}
    {src cnt : Nat}
    (hD : DescribesFrom 16 st.mem st.segment_start
      (st.segment_start + st.segment_size) bs)
    (hFL : FL st bs L)
    (hbn : bn ∈ bs) (hbnu : bn.used = true) (hcnt : cnt ≤ bn.size) :
    DescribesFrom 16 (memcpyWords st.mem (bn.addr + 8) src cnt) st.segment_start
      (st.segment_start + st.segment_size) bs ∧
    FL { st with mem := memcpyWords st.mem (bn.addr + 8) src cnt } bs L := by
  obtain ⟨hch, hnd, hmem, hfree⟩ := hFL
  have hout : ∀ q : Nat, (q < bn.addr + 8 ∨ bn.addr + (bn.size + 8) ≤ q) →
      memcpyWords st.mem (bn.addr + 8) src cnt q = st.mem q := by
    intro q hq
    apply memcpyWords_outside
    rcases hq with hq | hq
    · exact Or.inl hq
    · right
      omega
  have hD2 : DescribesFrom 16 (memcpyWords st.mem (bn.addr + 8) src cnt)
      st.segment_start (st.segment_start + st.segment_size) bs := by
    apply describes_frame hD
    intro b hbb
    apply hout
    rcases describes_sep hD b hbb bn hbn with hq | hq | hq
    · left
      rw [hq]
      omega
    · left
      have h16 := (describes_word hD b hbb).2.2
      omega
    · right
      omega
  refine ⟨hD2, ?_, hnd, hmem, hfree⟩
  apply e_chain_frame hch
  intro x hx
  obtain ⟨bx, hbx, hbxa, hbxu⟩ := hmem x hx
  have hne : bx ≠ bn := by
    intro hcon
    rw [hcon] at hbxu
    rw [hbnu] at hbxu
    cases hbxu
  have h16 := (describes_word hD bx hbx).2.2
  rcases describes_sep hD bx hbx bn hbn with hq | hq | hq
  · exact absurd hq hne
  · rw [hbxa] at hq
    constructor
    · apply hout
      left
      show x + 8 < bn.addr + 8
      omega
    · apply hout
      left
      show x + 2 * 8 < bn.addr + 8
      omega
  · rw [hbxa] at hq
    constructor
    · apply hout
      right
      show bn.addr + (bn.size + 8) ≤ x + 8
      omega
    · apply hout
      right
      show bn.addr + (bn.size + 8) ≤ x + 2 * 8
      omega

end E

namespace E

open HeapModel

/-- `myrealloc` preserves the explicit-heap invariant on `NULL` or live
input. -/
theorem e_myrealloc_inv {st : St} (h : Inv st) (p : Option Nat) (n : Nat)
    (hp : p = none ∨ ∃ a, p = some a ∧ isLive st a = true) :
    Inv (myrealloc st p n).2 := by
  rcases hp with rfl | ⟨a, rfl, hlive⟩
  · have hh : (myrealloc st none n).2 = (mymalloc st n).2 := by
      rw [myrealloc, myreallocF]
    rw [hh]
    exact e_mymalloc_inv h n
  · by_cases hn0 : n = 0
    · subst hn0
      have hh : myrealloc st (some a) 0 = (none, myfree st (some a)) := by
        rw [myrealloc, myreallocF]
        rw [if_pos rfl]
      rw [hh]
      exact e_myfree_inv h _ (Or.inr ⟨a, rfl, hlive⟩)
    · obtain ⟨bs, L, hD, hFL, hb, he, hs24, hnu⟩ := h
      obtain ⟨bo, hbo, hboa, hbou⟩ := (e_isLive_iff hD he a).mp hlive
      subst hboa
      obtain ⟨h8nd, h16nd, hndW⟩ := e_roundup_basic n
      have hbsz : get_size st.mem bo.addr = bo.size :=
        (describes_get_size hD he bo hbo).1
      have hbnd := describes_mem_bounds hD bo hbo
      have hgh : get_header (bo.addr + 8) = bo.addr := by
        simp [get_header, ALIGNMENT]
      rw [myrealloc]
      by_cases hcase1 : roundup n ALIGNMENT ≤ bo.size
      · -- case 1 (in place), directly
        obtain ⟨bs1, bs2, rfl⟩ := List.append_of_mem hbo
        obtain ⟨hA, hB⟩ := e_realloc_case1 1 hD hFL hb he hnu hbou hn0 hcase1
          h16nd h8nd
        by_cases h24 : roundup n ALIGNMENT + 24 ≤ bo.size
        · obtain ⟨st', L', heq, hD', hFL', hf1, hf2, hf3⟩ := hA h24
          have h2 : (myreallocF 2 st (some (bo.addr + 8)) n).2 = st' := by
            show (myreallocF (1 + 1) st (some (bo.addr + 8)) n).2 = st'
            rw [heq]
          rw [h2]
          refine ⟨_, L', ?_, hFL', ?_, ?_, ?_, ?_⟩
          · rw [hf1, hf2]
            exact hD'
          · rw [hf1]; exact hb
          · rw [hf1, hf2]; exact he
          · rw [hf2]; exact hs24
          · rw [hf3, add64]
            exact Nat.mod_lt _ W_pos
        · have heq := hB h24
          have h2 : (myreallocF 2 st (some (bo.addr + 8)) n).2 = st := by
            show (myreallocF (1 + 1) st (some (bo.addr + 8)) n).2 = st
            rw [heq]
          rw [h2]
          exact ⟨_, _, hD, hFL, hb, he, hs24, hnu⟩
      · -- case 2/3: the absorb loop, then in place or allocate-copy-free
        obtain ⟨bs1, bs2, rfl⟩ := List.append_of_mem hbo
        have hnuW1 : sub64 st.nused bo.size < W := by
          rw [sub64]
          exact Nat.mod_lt _ W_pos
        obtain ⟨st', mb, bs2', L', hit, hfuel, hD', hFL', hg1, hg2, hg3, hmba,
          hmbu, hmbsz, hhit⟩ :=
          e_absorbF_spec bs2 { st with nused := sub64 st.nused bo.size } bs1 bo L
            (roundup n ALIGNMENT) hD hFL hb he
        have hg1' : st'.segment_start = st.segment_start := hg1
        have hg2' : st'.segment_size = st.segment_size := hg2
        have hg3' : st'.nused = sub64 st.nused bo.size := hg3
        have hmba' : mb.addr = bo.addr := hmba
        have hmbu' : mb.used = true := by
          rw [hmbu, hbou]
        have hlen2 : bs2.length + 1 ≤
            ({ st with nused := sub64 st.nused bo.size } : St).segment_size + 1 := by
          show bs2.length + 1 ≤ st.segment_size + 1
          have h1 := describes_length hD
          have h2 : (bs1 ++ bo :: bs2).length = bs1.length + (bs2.length + 1) := by
            simp
          omega
        have habs := hfuel _ hlen2
        have hD'' : DescribesFrom 16 st'.mem st.segment_start
            (st.segment_start + st.segment_size) (bs1 ++ mb :: bs2') := hD'
        have hFL'' : FL st' (bs1 ++ mb :: bs2') L' := hFL'
        have hmal2 : myreallocF 2 st (some (bo.addr + 8)) n =
            (if hit = true then
              myreallocF 1 st' (some (bo.addr + 8)) (roundup n ALIGNMENT)
            else
              match mymalloc st' (roundup n ALIGNMENT) with
              | (none, stD) => (none, stD)
              | (some new_p, stD) =>
                (some new_p,
                  myfree { { stD with
                      mem := memcpyWords stD.mem new_p (bo.addr + 8) bo.size } with
                    nused := add64 ({ stD with
                      mem := memcpyWords stD.mem new_p (bo.addr + 8) bo.size } : St).nused
                      (get_size ({ stD with
                        mem := memcpyWords stD.mem new_p (bo.addr + 8) bo.size } : St).mem
                        bo.addr) }
                  (some (bo.addr + 8)))) := by
          show myreallocF (1 + 1) st (some (bo.addr + 8)) n = _
          rw [myreallocF]
          simp only [if_neg hn0, hgh, hbsz]
          rw [if_neg hcase1]
          simp only [habs]
        rw [hmal2]
        cases hit with
        | true =>
          rw [if_pos rfl]
          -- the single recursive call, landing in case 1
          have hidem : roundup (roundup n ALIGNMENT) ALIGNMENT =
              roundup n ALIGNMENT := by
            apply e_roundup_idem h8nd h16nd
            rcases h8nd with ⟨c, hc⟩
            have hW8 : (8 : Nat) ∣ W := ⟨2 ^ 61, by show (2:Nat) ^ 64 = 8 * 2 ^ 61; norm_num⟩
            rcases hW8 with ⟨d, hdW⟩
            omega
          have hndle : roundup (roundup n ALIGNMENT) ALIGNMENT ≤ mb.size := by
            rw [hidem]
            exact hhit rfl
          obtain ⟨bsA, bsB, hsp⟩ := List.append_of_mem
            (List.mem_append_right bs1 (List.mem_cons_self mb bs2') :
              mb ∈ bs1 ++ mb :: bs2')
          have hDx : DescribesFrom 16 st'.mem st'.segment_start
              (st'.segment_start + st'.segment_size) (bsA ++ mb :: bsB) := by
            rw [hg1', hg2', ← hsp]
            exact hD''
          have hFLx : FL st' (bsA ++ mb :: bsB) L' := by
            rw [← hsp]
            exact hFL''
          obtain ⟨hA, hB⟩ := e_realloc_case1 0 hDx hFLx
            (by rw [hg1']; exact hb)
            (by rw [hg1', hg2']; exact he)
            (by rw [hg3']; exact hnuW1)
            hmbu'
            (by intro hcon; omega)
            hndle
            (by rw [hidem]; exact h16nd)
            (by rw [hidem]; exact h8nd)
          rw [← hmba']
          by_cases h24 : roundup (roundup n ALIGNMENT) ALIGNMENT + 24 ≤ mb.size
          · obtain ⟨st2, L2, heq, hD2, hFL2, hf1, hf2, hf3⟩ := hA h24
            have h2 : (myreallocF 1 st' (some (mb.addr + 8))
                (roundup n ALIGNMENT)).2 = st2 := by
              show (myreallocF (0 + 1) st' (some (mb.addr + 8))
                (roundup n ALIGNMENT)).2 = st2
              rw [heq]
            rw [h2]
            refine ⟨_, L2, ?_, hFL2, ?_, ?_, ?_, ?_⟩
            · rw [hf1, hf2]
              exact hD2
            · rw [hf1, hg1']; exact hb
            · rw [hf1, hf2, hg1', hg2']; exact he
            · rw [hf2, hg2']; exact hs24
            · rw [hf3, add64]
              exact Nat.mod_lt _ W_pos
          · have heq := hB h24
            have h2 : (myreallocF 1 st' (some (mb.addr + 8))
                (roundup n ALIGNMENT)).2 = st' := by
              show (myreallocF (0 + 1) st' (some (mb.addr + 8))
                (roundup n ALIGNMENT)).2 = st'
              rw [heq]
            rw [h2]
            refine ⟨_, L', ?_, hFL'', ?_, ?_, ?_, ?_⟩
            · rw [hg1', hg2']
              exact hD''
            · rw [hg1']; exact hb
            · rw [hg1', hg2']; exact he
            · rw [hg2']; exact hs24
            · rw [hg3']; exact hnuW1
        | false =>
          rw [if_neg (by simp)]
          -- case 3: allocate, copy, free
          have hDy : DescribesFrom 16 st'.mem st'.segment_start
              (st'.segment_start + st'.segment_size) (bs1 ++ mb :: bs2') := by
            rw [hg1', hg2']
            exact hD''
          rcases hmc : mymalloc st' (roundup n ALIGNMENT) with ⟨onp, stD⟩
          rcases e_mymalloc_spec hDy hFL'' (by rw [hg1', hg2']; exact he)
              (by rw [hg1']; exact hb) (roundup n ALIGNMENT) with
            ⟨hnone, hsame⟩ | ⟨p2, bs3, L3, hsome, hk1, hk2, hk3, hk4, hk5, hblk, hpres⟩
          · rw [hmc] at hnone hsame
            simp only [hmc]
            dsimp only at hnone hsame ⊢
            rw [hnone]
            dsimp only
            rw [hsame]
            refine ⟨_, L', ?_, hFL'', ?_, ?_, ?_, ?_⟩
            · rw [hg1', hg2']
              exact hD''
            · rw [hg1']; exact hb
            · rw [hg1', hg2']; exact he
            · rw [hg2']; exact hs24
            · rw [hg3']; exact hnuW1
          · rw [hmc] at hsome hk1 hk2 hk3 hk4 hk5
            dsimp only at hsome hk1 hk2 hk3 hk4 hk5
            simp only [hmc]
            rw [hsome]
            dsimp only
            -- fields of the post-malloc state in base terms
            have hk1' : stD.segment_start = st.segment_start := by
              rw [hk1, hg1']
            have hk2' : stD.segment_size = st.segment_size := by
              rw [hk2, hg2']
            obtain ⟨bn, hbn, hbnp, hbnu, hbnsz⟩ := hblk
            -- the old block survives the allocation
            have hmbD : mb ∈ bs3 := hpres mb
              (List.mem_append_right _ (List.mem_cons_self _ _)) hmbu'
            -- copy into the fresh block's payload
            have hDk : DescribesFrom 16 stD.mem stD.segment_start
                (stD.segment_start + stD.segment_size) bs3 := by
              rw [hk1, hk2]
              exact hk4
            have hcnt : bo.size ≤ bn.size := by
              have h1 : roundup n ALIGNMENT ≤ bn.size := hbnsz
              omega
            obtain ⟨hDm, hFLm⟩ := e_memcpy_inv hDk hk5 hbn hbnu hcnt
            rw [← hbnp]
            -- invariant of the pre-free state
            have hIF : Inv { { stD with
                mem := memcpyWords stD.mem (bn.addr + 8) (bo.addr + 8) bo.size } with
              nused := add64 ({ stD with
                mem := memcpyWords stD.mem (bn.addr + 8) (bo.addr + 8) bo.size } : St).nused
                (get_size ({ stD with
                  mem := memcpyWords stD.mem (bn.addr + 8) (bo.addr + 8) bo.size } : St).mem
                  bo.addr) } := by
              refine ⟨bs3, L3, ?_, hFLm, ?_, ?_, ?_, ?_⟩
              · exact hDm
              · show 0 < stD.segment_start
                rw [hk1']
                exact hb
              · show stD.segment_start + stD.segment_size ≤ W
                rw [hk1', hk2']
                exact he
              · show 24 ≤ stD.segment_size
                rw [hk2']
                exact hs24
              · show add64 _ _ < W
                rw [add64]
                exact Nat.mod_lt _ W_pos
            have hliveF : isLive { { stD with
                mem := memcpyWords stD.mem (bn.addr + 8) (bo.addr + 8) bo.size } with
              nused := add64 ({ stD with
                mem := memcpyWords stD.mem (bn.addr + 8) (bo.addr + 8) bo.size } : St).nused
                (get_size ({ stD with
                  mem := memcpyWords stD.mem (bn.addr + 8) (bo.addr + 8) bo.size } : St).mem
                  bo.addr) } (bo.addr + 8) = true := by
              have hDF : DescribesFrom 16
                  (memcpyWords stD.mem (bn.addr + 8) (bo.addr + 8) bo.size)
                  stD.segment_start (stD.segment_start + stD.segment_size) bs3 := hDm
              refine (e_isLive_iff hDF ?_ (bo.addr + 8)).mpr ⟨mb, hmbD, ?_, hmbu'⟩
              · rw [hk1', hk2']
                exact he
              · rw [hmba']
            exact e_myfree_inv hIF _ (Or.inr ⟨bo.addr + 8, rfl, hliveF⟩)

end E

namespace E

open HeapModel

/-- Every reachable explicit-heap state satisfies the invariant. -/
theorem e_reachable_inv : ∀ {st : St}, Reachable st → Inv st := by
  intro st h
  induction h with
  | init st0 base len hb h8b h8l hW hok => exact e_myinit_inv hb h8l hW hok
  | mallocStep r hR ih => exact e_mymalloc_inv ih r
  | freeStep p hR hp ih => exact e_myfree_inv ih p hp
  | reallocStep p n hR hp ih => exact e_myrealloc_inv ih p n hp

/-- In every reachable explicit-heap state the header walk accounts for the
whole segment. -/
theorem e_reachable_heapTotal {st : St} (h : Reachable st) :
    heapTotal st.mem st.segment_start st.segment_size = some st.segment_size := by
  obtain ⟨bs, L, hD, -, hb, he, -, -⟩ := e_reachable_inv h
  exact describes_heapTotal hD he hb

/-- In every reachable explicit-heap state all block sizes are multiples of 8
and at least 16. -/
theorem e_reachable_sizes {st : St} (h : Reachable st) :
    ∀ hd ∈ headersOf st, 8 ∣ get_size st.mem hd ∧ 16 ≤ get_size st.mem hd := by
  obtain ⟨bs, L, hD, -, hb, he, -, -⟩ := e_reachable_inv h
  intro hd hmem
  rw [e_headersOf_eq hD he] at hmem
  obtain ⟨b, hb', rfl⟩ := List.mem_map.mp hmem
  have hgs := (describes_get_size hD he b hb').1
  rw [hgs]
  exact ⟨(describes_word hD b hb').2.1, (describes_word hD b hb').2.2⟩

end E

/-! ### Concrete scenario states used by the claim theorems -/

/-- An arbitrary pristine implicit-variant state (all memory zero). -/
def st0I : Impl.St :=
  { mem := fun _ => 0, segment_start := 0, segment_size := 0, nused := 0 }

/-- An arbitrary pristine explicit-variant state (all memory zero). -/
def st0E : E.St :=
  { mem := fun _ => 0, segment_start := 0, segment_size := 0, nused := 0,
    free_start := 0 }

/-- Fresh-heap-fill scenario: explicit `init(4096, 256)`. -/
def c7s1 : E.St := (E.myinit st0E 4096 256).2

/-- First `alloc(16)` of the fresh-heap-fill scenario. -/
def c7r1 : Option Nat × E.St := E.mymalloc c7s1 16

/-- Second `alloc(16)` of the fresh-heap-fill scenario. -/
def c7r2 : Option Nat × E.St := E.mymalloc c7r1.2 16

/-- Third `alloc(16)` of the fresh-heap-fill scenario. -/
def c7r3 : Option Nat × E.St := E.mymalloc c7r2.2 16

/-- Accounting scenario: third allocation, `alloc(100)`. -/
def c4r3 : Option Nat × E.St := E.mymalloc c7r2.2 100

/-- Accounting scenario: free the middle allocation. -/
def c4s5 : E.St := E.myfree c4r3.2 (some 4128)

/-- Accounting scenario: grow the first allocation in place,
`resize(a, 40)`. -/
def c4r6 : Option Nat × E.St := E.myrealloc c4s5 (some 4104) 40

/-- Implicit-variant scenario: `init(4096, 256)` then `alloc(16)`. -/
def ci1 : Impl.St := (Impl.myinit st0I 4096 256).2

/-- Implicit-variant scenario: the first `alloc(16)`. -/
def cir1 : Option Nat × Impl.St := Impl.mymalloc ci1 16

namespace E

open HeapModel

/-- With enough fuel, `freeListF` follows the chain and returns exactly the
list of nodes. -/
theorem e_freeListF_eq {m : Nat → Nat} :
    ∀ {L : List Nat} {prv cur : Nat}, Chain m prv cur L →
      ∀ f, L.length ≤ f → freeListF m f cur = L := by
  intro L
  induction L with
  | nil =>
    intro prv cur h f hf
    have hc : cur = 0 := h
    subst hc
    cases f with
    | zero => rfl
    | succ f =>
      rw [freeListF]
      simp
  | cons a L ih =>
    intro prv cur h f hf
    obtain ⟨hcur, ha0, hprev, htail⟩ := h
    subst hcur
    cases f with
    | zero => simp at hf
    | succ f =>
      rw [freeListF, if_neg ha0]
      rw [ih htail f (by simp at hf ⊢; omega)]

/-- In every reachable explicit state the computed free list is exactly the
invariant's node list. -/
theorem e_freeListOf_eq {st : St} {bs : List Blk} {L : List Nat}
    (hD : DescribesFrom 16 st.mem st.segment_start
      (st.segment_start + st.segment_size) bs)
    (hFL : FL st bs L) : freeListOf st = L := by
  obtain ⟨hch, hnd, hmem, -⟩ := hFL
  have h1 := e_L_length hnd hmem
  have h2 := describes_length hD
  exact e_freeListF_eq hch _ (by omega)

end E

/-! ### Claim theorems -/

/-- C1 (amended): segment tiling. In both variants, for every state reachable
from a successful aligned `init` by any sequence of `alloc`/`free`/`resize`
calls, walking headers from `segment_start` by `next_header` tiles the segment
exactly: the accumulated sum over all blocks of `size + ALIGNMENT` equals
`segment_size`; in the implicit variant `validate_heap`'s first pass therefore
succeeds. -/
theorem C1_segment_tiling :
    (∀ st : Impl.St, Impl.Reachable st →
      HeapModel.heapTotal st.mem st.segment_start st.segment_size =
        some st.segment_size ∧ Impl.validate_heap st = true) ∧
    (∀ st : E.St, E.Reachable st →
      HeapModel.heapTotal st.mem st.segment_start st.segment_size =
        some st.segment_size) := by
  constructor
  · intro st h
    have hht := Impl.reachable_heapTotal h
    refine ⟨hht, ?_⟩
    rw [Impl.validate_heap, hht]
    simp
  · intro st h
    exact E.e_reachable_heapTotal h

/-- C1 witness: the invariant instantiated on concrete freshly
initialised heaps of both variants. -/
theorem C1_segment_tiling_witness :
    HeapModel.heapTotal ci1.mem ci1.segment_start ci1.segment_size =
      some ci1.segment_size ∧
    HeapModel.heapTotal c7s1.mem c7s1.segment_start c7s1.segment_size =
      some c7s1.segment_size := by
  constructor
  · exact (C1_segment_tiling.1 ci1 (Impl.Reachable.init st0I 4096 256
      (by decide) (by decide) (by decide) (by decide) (by decide))).1
  · exact C1_segment_tiling.2 c7s1 (E.Reachable.init st0E 4096 256
      (by decide) (by decide) (by decide) (by decide) (by decide))

/-- C1 counterexample to the unamended claim: `init(4096, 31)` succeeds in the
implicit variant, yet the header walk accumulates 38 ≠ 31 and `validate_heap`
fails, because the unaligned length breaks the tiling. -/
theorem C1_counterexample :
    (Impl.myinit st0I 4096 31).1 = true ∧
    HeapModel.heapTotal (Impl.myinit st0I 4096 31).2.mem
      (Impl.myinit st0I 4096 31).2.segment_start
      (Impl.myinit st0I 4096 31).2.segment_size = some 38 ∧
    (Impl.myinit st0I 4096 31).2.segment_size = 31 ∧
    Impl.validate_heap (Impl.myinit st0I 4096 31).2 = false := by
  refine ⟨?_, ?_, ?_, ?_⟩ <;> decide

/-- C2 (amended): free-list fidelity of the explicit variant. In every state
reachable from a successful aligned `init`, a block header's used bit is 0 if
and only if that header is on the doubly linked free list, and the free list
holds no duplicates. -/
theorem C2_free_list_fidelity :
    ∀ st : E.St, E.Reachable st →
      (E.freeListOf st).Nodup ∧
      ∀ hd ∈ E.headersOf st,
        (HeapModel.is_used st.mem hd = false ↔ hd ∈ E.freeListOf st) := by
  intro st h
  obtain ⟨bs, L, hD, hFL, hb, he, hs24, hnu⟩ := E.e_reachable_inv h
  have hfl := E.e_freeListOf_eq hD hFL
  obtain ⟨hch, hnd, hmem, hfree⟩ := hFL
  rw [hfl, E.e_headersOf_eq hD he]
  refine ⟨hnd, ?_⟩
  intro hd hmem2
  obtain ⟨b, hbmem, rfl⟩ := List.mem_map.mp hmem2
  have hu := (HeapModel.describes_get_size hD he b hbmem).2
  rw [hu]
  constructor
  · intro hbu
    exact hfree b hbmem hbu
  · intro hin
    obtain ⟨b2, hb2, hb2a, hb2u⟩ := hmem _ hin
    have hbb : b2 = b := HeapModel.describes_addr_inj hD b2 hb2 b hbmem hb2a
    rw [← hbb]
    exact hb2u

/-- C2 witness: free-list fidelity on the concrete three-allocation heap. -/
theorem C2_free_list_fidelity_witness :
    (E.freeListOf c7r3.2).Nodup ∧
    ∀ hd ∈ E.headersOf c7r3.2,
      (HeapModel.is_used c7r3.2.mem hd = false ↔ hd ∈ E.freeListOf c7r3.2) :=
  C2_free_list_fidelity c7r3.2
    (E.Reachable.mallocStep 16 (E.Reachable.mallocStep 16
      (E.Reachable.mallocStep 16 (E.Reachable.init st0E 4096 256
        (by decide) (by decide) (by decide) (by decide) (by decide)))))

/-- C2 counterexample to the unamended claim: after the successful
`init(4096, 31)`, the lone block sits on the free list while its header's
used bit reads 1, because the unaligned length leaks into the bit packing. -/
theorem C2_counterexample :
    (E.myinit st0E 4096 31).1 = true ∧
    4096 ∈ E.freeListOf (E.myinit st0E 4096 31).2 ∧
    HeapModel.is_used (E.myinit st0E 4096 31).2.mem 4096 = true := by
  refine ⟨?_, ?_, ?_⟩ <;> decide

/-- C3 (amended): rejection atomicity. `alloc` with requested size 0 or above
`MAX_REQUEST_SIZE` returns `none` and leaves the state untouched in both
variants, and so does `resize` when its old pointer is `NULL`; `resize` on a
live pointer with size 0 instead frees the block. -/
theorem C3_rejection_atomicity :
    ∀ r : Nat, r = 0 ∨ HeapModel.MAX_REQUEST_SIZE < r →
      (∀ st : Impl.St, Impl.mymalloc st r = (none, st) ∧
        Impl.myrealloc st none r = (none, st)) ∧
      (∀ st : E.St, E.mymalloc st r = (none, st) ∧
        E.myrealloc st none r = (none, st)) := by
  intro r hr
  constructor
  · intro st
    have h1 : Impl.mymalloc st r = (none, st) := by
      rw [Impl.mymalloc, if_pos hr]
    refine ⟨h1, ?_⟩
    rw [Impl.myrealloc]
    simp only [h1]
  · intro st
    have h1 : E.mymalloc st r = (none, st) := by
      rw [E.mymalloc, if_pos hr]
    refine ⟨h1, ?_⟩
    show E.myreallocF (1 + 1) st none r = (none, st)
    rw [E.myreallocF]
    exact h1

/-- C3 witness: rejection of a zero-size request on concrete states. -/
theorem C3_rejection_atomicity_witness :
    ((0 : Nat) = 0 ∨ HeapModel.MAX_REQUEST_SIZE < 0) ∧
    Impl.mymalloc st0I 0 = (none, st0I) ∧
    Impl.myrealloc st0I none 0 = (none, st0I) ∧
    E.mymalloc st0E 0 = (none, st0E) ∧
    E.myrealloc st0E none 0 = (none, st0E) :=
  ⟨Or.inl rfl,
    ((C3_rejection_atomicity 0 (Or.inl rfl)).1 st0I).1,
    ((C3_rejection_atomicity 0 (Or.inl rfl)).1 st0I).2,
    ((C3_rejection_atomicity 0 (Or.inl rfl)).2 st0E).1,
    ((C3_rejection_atomicity 0 (Or.inl rfl)).2 st0E).2⟩

/-- C3 counterexample to the unamended claim: `resize(p, 0)` on a live
pointer returns `none` but does NOT leave the heap unchanged — it frees the
block, dropping `nused` from 16 to 0. -/
theorem C3_counterexample :
    (E.myrealloc c7r1.2 (some 4104) 0).1 = none ∧
    c7r1.2.nused = 16 ∧
    (E.myrealloc c7r1.2 (some 4104) 0).2.nused = 0 := by
  refine ⟨?_, ?_, ?_⟩ <;> decide

/-- C4 (bug exhibit): the explicit `myrealloc` grow-in-place path subtracts
`old_size` from `nused` both before the absorb loop and again inside its one
recursive call, so after `alloc(16); alloc(16); alloc(100); free(second);
resize(first, 40)` the live requests total 140 bytes while `nused` is only
104 — the accounting lower bound `nused ≥ sum of live requested sizes` is
violated even though `validate_heap` still passes. -/
theorem C4_nused_undercount :
    c7r1.1 = some 4104 ∧ c4r3.1 = some 4152 ∧ c4r6.1 = some 4104 ∧
    E.isLive c4r6.2 4104 = true ∧ E.isLive c4r6.2 4152 = true ∧
    E.validate_heap c4r6.2 = true ∧
    c4r6.2.nused = 104 ∧ c4r6.2.nused < 40 + 100 := by
  refine ⟨?_, ?_, ?_, ?_, ?_, ?_, ?_, ?_⟩ <;> decide

/-- C5 (amended, explicit variant): resizing a live block to the size
recorded in its own header returns the same pointer and leaves the entire
state — every byte included — unchanged. The implicit variant instead always
relocates (see the counterexample). -/
theorem C5_same_size_resize_explicit :
    ∀ (st : E.St), E.Reachable st → ∀ p, E.isLive st p = true →
      E.myrealloc st (some p) (HeapModel.get_size st.mem (HeapModel.get_header p)) =
        (some p, st) := by
  intro st h p hlive
  obtain ⟨bs, L, hD, hFL, hb, he, hs24, hnu⟩ := E.e_reachable_inv h
  obtain ⟨bo, hbo, hboa, hbou⟩ := (E.e_isLive_iff hD he p).mp hlive
  subst hboa
  obtain ⟨hword, h8, h16⟩ := HeapModel.describes_word hD bo hbo
  have hbnd := HeapModel.describes_mem_bounds hD bo hbo
  have hgh : HeapModel.get_header (bo.addr + 8) = bo.addr := by
    simp [HeapModel.get_header, HeapModel.ALIGNMENT]
  have hbsz : HeapModel.get_size st.mem bo.addr = bo.size :=
    (HeapModel.describes_get_size hD he bo hbo).1
  rw [hgh, hbsz]
  obtain ⟨bs1, bs2, rfl⟩ := List.append_of_mem hbo
  have hidem : E.roundup bo.size HeapModel.ALIGNMENT = bo.size :=
    E.e_roundup_idem h8 h16 (by
      have := HeapModel.W_pos
      omega)
  obtain ⟨-, hB⟩ := E.e_realloc_case1 1 hD hFL hb he hnu hbou
    (by omega : ¬(bo.size = 0))
    (by rw [hidem] : E.roundup bo.size HeapModel.ALIGNMENT ≤ bo.size)
    (by rw [hidem]; exact h16) (by rw [hidem]; exact h8)
  have heq := hB (by rw [hidem]; omega)
  show E.myreallocF (1 + 1) st (some (bo.addr + 8)) bo.size =
    (some (bo.addr + 8), st)
  exact heq

/-- C5 witness: same-size resize on the concrete one-allocation heap. -/
theorem C5_same_size_resize_explicit_witness :
    E.isLive c7r1.2 4104 = true ∧
    E.myrealloc c7r1.2 (some 4104)
      (HeapModel.get_size c7r1.2.mem (HeapModel.get_header 4104)) =
      (some 4104, c7r1.2) :=
  ⟨by decide, C5_same_size_resize_explicit c7r1.2
    (E.Reachable.mallocStep 16 (E.Reachable.init st0E 4096 256
      (by decide) (by decide) (by decide) (by decide) (by decide)))
    4104 (by decide)⟩

/-- C5 counterexample for the implicit variant: resizing the live 16-byte
block at payload 4104 to its own recorded size 16 returns a DIFFERENT
pointer (4128), because the implicit `myrealloc` always allocates, copies
and frees. -/
theorem C5_counterexample :
    Impl.isLive cir1.2 4104 = true ∧
    HeapModel.get_size cir1.2.mem (HeapModel.get_header 4104) = 16 ∧
    (Impl.myrealloc cir1.2 (some 4104) 16).1 = some 4128 ∧
    some (4128 : Nat) ≠ some (4104 : Nat) := by
  refine ⟨?_, ?_, ?_, ?_⟩ <;> decide

/-- C6: right-coalescing completeness of the explicit variant. Immediately
after freeing a live payload `x`, the block that now contains `x` has no
free right neighbour: its next header is past the segment end or used. -/
theorem C6_right_coalescing :
    ∀ (st : E.St), E.Reachable st → ∀ x, E.isLive st x = true →
      (HeapModel.is_past_end st.segment_start st.segment_size
          (HeapModel.get_next_header (E.myfree st (some x)).mem (x - 8)) = true ∨
        HeapModel.is_used (E.myfree st (some x)).mem
          (HeapModel.get_next_header (E.myfree st (some x)).mem (x - 8)) = true) := by
  intro st h x hlive
  obtain ⟨bs, L, hD, hFL, hb, he, hs24, hnu⟩ := E.e_reachable_inv h
  obtain ⟨bf, hbf, hbfa, hbfu⟩ := (E.e_isLive_iff hD he x).mp hlive
  subst hbfa
  obtain ⟨bs1, bs2, rfl⟩ := List.append_of_mem hbf
  obtain ⟨mb, bs2', L', hg1, hg2, hg3, hD', hFL', hmba, hmbu, hmbsz, hexit⟩ :=
    E.e_myfree_spec hD hFL hb he hbfu
  have hx8 : bf.addr + 8 - 8 = bf.addr := by omega
  rw [hx8]
  exact hexit

/-- C6 witness: freeing the lone live allocation of the concrete heap leaves
its block with a past-end right neighbour. -/
theorem C6_right_coalescing_witness :
    E.isLive c7r1.2 4104 = true ∧
    (HeapModel.is_past_end c7r1.2.segment_start c7r1.2.segment_size
        (HeapModel.get_next_header (E.myfree c7r1.2 (some 4104)).mem (4104 - 8)) =
          true ∨
      HeapModel.is_used (E.myfree c7r1.2 (some 4104)).mem
        (HeapModel.get_next_header (E.myfree c7r1.2 (some 4104)).mem (4104 - 8)) =
          true) :=
  ⟨by decide, C6_right_coalescing c7r1.2
    (E.Reachable.mallocStep 16 (E.Reachable.init st0E 4096 256
      (by decide) (by decide) (by decide) (by decide) (by decide)))
    4104 (by decide)⟩

/-- C7: fresh-heap-fill scenario of the explicit variant. After
`init(4096, 256)` and three `alloc(16)` calls, the payloads are the three
distinct addresses 4104, 4128, 4152, each block records size 16, `nused` is
48, the trailing block of size 176 is free and on the free list, and
`validate_heap` succeeds. -/
theorem C7_fresh_heap_fill :
    c7r1.1 = some 4104 ∧ c7r2.1 = some 4128 ∧ c7r3.1 = some 4152 ∧
    HeapModel.get_size c7r3.2.mem 4096 = 16 ∧
    HeapModel.get_size c7r3.2.mem 4120 = 16 ∧
    HeapModel.get_size c7r3.2.mem 4144 = 16 ∧
    c7r3.2.nused = 48 ∧
    HeapModel.get_size c7r3.2.mem 4168 = 176 ∧
    HeapModel.is_used c7r3.2.mem 4168 = false ∧
    4168 ∈ E.freeListOf c7r3.2 ∧
    E.validate_heap c7r3.2 = true := by
  refine ⟨?_, ?_, ?_, ?_, ?_, ?_, ?_, ?_, ?_, ?_, ?_⟩ <;> decide

/-- C8 (amended): block-size invariant. In every state reachable from a
successful aligned `init`, every block's size is a multiple of `ALIGNMENT`,
and is at least `ALIGNMENT` in the implicit variant and at least
`2 * ALIGNMENT` in the explicit variant. -/
theorem C8_block_sizes :
    (∀ st : Impl.St, Impl.Reachable st → ∀ hd ∈ Impl.headersOf st,
      8 ∣ HeapModel.get_size st.mem hd ∧ 8 ≤ HeapModel.get_size st.mem hd) ∧
    (∀ st : E.St, E.Reachable st → ∀ hd ∈ E.headersOf st,
      8 ∣ HeapModel.get_size st.mem hd ∧ 16 ≤ HeapModel.get_size st.mem hd) :=
  ⟨fun _ h => Impl.reachable_sizes h, fun _ h => E.e_reachable_sizes h⟩

/-- C8 witness: the size invariant on the two concrete fresh heaps. -/
theorem C8_block_sizes_witness :
    (8 ∣ HeapModel.get_size ci1.mem 4096 ∧
      8 ≤ HeapModel.get_size ci1.mem 4096) ∧
    (8 ∣ HeapModel.get_size c7s1.mem 4096 ∧
      16 ≤ HeapModel.get_size c7s1.mem 4096) :=
  ⟨C8_block_sizes.1 ci1 (Impl.Reachable.init st0I 4096 256
      (by decide) (by decide) (by decide) (by decide) (by decide))
    4096 (by decide),
  C8_block_sizes.2 c7s1 (E.Reachable.init st0E 4096 256
      (by decide) (by decide) (by decide) (by decide) (by decide))
    4096 (by decide)⟩

/-- C8 counterexample to the unamended claim: successful inits with unaligned
lengths (31 explicit, 30 implicit) create blocks of size 22, which is not a
multiple of 8. -/
theorem C8_counterexample :
    (E.myinit st0E 4096 31).1 = true ∧
    HeapModel.get_size (E.myinit st0E 4096 31).2.mem 4096 = 22 ∧
    ¬(8 ∣ HeapModel.get_size (E.myinit st0E 4096 31).2.mem 4096) ∧
    (Impl.myinit st0I 4096 30).1 = true ∧
    HeapModel.get_size (Impl.myinit st0I 4096 30).2.mem 4096 = 22 ∧
    ¬(8 ∣ HeapModel.get_size (Impl.myinit st0I 4096 30).2.mem 4096) := by
  refine ⟨?_, ?_, ?_, ?_, ?_, ?_⟩ <;> decide

/-- C9: effect of a failed `init`. When the length is below the variant's
minimum, `init` returns false but has already overwritten `segment_start`
with the new base, while memory, `segment_size`, `nused` and (explicit)
`free_start` keep their prior values — a previously initialised heap is not
left intact. -/
theorem C9_failed_init :
    (∀ (st0 : Impl.St) (base len : Nat), len < 2 * HeapModel.ALIGNMENT →
      Impl.myinit st0 base len = (false, { st0 with segment_start := base })) ∧
    (∀ (st0 : E.St) (base len : Nat), len < 3 * HeapModel.ALIGNMENT →
      E.myinit st0 base len = (false, { st0 with segment_start := base })) := by
  constructor
  · intro st0 base len hlen
    rw [Impl.myinit, if_pos hlen]
  · intro st0 base len hlen
    rw [E.myinit, if_pos hlen]

/-- C9 witness: failed re-inits of concretely initialised heaps overwrite
only `segment_start`. -/
theorem C9_failed_init_witness :
    (8 < 2 * HeapModel.ALIGNMENT) ∧
    Impl.myinit ci1 8192 8 = (false, { ci1 with segment_start := 8192 }) ∧
    (16 < 3 * HeapModel.ALIGNMENT) ∧
    E.myinit c7s1 8192 16 = (false, { c7s1 with segment_start := 8192 }) :=
  ⟨by decide, C9_failed_init.1 ci1 8192 8 (by decide),
    by decide, C9_failed_init.2 c7s1 8192 16 (by decide)⟩

/-- C10: header-walk termination. On any memory whose blocks tile a segment,
`next_header` advances by at least `ALIGNMENT` from every block header, and
the header walk completes (returns `some`) within `segment_size + 1` steps;
consequently in every reachable state of either variant the walk underlying
`validate_heap`/`dump_heap` terminates, visiting exactly the block headers. -/
theorem C10_walk_termination :
    (∀ (m : Nat → Nat) (lo start size : Nat) (bs : List HeapModel.Blk),
      HeapModel.DescribesFrom lo m start (start + size) bs → start + size ≤ HeapModel.W →
      (∀ hd ∈ bs.map HeapModel.Blk.addr,
        hd + HeapModel.ALIGNMENT ≤ HeapModel.get_next_header m hd) ∧
      HeapModel.walkHeadersF m (start + size) (size + 1) start =
        some (bs.map HeapModel.Blk.addr)) ∧
    (∀ st : Impl.St, Impl.Reachable st →
      HeapModel.walkHeadersF st.mem (st.segment_start + st.segment_size)
        (st.segment_size + 1) st.segment_start = some (Impl.headersOf st)) ∧
    (∀ st : E.St, E.Reachable st →
      HeapModel.walkHeadersF st.mem (st.segment_start + st.segment_size)
        (st.segment_size + 1) st.segment_start = some (E.headersOf st)) := by
  refine ⟨?_, ?_, ?_⟩
  · intro m lo start size bs hD he
    constructor
    · intro hd hmem
      show hd + HeapModel.ALIGNMENT ≤
        hd + (HeapModel.get_size m hd + HeapModel.ALIGNMENT)
      omega
    · have hlen : bs.length ≤ size + 1 := by
        have := HeapModel.describes_length hD
        omega
      exact HeapModel.describes_walk hD he _ hlen
  · intro st h
    obtain ⟨bs, hD, hb, he, -, -⟩ := Impl.reachable_inv h
    have hlen : bs.length ≤ st.segment_size + 1 := by
      have := HeapModel.describes_length hD
      omega
    have hw := HeapModel.describes_walk hD he _ hlen
    rw [Impl.headersOf, hw]
    simp
  · intro st h
    obtain ⟨bs, L, hD, -, hb, he, -, -⟩ := E.e_reachable_inv h
    have hlen : bs.length ≤ st.segment_size + 1 := by
      have := HeapModel.describes_length hD
      omega
    have hw := HeapModel.describes_walk hD he _ hlen
    rw [E.headersOf, hw]
    simp

/-- C10 witness: the walk terminates on the concrete fresh heaps of both
variants. -/
theorem C10_walk_termination_witness :
    HeapModel.walkHeadersF ci1.mem (ci1.segment_start + ci1.segment_size)
      (ci1.segment_size + 1) ci1.segment_start = some (Impl.headersOf ci1) ∧
    HeapModel.walkHeadersF c7s1.mem (c7s1.segment_start + c7s1.segment_size)
      (c7s1.segment_size + 1) c7s1.segment_start = some (E.headersOf c7s1) :=
  ⟨C10_walk_termination.2.1 ci1
      (Impl.Reachable.init st0I 4096 256
        (by decide) (by decide) (by decide) (by decide) (by decide)),
    C10_walk_termination.2.2 c7s1
      (E.Reachable.init st0E 4096 256
        (by decide) (by decide) (by decide) (by decide) (by decide))⟩
